import Mathlib

/-!
BassMINT: a shallow embedding of the firmware core.

The C++ sources are embedded as pure Lean functions.

* `uint8_t`, `uint32_t` and `size_t` values are natural numbers; a cast or an
  arithmetic step that can leave the type's range carries an explicit `%`.
* `int` values are integers.
* `float` values are rationals (only finite values are represented); sums,
  products and quotients of them are taken exactly, and `std::log2` is a parameter
  of the functions that call it.
* The UART is an output stream: every function that transmits returns the list
  of bytes it hands to `uart_putc_raw`, oldest first.
-/

namespace BassMINT

/-! ## core/Types.h -/

/-- Number of strings, `NUM_STRINGS`. -/
def NUM_STRINGS : Nat := 4

/-- MIDI channel used for every note, `MIDI_CHANNEL`. -/
def MIDI_CHANNEL : Nat := 0

/-- Note-on velocity, `DEFAULT_VELOCITY`. -/
def DEFAULT_VELOCITY : Nat := 100

/-- The `std::clamp` of `<algorithm>` on `int`: `(v < lo) ? lo : (hi < v) ? hi : v`. -/
def clampInt (v lo hi : Int) : Int :=
  if v < lo then lo else if hi < v then hi else v

/-- The cast `static_cast<uint8_t>` of an `int`. -/
def toUInt8 (v : Int) : Nat := (v % 256).toNat

/-! ## core/SysExEncoder -/

namespace SysExEncoder

/-- The struct `FretSysExPayload`; `string` is the `uint8_t` behind the `StringId` enum. -/
structure FretSysExPayload where
  string : Nat
  fret : Int
  midiNote : Nat
  velocity : Nat
  deriving DecidableEq, Repr

def SYSEX_START : Nat := 0xF0
def SYSEX_END : Nat := 0xF7
def MANUFACTURER_ID : Nat := 0x7D
def BASSMINT_ID_1 : Nat := 0x42
def BASSMINT_ID_2 : Nat := 0x4D
def PROTOCOL_VERSION : Nat := 0x01

/-- The function `SysExEncoder::encode`: the ten bytes of the returned `std::array`. -/
def encode (payload : FretSysExPayload) : List Nat :=
  let stringId := (payload.string % 256) &&& 0x7F
  let fret := toUInt8 (clampInt payload.fret 0 127) &&& 0x7F
  let midiNote := (payload.midiNote % 256) &&& 0x7F
  let velocity := (payload.velocity % 256) &&& 0x7F
  [SYSEX_START, MANUFACTURER_ID, BASSMINT_ID_1, BASSMINT_ID_2, PROTOCOL_VERSION,
    stringId, fret, midiNote, velocity, SYSEX_END]

end SysExEncoder

/-! ## hal/MidiDinOut -/

def MIDI_NOTE_OFF : Nat := 0x80
def MIDI_NOTE_ON : Nat := 0x90
def MIDI_CONTROL_CHANGE : Nat := 0xB0

/-- The class `MidiDinOut`: its only member is the flag `initialized_`. -/
structure MidiDinOut where
  initialized : Bool
  deriving DecidableEq, Repr

namespace MidiDinOut

/-- The transport as constructed (`initialized_ = false`). -/
def mk0 : MidiDinOut := { initialized := false }

/-- The method `MidiDinOut::init`. -/
def init (_d : MidiDinOut) : MidiDinOut := { initialized := true }

/-- The method `MidiDinOut::sendMessage`; `data` is `none` for a null pointer.
The result is the bytes written to the UART. -/
def sendMessage (d : MidiDinOut) (data : Option (List Nat)) (length : Nat) : List Nat :=
  match data with
  | none => []
  | some bytes => if !d.initialized then [] else bytes.take length

/-- The method `MidiDinOut::sendNoteOn`. -/
def sendNoteOn (d : MidiDinOut) (channel note velocity : Nat) : List Nat :=
  if !d.initialized then []
  else
    let channel := channel &&& 0x0F
    let note := note &&& 0x7F
    let velocity := velocity &&& 0x7F
    sendMessage d (some [(MIDI_NOTE_ON ||| channel) % 256, note, velocity]) 3

/-- The method `MidiDinOut::sendNoteOff`. -/
def sendNoteOff (d : MidiDinOut) (channel note velocity : Nat) : List Nat :=
  if !d.initialized then []
  else
    let channel := channel &&& 0x0F
    let note := note &&& 0x7F
    let velocity := velocity &&& 0x7F
    sendMessage d (some [(MIDI_NOTE_OFF ||| channel) % 256, note, velocity]) 3

/-- The method `MidiDinOut::sendControlChange`. -/
def sendControlChange (d : MidiDinOut) (channel controller value : Nat) : List Nat :=
  if !d.initialized then []
  else
    let channel := channel &&& 0x0F
    let controller := controller &&& 0x7F
    let value := value &&& 0x7F
    sendMessage d (some [(MIDI_CONTROL_CHANGE ||| channel) % 256, controller, value]) 3

/-- The method `MidiDinOut::sendSysEx`. -/
def sendSysEx (d : MidiDinOut) (data : Option (List Nat)) (length : Nat) : List Nat :=
  if !d.initialized || data.isNone || length < 2 then []
  else sendMessage d data length

end MidiDinOut

/-! ## dsp/RingBuffer.h -/

/-- The class template `RingBuffer<T, SIZE>`: the array `buffer_` (a map from
slot index to sample) and the two `uint32_t` indices. -/
structure RingBuffer (T : Type) (SIZE : Nat) where
  buffer : Nat → T
  writeIndex : Nat
  readIndex : Nat

namespace RingBuffer

variable {T : Type} {SIZE : Nat}

/-- The constant `MASK = SIZE - 1`, a `uint32_t`. -/
def MASK (SIZE : Nat) : Nat := (SIZE + 2 ^ 32 - 1) % 2 ^ 32

/-- The constructor: both indices 0, the array zero-filled. -/
def empty (T : Type) [Zero T] (SIZE : Nat) : RingBuffer T SIZE :=
  { buffer := fun _ => 0, writeIndex := 0, readIndex := 0 }

/-- The method `push`: the returned flag and the buffer afterwards. -/
def push (b : RingBuffer T SIZE) (sample : T) : Bool × RingBuffer T SIZE :=
  let nextWrite := ((b.writeIndex + 1) % 2 ^ 32) &&& MASK SIZE
  if nextWrite = b.readIndex then (false, b)
  else
    (true, { b with
      buffer := fun i => if i = b.writeIndex then sample else b.buffer i
      writeIndex := nextWrite })

/-- The method `pop`: `none` stands for the result `false` (nothing is written to
the output parameter), `some x` for `true` with `x` stored in it. -/
def pop (b : RingBuffer T SIZE) : Option T × RingBuffer T SIZE :=
  if b.readIndex = b.writeIndex then (none, b)
  else
    (some (b.buffer b.readIndex),
      { b with readIndex := ((b.readIndex + 1) % 2 ^ 32) &&& MASK SIZE })

/-- The method `getAvailable`: 32-bit wrap-around subtraction, then the mask. -/
def getAvailable (b : RingBuffer T SIZE) : Nat :=
  ((b.writeIndex + 2 ^ 32 - b.readIndex) % 2 ^ 32) &&& MASK SIZE

/-- The method `getFree`, in `size_t` (32-bit) arithmetic. -/
def getFree (b : RingBuffer T SIZE) : Nat :=
  (SIZE + 2 ^ 32 + 2 ^ 32 - getAvailable b - 1) % 2 ^ 32

/-- The method `isEmpty`. -/
def isEmpty (b : RingBuffer T SIZE) : Bool := decide (b.readIndex = b.writeIndex)

/-- The method `clear`. -/
def clear (b : RingBuffer T SIZE) : RingBuffer T SIZE :=
  { b with readIndex := b.writeIndex }

/-- The function `capacity`. -/
def capacity (SIZE : Nat) : Nat := SIZE - 1

/-- The method `peek`: the number of samples written to `output` and those
samples, `output[0]` first. -/
def peek (b : RingBuffer T SIZE) (count : Nat) : Nat × List T :=
  let available := getAvailable b
  let toPeek := if count < available then count else available
  (toPeek, (List.range toPeek).map
    (fun i => b.buffer (((b.readIndex + i) % 2 ^ 32) &&& MASK SIZE)))

/-- The loop of `read`: `n` iterations, each copying the slot at the read index
and advancing that index. -/
def readLoop (b : RingBuffer T SIZE) : Nat → List T × RingBuffer T SIZE
  | 0 => ([], b)
  | n + 1 =>
    let x := b.buffer b.readIndex
    let r := readLoop { b with readIndex := ((b.readIndex + 1) % 2 ^ 32) &&& MASK SIZE } n
    (x :: r.1, r.2)

/-- The method `read`: the number of samples read, the samples written to
`output`, and the buffer afterwards. -/
def read (b : RingBuffer T SIZE) (count : Nat) : Nat × List T × RingBuffer T SIZE :=
  let available := getAvailable b
  let toRead := if count < available then count else available
  let r := readLoop b toRead
  (toRead, r.1, r.2)

/-- Both indices are below the buffer size. -/
def IndicesOk (k : Nat) (b : RingBuffer T (2 ^ k)) : Prop :=
  b.writeIndex < 2 ^ k ∧ b.readIndex < 2 ^ k

/-- One call on the buffer's public interface. -/
inductive Op (T : Type) where
  | push (sample : T)
  | pop
  | read (count : Nat)
  | peek (count : Nat)
  | clear

/-- The buffer after one call. -/
def step (b : RingBuffer T SIZE) : Op T → RingBuffer T SIZE
  | .push x => (push b x).2
  | .pop => (pop b).2
  | .read n => (read b n).2.2
  | .peek _ => b
  | .clear => clear b

/-- The buffer after a sequence of calls, first call first. -/
def run (b : RingBuffer T SIZE) (ops : List (Op T)) : RingBuffer T SIZE :=
  ops.foldl step b

/-- Consecutive pushes: the flag each one returned, and the buffer afterwards. -/
def pushAll (b : RingBuffer T SIZE) : List T → List Bool × RingBuffer T SIZE
  | [] => ([], b)
  | x :: xs =>
    let r := pushAll (push b x).2 xs
    ((push b x).1 :: r.1, r.2)

/-- The samples pushed and not yet consumed, oldest first: the slots from the
read index up to (excluding) the write index, in ring order. -/
def unread (b : RingBuffer T SIZE) : List T :=
  (List.range (getAvailable b)).map
    (fun i => b.buffer (((b.readIndex + i) % 2 ^ 32) &&& MASK SIZE))

/-- One call on a bounded first-in-first-out queue of capacity `cap`, the queue
being the list of its items, oldest first. -/
def fifoStep (cap : Nat) (q : List T) : Op T → List T
  | .push x => if q.length < cap then q ++ [x] else q
  | .pop => q.drop 1
  | .read n => q.drop n
  | .peek _ => q
  | .clear => []

/-- The bounded queue after a sequence of calls, starting empty. -/
def fifoRun (cap : Nat) (ops : List (Op T)) : List T :=
  ops.foldl (fifoStep cap) []

end RingBuffer

/-! ## core/Types.h: pitch and fret records -/

/-- The enum `StringState`. -/
inductive StringState where
  | Idle
  | Active
  | Attack
  | Release
  deriving DecidableEq, Repr

/-- The struct `PitchEstimate`. -/
structure PitchEstimate where
  frequencyHz : ℚ
  confidence : ℚ
  deriving DecidableEq

/-- The method `PitchEstimate::isValid`. -/
def PitchEstimate.isValid (p : PitchEstimate) : Bool := decide (p.confidence > 0)

/-- The struct `FretPosition`; `string` is the `uint8_t` behind the `StringId` enum. -/
structure FretPosition where
  string : Nat
  fret : Int
  frequency : ℚ
  confidence : ℚ
  deriving DecidableEq

/-- The default constructor `FretPosition()`: string E, fret 0, frequency 0, confidence 0. -/
def FretPosition.default : FretPosition :=
  { string := 0, fret := 0, frequency := 0, confidence := 0 }

/-- The method `FretPosition::isValid`. -/
def FretPosition.isValid (f : FretPosition) : Bool :=
  decide (f.confidence > 0) && decide (f.fret ≥ 0)

/-! ## core/NoteMapping -/

namespace NoteMapping

/-- The table `OPEN_STRING_MIDI_NOTES`. -/
def OPEN_STRING_MIDI_NOTES : List Nat := [28, 33, 38, 43]

/-- The constant `MAX_FRET`. -/
def MAX_FRET : Int := 24

/-- The function `NoteMapping::getOpenStringMidiNote`. -/
def getOpenStringMidiNote (string : Nat) : Nat :=
  let index := string % 256
  if index ≥ NUM_STRINGS then 0 else OPEN_STRING_MIDI_NOTES.getD index 0

/-- The function `NoteMapping::fretToMidiNote`. -/
def fretToMidiNote (string : Nat) (fret : Int) : Nat :=
  let index := string % 256
  if index ≥ NUM_STRINGS then 0
  else
    let clampedFret := clampInt fret 0 MAX_FRET
    let midiNote : Int := (OPEN_STRING_MIDI_NOTES.getD index 0 : Nat) + clampedFret
    toUInt8 (clampInt midiNote 0 127)

/-- The function `NoteMapping::mapPitchToFret`. The function
`NoteMapping::frequencyToFret` it calls computes with `std::log2` and
`std::round` on `float`; it is passed in as `frequencyToFret`. -/
def mapPitchToFret (frequencyToFret : Nat → ℚ → Int) (string : Nat)
    (pitch : PitchEstimate) : FretPosition :=
  if !pitch.isValid then FretPosition.default
  else
    let fret := frequencyToFret string pitch.frequencyHz
    if fret < 0 then FretPosition.default
    else
      { string := string, fret := fret, frequency := pitch.frequencyHz,
        confidence := pitch.confidence }

/-- The table `OPEN_STRING_FREQUENCIES` (the decimal values of the literals). -/
def OPEN_STRING_FREQUENCIES : List ℚ := [41203 / 1000, 55, 73416 / 1000, 97999 / 1000]

/-- The function `NoteMapping::getOpenStringFrequency`. -/
def getOpenStringFrequency (string : Nat) : ℚ :=
  let index := string % 256
  if index ≥ NUM_STRINGS then 0 else OPEN_STRING_FREQUENCIES.getD index 0

/-- The expression `static_cast<int>(std::round(x))`: rounding to the nearest
integer, halfway cases away from zero. -/
def roundToInt (x : ℚ) : Int :=
  if 0 ≤ x then ⌊x + 1 / 2⌋ else -⌊-x + 1 / 2⌋

/-- The function `NoteMapping::frequencyToFret`. The library function
`std::log2` is passed in as `log2`; the products, quotients and sums around it
are taken exactly. -/
def frequencyToFret (log2 : ℚ → ℚ) (string : Nat) (frequencyHz : ℚ) : Int :=
  if frequencyHz ≤ 0 then -1
  else
    let openStringFreq := getOpenStringFrequency string
    if openStringFreq = 0 then -1
    else
      let fretFloat := 12 * log2 (frequencyHz / openStringFreq)
      let fret := roundToInt fretFloat
      if fret < 0 then 0 else if fret > MAX_FRET then MAX_FRET else fret

/-- The function `NoteMapping::isFrequencyPlausible`. -/
def isFrequencyPlausible (string : Nat) (frequencyHz : ℚ) : Bool :=
  if frequencyHz ≤ 0 then false
  else
    let openStringFreq := getOpenStringFrequency string
    let minFreq := openStringFreq * (9 / 10)
    let maxFreq := openStringFreq * (9 / 2)
    decide (frequencyHz ≥ minFreq) && decide (frequencyHz ≤ maxFreq)

/-- A stand-in for `std::log2` in the examples: exact at 1/2, 1, 2 and 4. -/
def exampleLog2 : ℚ → ℚ :=
  fun q => if q = 1 then 0 else if q = 2 then 1 else if q = 4 then 2
    else if q = 1 / 2 then -1 else 0

end NoteMapping

/-! ## app/App -/

namespace App

/-- The method `App::onAdcSample`, acting on the array `stringProcessors_`.
The method `StringProcessor::pushSample` is passed in as `pushSample`; it
returns its flag and the processor afterwards. -/
def onAdcSample {P : Type} (pushSample : P → Nat → Bool × P) (stringProcessors : List P)
    (stringId sample : Nat) : List P :=
  let index := stringId % 256
  if index < NUM_STRINGS then
    match stringProcessors[index]? with
    | some processor => stringProcessors.set index (pushSample processor sample).2
    | none => stringProcessors
  else stringProcessors

end App

/-- The function `SysExEncoder::fromFretPosition`. -/
def SysExEncoder.fromFretPosition (fretPos : FretPosition) (velocity : Nat) :
    SysExEncoder.FretSysExPayload :=
  let midiNote := NoteMapping.fretToMidiNote fretPos.string fretPos.fret
  { string := fretPos.string, fret := fretPos.fret, midiNote := midiNote,
    velocity := velocity }

/-! ## app/StringManager -/

/-- What `StringManager::update` reads from its `const StringProcessor&`
argument: the values of `getStringId()`, `getState()`, `getLatestPitch()` and
`isActive()`. -/
structure ProcessorView where
  stringId : Nat
  state : StringState
  latestPitch : PitchEstimate
  isActive : Bool
  deriving DecidableEq

/-- The data members of the class `StringManager` (the reference `midiOut_` is
passed to every method that transmits). -/
structure StringManager where
  stringId : Nat
  noteOn : Bool
  currentMidiNote : Nat
  currentFret : Int
  lastValidFret : FretPosition
  fretChangeCounter : Int
  pendingFret : Int
  deriving DecidableEq

namespace StringManager

/-- The constant `FRET_CHANGE_THRESHOLD`. -/
def FRET_CHANGE_THRESHOLD : Int := 3

/-- The constructor `StringManager::StringManager`. -/
def new (stringId : Nat) : StringManager :=
  { stringId := stringId, noteOn := false, currentMidiNote := 0, currentFret := -1,
    lastValidFret := FretPosition.default, fretChangeCounter := 0, pendingFret := -1 }

/-- The method `StringManager::sendNoteOn`: the manager afterwards and the bytes
transmitted. -/
def sendNoteOn (m : StringManager) (midiOut : MidiDinOut) (fretPos : FretPosition) :
    StringManager × List Nat :=
  let midiNote := NoteMapping.fretToMidiNote fretPos.string fretPos.fret
  let out1 := midiOut.sendNoteOn MIDI_CHANNEL midiNote DEFAULT_VELOCITY
  let sysexPayload := SysExEncoder.fromFretPosition fretPos DEFAULT_VELOCITY
  let sysexMsg := SysExEncoder.encode sysexPayload
  let out2 := midiOut.sendSysEx (some sysexMsg) sysexMsg.length
  ({ m with noteOn := true, currentMidiNote := midiNote, currentFret := fretPos.fret,
            lastValidFret := fretPos }, out1 ++ out2)

/-- The method `StringManager::sendNoteOff`. -/
def sendNoteOff (m : StringManager) (midiOut : MidiDinOut) : StringManager × List Nat :=
  if !m.noteOn then (m, [])
  else
    let out := midiOut.sendNoteOff MIDI_CHANNEL m.currentMidiNote 64
    ({ m with noteOn := false, currentMidiNote := 0, currentFret := -1 }, out)

/-- The method `StringManager::handleAttack`. -/
def handleAttack (m : StringManager) (midiOut : MidiDinOut) (fretPos : FretPosition) :
    StringManager × List Nat :=
  sendNoteOn m midiOut fretPos

/-- The method `StringManager::handleRelease`. -/
def handleRelease (m : StringManager) (midiOut : MidiDinOut) : StringManager × List Nat :=
  sendNoteOff m midiOut

/-- The method `StringManager::handleFretChange`. -/
def handleFretChange (m : StringManager) (midiOut : MidiDinOut) (newFretPos : FretPosition) :
    StringManager × List Nat :=
  let m1 : StringManager :=
    if newFretPos.fret = m.pendingFret then
      { m with fretChangeCounter := m.fretChangeCounter + 1 }
    else
      { m with pendingFret := newFretPos.fret, fretChangeCounter := 1 }
  if m1.fretChangeCounter ≥ FRET_CHANGE_THRESHOLD then
    let r1 := sendNoteOff m1 midiOut
    let r2 := sendNoteOn r1.1 midiOut newFretPos
    ({ r2.1 with fretChangeCounter := 0, pendingFret := -1 }, r1.2 ++ r2.2)
  else (m1, [])

/-- The local `currentFretPos` of `StringManager::update`. -/
def currentFretPos (frequencyToFret : Nat → ℚ → Int) (m : StringManager)
    (processor : ProcessorView) : FretPosition :=
  if processor.latestPitch.isValid && processor.isActive then
    NoteMapping.mapPitchToFret frequencyToFret m.stringId processor.latestPitch
  else FretPosition.default

/-- The method `StringManager::update`: the manager afterwards and the bytes
transmitted during the call. -/
def update (frequencyToFret : Nat → ℚ → Int) (m : StringManager) (midiOut : MidiDinOut)
    (processor : ProcessorView) : StringManager × List Nat :=
  if processor.stringId ≠ m.stringId then (m, [])
  else
    let fretPos := currentFretPos frequencyToFret m processor
    match processor.state with
    | .Attack =>
      if fretPos.isValid then handleAttack m midiOut fretPos else (m, [])
    | .Active =>
      if fretPos.isValid then
        let r : StringManager × List Nat :=
          if m.noteOn then
            if fretPos.fret ≠ m.currentFret then handleFretChange m midiOut fretPos
            else ({ m with fretChangeCounter := 0, pendingFret := -1 }, [])
          else handleAttack m midiOut fretPos
        ({ r.1 with lastValidFret := fretPos }, r.2)
      else (m, [])
    | .Release => if m.noteOn then handleRelease m midiOut else (m, [])
    | .Idle => if m.noteOn then handleRelease m midiOut else (m, [])

/-- The method `StringManager::forceNoteOff`. -/
def forceNoteOff (m : StringManager) (midiOut : MidiDinOut) : StringManager × List Nat :=
  if m.noteOn then sendNoteOff m midiOut else (m, [])

/-- The manager after a sequence of `update` calls, first call first. -/
def stateAfter (frequencyToFret : Nat → ℚ → Int) (midiOut : MidiDinOut)
    (m : StringManager) (ticks : List ProcessorView) : StringManager :=
  ticks.foldl (fun s p => (update frequencyToFret s midiOut p).1) m

/-- The bytes transmitted by a sequence of `update` calls, in order. -/
def emitted (frequencyToFret : Nat → ℚ → Int) (midiOut : MidiDinOut) :
    StringManager → List ProcessorView → List Nat
  | _, [] => []
  | m, p :: ps =>
    (update frequencyToFret m midiOut p).2 ++
      emitted frequencyToFret midiOut (update frequencyToFret m midiOut p).1 ps

/-- The bytes transmitted by a run: the `update` calls, then `forceNoteOff`. -/
def runThenForceOff (frequencyToFret : Nat → ℚ → Int) (midiOut : MidiDinOut)
    (m : StringManager) (ticks : List ProcessorView) : List Nat :=
  emitted frequencyToFret midiOut m ticks ++
    (forceNoteOff (stateAfter frequencyToFret midiOut m ticks) midiOut).2

/-- The processor view `p` is a tick of string `string` in state `state` whose
pitch is valid, whose processor is active and whose frequency maps to fret
`fret`. -/
def Reports (frequencyToFret : Nat → ℚ → Int) (string : Nat) (p : ProcessorView)
    (state : StringState) (fret : Int) : Prop :=
  p.stringId = string ∧ p.state = state ∧ p.latestPitch.isValid = true ∧
    p.isActive = true ∧ frequencyToFret string p.latestPitch.frequencyHz = fret

instance (frequencyToFret : Nat → ℚ → Int) (string : Nat) (p : ProcessorView)
    (state : StringState) (fret : Int) :
    Decidable (Reports frequencyToFret string p state fret) := by
  unfold Reports; infer_instance

/-- The bytes of a note-on for `fret` on `string`: the Note-On message on
`MIDI_CHANNEL` with `DEFAULT_VELOCITY`, then the SysEx frame. -/
def noteOnBytes (string : Nat) (fret : Int) : List Nat :=
  [0x90, NoteMapping.fretToMidiNote string fret, 100] ++
    SysExEncoder.encode
      { string := string, fret := fret,
        midiNote := NoteMapping.fretToMidiNote string fret, velocity := 100 }

/-- The bytes of a note-off for `note`: the Note-Off message on `MIDI_CHANNEL`
with release velocity 64. -/
def noteOffBytes (note : Nat) : List Nat := [0x80, note, 64]

/-- The manager before tick number `t` (counting from 0) of the tick sequence
`ticks`, starting from the constructed manager of `string`. -/
def stateBefore (frequencyToFret : Nat → ℚ → Int) (midiOut : MidiDinOut) (string : Nat)
    (ticks : List ProcessorView) (t : Nat) : StringManager :=
  stateAfter frequencyToFret midiOut (new string) (ticks.take t)

/-- The MIDI messages of a byte stream: every status byte (`≥ 0x80`) starts a
message that runs up to the next status byte. -/
def messages (bytes : List Nat) : List (List Nat) :=
  (bytes.foldr
    (fun b (acc : List Nat × List (List Nat)) =>
      if 0x80 ≤ b then ([], (b :: acc.1) :: acc.2) else (b :: acc.1, acc.2))
    ([], [])).2

/-- The Note-On and Note-Off messages of a message list strictly alternate,
starting from the sounding note `cur` (`none`: no note is on): a Note-On comes
only while no note is on, a Note-Off only while a note is on and carries that
note's number, and at the end no note is on. Other messages are passed over. -/
def alternates : Option Nat → List (List Nat) → Bool
  | cur, [] => cur.isNone
  | cur, msg :: rest =>
    if msg.getD 0 0 / 16 = 0x9 then cur.isNone && alternates (some (msg.getD 1 0)) rest
    else if msg.getD 0 0 / 16 = 0x8 then
      (cur == some (msg.getD 1 0)) && alternates none rest
    else alternates cur rest

/-- The claim C2 for one transmitted byte stream. -/
def NoStuckNotes (bytes : List Nat) : Bool := alternates none (messages bytes)

/-- A fret map for the examples (E string): 55 Hz is fret 5, 58 Hz fret 6,
62 Hz fret 7. -/
def exampleFret : Nat → ℚ → Int :=
  fun _ q => if q = 55 then 5 else if q = 58 then 6 else if q = 62 then 7 else -1

/-- An E-string tick in state `state` with a confident pitch of `freq` Hz. -/
def pitchedTick (state : StringState) (freq : ℚ) : ProcessorView :=
  { stringId := 0, state := state, latestPitch := { frequencyHz := freq, confidence := 1 },
    isActive := true }

end StringManager

/-! ## core/Types.h: sampling constants -/

/-- The constant `SAMPLE_RATE_HZ`. -/
def SAMPLE_RATE_HZ : Nat := 8000

/-- The constant `PITCH_FRAME_SIZE`. -/
def PITCH_FRAME_SIZE : Nat := 1024

/-- The constant `RING_BUFFER_SIZE`. -/
def RING_BUFFER_SIZE : Nat := 1024

/-- The constant `MIN_PITCH_CONFIDENCE` (the decimal value of the literal). -/
def MIN_PITCH_CONFIDENCE : ℚ := 7 / 10

/-- The default constructor `PitchEstimate()`: frequency 0, confidence 0. -/
def PitchEstimate.default : PitchEstimate := { frequencyHz := 0, confidence := 0 }

/-- A store `a[i] = v` into an array of floats. -/
def setAt (a : Nat → ℚ) (i : Nat) (v : ℚ) : Nat → ℚ :=
  fun j => if j = i then v else a j

/-! ## dsp/EnvelopeFollower -/

/-- The data members of the class `EnvelopeFollower`. -/
structure EnvelopeFollower where
  sampleRate : ℚ
  envelope : ℚ
  attackCoeff : ℚ
  releaseCoeff : ℚ
  threshold : ℚ
  hysteresisRatio : ℚ
  active : Bool
  deriving DecidableEq

namespace EnvelopeFollower

/-- The method `EnvelopeFollower::calcCoefficient`, with `std::exp` passed in as
`exp`. -/
def calcCoefficient (exp : ℚ → ℚ) (sampleRate timeMs : ℚ) : ℚ :=
  let timeConstantSamples := (timeMs / 1000) * sampleRate
  1 - exp (-1 / timeConstantSamples)

/-- The constructor `EnvelopeFollower::EnvelopeFollower`. -/
def new (exp : ℚ → ℚ) (sampleRate attackTimeMs releaseTimeMs : ℚ) : EnvelopeFollower :=
  { sampleRate := sampleRate, envelope := 0,
    attackCoeff := calcCoefficient exp sampleRate attackTimeMs,
    releaseCoeff := calcCoefficient exp sampleRate releaseTimeMs,
    threshold := 1 / 10, hysteresisRatio := 7 / 10, active := false }

/-- The method `EnvelopeFollower::update`. -/
def update (e : EnvelopeFollower) (sample : ℚ) : EnvelopeFollower :=
  let rectified := |sample|
  let coeff := if rectified > e.envelope then e.attackCoeff else e.releaseCoeff
  let envelope := coeff * rectified + (1 - coeff) * e.envelope
  let active :=
    if !e.active then
      if envelope > e.threshold then true else e.active
    else
      let releaseThreshold := e.threshold * e.hysteresisRatio
      if envelope < releaseThreshold then false else e.active
  { e with envelope := envelope, active := active }

/-- The method `EnvelopeFollower::updateBlock`. -/
def updateBlock (e : EnvelopeFollower) (samples : List ℚ) : EnvelopeFollower :=
  samples.foldl update e

/-- The method `EnvelopeFollower::getEnvelope`. -/
def getEnvelope (e : EnvelopeFollower) : ℚ := e.envelope

/-- The method `EnvelopeFollower::isActive`. -/
def isActive (e : EnvelopeFollower) : Bool := e.active

/-- The method `EnvelopeFollower::setThreshold`. -/
def setThreshold (e : EnvelopeFollower) (threshold : ℚ) : EnvelopeFollower :=
  { e with threshold := threshold }

/-- The method `EnvelopeFollower::setHysteresis`. -/
def setHysteresis (e : EnvelopeFollower) (ratio : ℚ) : EnvelopeFollower :=
  { e with hysteresisRatio := ratio }

/-- The method `EnvelopeFollower::reset`. -/
def reset (e : EnvelopeFollower) : EnvelopeFollower :=
  { e with envelope := 0, active := false }

end EnvelopeFollower

/-! ## dsp/PitchDetectorYin -/

/-- The data members of the class `PitchDetectorYin`; the two working arrays are
maps from lag to value. -/
structure PitchDetectorYin where
  sampleRate : ℚ
  bufferSize : Nat
  minFreq : ℚ
  maxFreq : ℚ
  confidenceThreshold : ℚ
  maxLag : Nat
  minLag : Nat
  differenceFunction : Nat → ℚ
  cmndf : Nat → ℚ

namespace PitchDetectorYin

/-- The cast `static_cast<size_t>` of a non-negative float: truncation. -/
def toSize (x : ℚ) : Nat := ⌊x⌋₊

/-- The `size_t` expression `maxLag_ - 1`, which wraps for `maxLag_ = 0`. -/
def maxLagMinusOne (y : PitchDetectorYin) : Nat := (y.maxLag + 2 ^ 32 - 1) % 2 ^ 32

/-- The constructor `PitchDetectorYin::PitchDetectorYin`. The constant `MAX_LAG`
of the header is passed in. -/
def new (MAX_LAG : Nat) (sampleRate : ℚ) (bufferSize : Nat) (minFreq maxFreq : ℚ) :
    PitchDetectorYin :=
  let maxLag := toSize (sampleRate / minFreq)
  let minLag := toSize (sampleRate / maxFreq)
  let maxLag := min maxLag (bufferSize / 2)
  let maxLag := min maxLag ((MAX_LAG + 2 ^ 32 - 1) % 2 ^ 32)
  let minLag := max minLag 1
  { sampleRate := sampleRate, bufferSize := bufferSize, minFreq := minFreq,
    maxFreq := maxFreq, confidenceThreshold := 15 / 100, maxLag := maxLag,
    minLag := minLag, differenceFunction := fun _ => 0, cmndf := fun _ => 0 }

/-- The inner loop of `computeDifference` for one lag: the sum of the squared
differences `samples[j] - samples[j + tau]` over `j < bufferSize_ - tau`, the
bound being a `size_t` difference, which wraps for `tau > bufferSize_`. The
`float` sum is taken exactly: no rounding, overflow or underflow. -/
def differenceAt (y : PitchDetectorYin) (samples : Nat → ℚ) (tau : Nat) : ℚ :=
  (List.range ((y.bufferSize + 2 ^ 32 - tau) % 2 ^ 32)).foldl
    (fun sum j => sum + (samples j - samples (j + tau)) * (samples j - samples (j + tau))) 0

/-- The method `PitchDetectorYin::computeDifference`. -/
def computeDifference (y : PitchDetectorYin) (samples : Nat → ℚ) : PitchDetectorYin :=
  { y with
    differenceFunction :=
      (List.range y.maxLag).foldl
        (fun d tau => setAt d tau (differenceAt y samples tau)) y.differenceFunction }

/-- One iteration of the loop of `computeCMNDF`: the running sum and the array.
The `float` sum and quotient are taken exactly. -/
def cmndfStep (d : Nat → ℚ) (acc : ℚ × (Nat → ℚ)) (tau : Nat) : ℚ × (Nat → ℚ) :=
  let runningSum := acc.1 + d tau
  if runningSum = 0 then (runningSum, setAt acc.2 tau 1)
  else (runningSum, setAt acc.2 tau (d tau / (runningSum / (tau : ℚ))))

/-- The method `PitchDetectorYin::computeCMNDF`. -/
def computeCMNDF (y : PitchDetectorYin) : PitchDetectorYin :=
  { y with
    cmndf :=
      ((List.range' 1 (y.maxLag - 1)).foldl (cmndfStep y.differenceFunction)
        (0, setAt y.cmndf 0 1)).2 }

/-- One iteration of the second loop of `absoluteThreshold`: the index and the
value of the minimum so far. -/
def minStep (c : Nat → ℚ) (acc : Nat × ℚ) (tau : Nat) : Nat × ℚ :=
  if c tau < acc.2 then (tau, c tau) else acc

/-- The method `PitchDetectorYin::absoluteThreshold`. -/
def absoluteThreshold (y : PitchDetectorYin) : Nat :=
  match (List.range' y.minLag (maxLagMinusOne y - y.minLag)).find?
      (fun tau => decide (y.cmndf tau < y.confidenceThreshold) &&
        decide (y.cmndf tau < y.cmndf (tau + 1))) with
  | some tau => tau
  | none =>
    let r := (List.range' (y.minLag + 1) (y.maxLag - (y.minLag + 1))).foldl
      (minStep y.cmndf) (y.minLag, y.cmndf y.minLag)
    if r.2 < 1 / 2 then r.1 else 0

/-- The method `PitchDetectorYin::parabolicInterpolation`. -/
def parabolicInterpolation (y : PitchDetectorYin) (tau : Nat) : ℚ :=
  if tau < 1 ∨ tau ≥ maxLagMinusOne y then (tau : ℚ)
  else
    let s0 := y.cmndf (tau - 1)
    let s1 := y.cmndf tau
    let s2 := y.cmndf (tau + 1)
    let adjustment := (s2 - s0) / (2 * (2 * s1 - s2 - s0))
    (tau : ℚ) + adjustment

/-- The method `PitchDetectorYin::estimate`: the estimate returned and the
detector afterwards (its working arrays are overwritten). `samples` is `none`
for a null pointer. -/
def estimate (y : PitchDetectorYin) (samples : Option (Nat → ℚ)) (count : Nat) :
    PitchEstimate × PitchDetectorYin :=
  match samples with
  | none => (PitchEstimate.default, y)
  | some frame =>
    if count ≠ y.bufferSize then (PitchEstimate.default, y)
    else
      let y1 := computeDifference y frame
      let y2 := computeCMNDF y1
      let tau := absoluteThreshold y2
      if tau = 0 then (PitchEstimate.default, y2)
      else
        let refinedTau := parabolicInterpolation y2 tau
        let frequency := y2.sampleRate / refinedTau
        let confidence := 1 - y2.cmndf tau
        ({ frequencyHz := frequency, confidence := confidence }, y2)

end PitchDetectorYin

/-! ## dsp/StringProcessor -/

/-- The constant `ADC_MIDPOINT`. -/
def ADC_MIDPOINT : ℚ := 2048

/-- The constant `ADC_SCALE`. -/
def ADC_SCALE : ℚ := 1 / 2048

/-- The data members of the class `StringProcessor` that `StringProcessor.cpp`
uses; `rawBuffer_` and `floatBuffer_` are maps from index to value. -/
structure StringProcessor where
  stringId : Nat
  sampleRate : ℚ
  state : StringState
  envelopeFollower : EnvelopeFollower
  pitchDetector : PitchDetectorYin
  wasActive : Bool
  latestPitch : PitchEstimate
  sampleBuffer : RingBuffer Nat RING_BUFFER_SIZE
  rawBuffer : Nat → Nat
  floatBuffer : Nat → ℚ

namespace StringProcessor

/-- The constructor `StringProcessor::StringProcessor`. The function `std::exp`
and the header's `MAX_LAG` and default frequency range of the pitch detector are
passed in. -/
def new (exp : ℚ → ℚ) (MAX_LAG : Nat) (minFreq maxFreq : ℚ) (stringId : Nat)
    (sampleRate : ℚ) : StringProcessor :=
  { stringId := stringId, sampleRate := sampleRate, state := .Idle,
    envelopeFollower :=
      ((EnvelopeFollower.new exp sampleRate 10 100).setThreshold (15 / 100)).setHysteresis
        (6 / 10),
    pitchDetector := PitchDetectorYin.new MAX_LAG sampleRate PITCH_FRAME_SIZE minFreq maxFreq,
    wasActive := false, latestPitch := PitchEstimate.default,
    sampleBuffer := RingBuffer.empty Nat RING_BUFFER_SIZE,
    rawBuffer := fun _ => 0, floatBuffer := fun _ => 0 }

/-- The method `StringProcessor::getState`. -/
def getState (p : StringProcessor) : StringState := p.state

/-- The method `StringProcessor::getLatestPitch`. -/
def getLatestPitch (p : StringProcessor) : PitchEstimate := p.latestPitch

/-- Modelled from the spec: the method `StringProcessor::isActive`, defined in
`dsp/StringProcessor.h`, which is not among the sources. The string is
considered active when its state is neither Idle nor Release. -/
def isActive (p : StringProcessor) : Bool :=
  decide (p.state = .Attack) || decide (p.state = .Active)

/-- The method `StringProcessor::pushSample`. -/
def pushSample (p : StringProcessor) (rawSample : Nat) : Bool × StringProcessor :=
  ((RingBuffer.push p.sampleBuffer rawSample).1,
    { p with sampleBuffer := (RingBuffer.push p.sampleBuffer rawSample).2 })

/-- The method `StringProcessor::normalizeAdcSample`. -/
def normalizeAdcSample (raw : Nat) : ℚ :=
  let centered := (raw : ℚ) - ADC_MIDPOINT
  centered * ADC_SCALE

/-- The method `StringProcessor::updateState`. -/
def updateState (p : StringProcessor) : StringProcessor :=
  let currentlyActive := p.envelopeFollower.isActive
  let p1 : StringProcessor :=
    if !p.wasActive && currentlyActive then { p with state := .Attack }
    else if p.wasActive && !currentlyActive then { p with state := .Release }
    else if currentlyActive then
      if p.state = .Attack then { p with state := .Active } else p
    else
      if p.state = .Release then
        { p with state := .Idle, latestPitch := PitchEstimate.default }
      else p
  { p1 with wasActive := currentlyActive }

/-- One iteration of the conversion loop of `process`: store the normalised
sample and feed it to the envelope follower. -/
def convertStep (p : StringProcessor) (i : Nat) : StringProcessor :=
  let x := normalizeAdcSample (p.rawBuffer i)
  { p with floatBuffer := setAt p.floatBuffer i x,
           envelopeFollower := p.envelopeFollower.update x }

/-- The last block of `process`, the pitch detection: when the string is active
and a full frame was read (`read` is the number of samples read in this call),
`latestPitch_` becomes the estimate of the frame, and an estimate with a
confidence below `MIN_PITCH_CONFIDENCE` is replaced by the invalid estimate. -/
def detectPitch (p3 : StringProcessor) (read : Nat) : StringProcessor :=
  if isActive p3 && decide (read ≥ PITCH_FRAME_SIZE) then
    let e := PitchDetectorYin.estimate p3.pitchDetector (some p3.floatBuffer)
      PITCH_FRAME_SIZE
    let p4 : StringProcessor := { p3 with latestPitch := e.1, pitchDetector := e.2 }
    if p4.latestPitch.confidence < MIN_PITCH_CONFIDENCE then
      { p4 with latestPitch := PitchEstimate.default }
    else p4
  else p3

/-- The method `StringProcessor::process`; its last block is `detectPitch`. -/
def process (p : StringProcessor) : StringProcessor :=
  let available := RingBuffer.getAvailable p.sampleBuffer
  if available = 0 then p
  else
    let toProcess := min available PITCH_FRAME_SIZE
    let r := RingBuffer.read p.sampleBuffer toProcess
    let read := r.1
    let p1 : StringProcessor :=
      { p with sampleBuffer := r.2.2,
               rawBuffer := fun i => if i < read then r.2.1.getD i 0 else p.rawBuffer i }
    if read = 0 then p1
    else
      let p2 := (List.range read).foldl convertStep p1
      let p3 := updateState p2
      detectPitch p3 read

/-- The method `StringProcessor::reset`. -/
def reset (p : StringProcessor) : StringProcessor :=
  { p with sampleBuffer := RingBuffer.clear p.sampleBuffer,
           envelopeFollower := p.envelopeFollower.reset,
           state := .Idle, wasActive := false, latestPitch := PitchEstimate.default }

/-- What `StringManager::update` reads from the processor. -/
def toView (p : StringProcessor) : ProcessorView :=
  { stringId := p.stringId, state := p.state, latestPitch := p.latestPitch,
    isActive := isActive p }

/-- One call on the processor: `pushSample` from the sampling context, `process`
from the main loop, or `reset`. -/
inductive Call where
  | pushSample (rawSample : Nat)
  | process
  | reset

/-- The processor after one call. -/
def step (p : StringProcessor) : Call → StringProcessor
  | .pushSample x => (pushSample p x).2
  | .process => process p
  | .reset => reset p

/-- The processor after a sequence of calls, first call first. -/
def run (p : StringProcessor) (calls : List Call) : StringProcessor :=
  calls.foldl step p

/-- The relations between the members that hold in every state reached from the
constructor: the buffer indices are in range, `wasActive_` is set exactly in the
states Attack and Active, the pitch is the invalid estimate in state Idle, and
the pitch is the invalid estimate or has at least the minimum confidence. -/
def Consistent (p : StringProcessor) : Prop :=
  RingBuffer.IndicesOk 10 p.sampleBuffer ∧
    (p.wasActive = true ↔ (p.state = .Attack ∨ p.state = .Active)) ∧
    (p.state = .Idle → p.latestPitch = PitchEstimate.default) ∧
    (p.latestPitch = PitchEstimate.default ∨
      MIN_PITCH_CONFIDENCE ≤ p.latestPitch.confidence)

/-- The claim C25 as stated, for the processors reached from `p0`: a processor in
Attack is not in Attack after `process`, and one in Release is not in Release
after it. -/
def OneTickTransitional (p0 : StringProcessor) : Prop :=
  ∀ calls : List Call,
    ((run p0 calls).state = .Attack → (process (run p0 calls)).state ≠ .Attack) ∧
      ((run p0 calls).state = .Release → (process (run p0 calls)).state ≠ .Release)

/-- A first-order stand-in for `std::exp` in the examples: `1 + x`. -/
def exampleExp : ℚ → ℚ := fun x => 1 + x

/-- The E-string processor of the examples: 8000 Hz, `MAX_LAG` 512 and a search
range of 30 Hz to 500 Hz. -/
def exampleProcessor : StringProcessor := new exampleExp 512 30 500 0 8000

end StringProcessor

/-! ## hal/BoardConfig.h, hal/AdcDriver -/

/-- The constant `BoardConfig::ADC_TIMER_INTERVAL_US`. -/
def BoardConfig.ADC_TIMER_INTERVAL_US : Nat := 125

/-- The data members of the class `AdcDriver`; `hasCallback` tells whether
`sampleCallback_` holds a function. The timer handle is left out. -/
structure AdcDriver where
  hasCallback : Bool
  initialized : Bool
  sampling : Bool
  currentChannel : Nat
  deriving DecidableEq

namespace AdcDriver

/-- A driver as its member initialisers leave it. -/
def mk0 : AdcDriver :=
  { hasCallback := false, initialized := false, sampling := false, currentChannel := 0 }

/-- The method `AdcDriver::init`. -/
def init (a : AdcDriver) : AdcDriver :=
  if a.initialized then a else { a with initialized := true }

/-- The method `AdcDriver::setSampleCallback`, called with a function. -/
def setSampleCallback (a : AdcDriver) : AdcDriver := { a with hasCallback := true }

/-- The method `AdcDriver::startSampling`: it arms a repeating timer with the
period `ADC_TIMER_INTERVAL_US`. -/
def startSampling (a : AdcDriver) : AdcDriver :=
  if !a.initialized || a.sampling then a else { a with sampling := true }

/-- The method `AdcDriver::onTimerFired`: the call of the sample callback it
makes, if any (string id and sample, `sample` being the value `adc_read()`
returned), and the driver afterwards. -/
def onTimerFired (a : AdcDriver) (sample : Nat) : Option (Nat × Nat) × AdcDriver :=
  (if a.hasCallback then some (a.currentChannel, sample) else none,
    { a with currentChannel := (a.currentChannel + 1) % NUM_STRINGS })

/-- The time, in microseconds after `startSampling`, at which the repeating
timer calls `timerCallback` for the `n`-th time, counted from 0: the timer is
armed with the period `ADC_TIMER_INTERVAL_US`. -/
def fireTime (n : Nat) : Nat := (n + 1) * BoardConfig.ADC_TIMER_INTERVAL_US

/-- The calls of the sample callback made by consecutive timer firings, the
first of them being firing number `n`; `adc` lists the values `adc_read()`
returns. Each call is recorded with its time, its string id and its sample. -/
def fire (a : AdcDriver) (n : Nat) : List Nat → List (Nat × Nat × Nat)
  | [] => []
  | sample :: rest =>
    match (onTimerFired a sample).1 with
    | some call => (fireTime n, call.1, call.2) :: fire (onTimerFired a sample).2 (n + 1) rest
    | none => fire (onTimerFired a sample).2 (n + 1) rest

/-- The times of the callback calls made for one string. -/
def sampleTimes (string : Nat) (calls : List (Nat × Nat × Nat)) : List Nat :=
  (calls.filter (fun c => decide (c.2.1 = string))).map (fun c => c.1)

/-- A driver after `init`, `setSampleCallback` and `startSampling`. -/
def started : AdcDriver := startSampling (setSampleCallback (init mk0))

end AdcDriver

/-! ## dsp/RingBuffer.h: what the calls return -/

namespace RingBuffer

variable {T : Type} {SIZE : Nat}

/-- What a call on the buffer hands back to its caller: the flag of `push`, the
sample of `pop` (`none` for the result `false`), the count and the samples of
`read` and `peek`, nothing for `clear`. -/
inductive Ret (T : Type) where
  | flag (ok : Bool)
  | item (x : Option T)
  | items (count : Nat) (xs : List T)
  | nothing
  deriving DecidableEq

/-- What one call returns. -/
def result (b : RingBuffer T SIZE) : Op T → Ret T
  | .push x => .flag (push b x).1
  | .pop => .item (pop b).1
  | .read n => .items (read b n).1 (read b n).2.1
  | .peek n => .items (peek b n).1 (peek b n).2
  | .clear => .nothing

/-- What one call returns on a bounded first-in-first-out queue of capacity
`cap`: `push` succeeds iff the queue holds fewer than `cap` items, `pop` hands
out the oldest item, `read` and `peek` the oldest `count` items in insertion
order. -/
def fifoResult (cap : Nat) (q : List T) : Op T → Ret T
  | .push _ => .flag (decide (q.length < cap))
  | .pop => .item q.head?
  | .read n => .items (min n q.length) (q.take n)
  | .peek n => .items (min n q.length) (q.take n)
  | .clear => .nothing

end RingBuffer

/-! ## app/StringManager: sequences of calls -/

namespace StringManager

/-- One call on the manager's public interface. -/
inductive Call where
  | update (processor : ProcessorView)
  | forceNoteOff
  deriving DecidableEq

/-- The manager after one call. -/
def step (frequencyToFret : Nat → ℚ → Int) (midiOut : MidiDinOut) (m : StringManager) :
    Call → StringManager
  | .update processor => (update frequencyToFret m midiOut processor).1
  | .forceNoteOff => (forceNoteOff m midiOut).1

/-- The manager after a sequence of calls, first call first. -/
def run (frequencyToFret : Nat → ℚ → Int) (midiOut : MidiDinOut) (m : StringManager)
    (calls : List Call) : StringManager :=
  calls.foldl (step frequencyToFret midiOut) m

/-- The relation between the note fields and between the debounce fields: a
sounding note has a fret on the neck and the MIDI note of that fret, a silent
string has fret -1 and note 0, the debounce count is below the threshold and is
0 exactly when no fret is pending. -/
def NoteState (m : StringManager) : Prop :=
  (m.noteOn = true → 0 ≤ m.currentFret ∧ m.currentFret ≤ 24 ∧
      (m.currentMidiNote : Int) =
        (NoteMapping.getOpenStringMidiNote m.stringId : Int) + m.currentFret) ∧
    (m.noteOn = false → m.currentFret = -1 ∧ m.currentMidiNote = 0) ∧
    (0 ≤ m.fretChangeCounter ∧ m.fretChangeCounter < FRET_CHANGE_THRESHOLD) ∧
    (m.fretChangeCounter = 0 ↔ m.pendingFret = -1)

end StringManager

/-! ## dsp/PitchDetectorYin: the lag search -/

namespace PitchDetectorYin

/-- The difference function as the specification writes it, for a frame `x` of
`N` samples: `d(tau) = Σ_{j=0}^{N-tau-1} (x[j] - x[j+tau])^2`. -/
def differenceOf (N : Nat) (x : Nat → ℚ) (tau : Nat) : ℚ :=
  ∑ j in Finset.range (N - tau), (x j - x (j + tau)) ^ 2

/-- The cumulative mean normalized difference as the specification writes it,
for a lag `tau ≥ 1`: `d(tau) / ((1/tau) × Σ_{k=1}^{tau} d(k))`, and 1 when that
running sum is zero. -/
def cmndfOf (d : Nat → ℚ) (tau : Nat) : ℚ :=
  if ∑ k in Finset.Icc 1 tau, d k = 0 then 1
  else d tau / ((1 / (tau : ℚ)) * ∑ k in Finset.Icc 1 tau, d k)

/-- The test of the first loop of `absoluteThreshold` at the lag `tau`: below the
threshold and below the next value. -/
def Dip (y : PitchDetectorYin) (tau : Nat) : Prop :=
  y.cmndf tau < y.confidenceThreshold ∧ y.cmndf tau < y.cmndf (tau + 1)

instance (y : PitchDetectorYin) (tau : Nat) : Decidable (Dip y tau) := by
  unfold Dip; infer_instance

/-- The lag `m` is the first lag of `[minLag, maxLag - 1]` at which the CMNDF
takes its least value over that range. -/
def IsFirstMin (y : PitchDetectorYin) (m : Nat) : Prop :=
  y.minLag ≤ m ∧ m < y.maxLag ∧
    (∀ t, y.minLag ≤ t → t < y.maxLag → y.cmndf m ≤ y.cmndf t) ∧
    (∀ t, y.minLag ≤ t → t < m → y.cmndf m < y.cmndf t)

/-- The working arrays after `computeDifference` and `computeCMNDF` on a frame. -/
def analyse (y : PitchDetectorYin) (frame : Nat → ℚ) : PitchDetectorYin :=
  computeCMNDF (computeDifference y frame)

/-- The detector after `estimate` was called on each of the frames in turn, all
of the configured size. -/
def afterFrames (y : PitchDetectorYin) (frames : List (Nat → ℚ)) : PitchDetectorYin :=
  frames.foldl (fun s frame => (estimate s (some frame) s.bufferSize).2) y

/-- A frame that repeats the six samples 3, 3, -1, -1, -1, 0. -/
def periodSixFrame : Nat → ℚ :=
  fun j => ([3, 3, -1, -1, -1, 0] : List ℚ).getD (j % 6) 0

/-- A detector state with two equal CMNDF values next to each other: lags 2
and 3 both hold 1/10, every other lag holds 1. -/
def tiedState : PitchDetectorYin :=
  { sampleRate := 8000, bufferSize := 8, minFreq := 2000, maxFreq := 4000,
    confidenceThreshold := 15 / 100, maxLag := 4, minLag := 2,
    differenceFunction := fun _ => 0,
    cmndf := fun tau => if tau = 2 ∨ tau = 3 then 1 / 10 else 1 }

end PitchDetectorYin

/-! ## app/StringManager: skipped ticks and note boundaries -/

namespace StringManager

/-- The tick `p`, handled by the manager `m`, ends or starts a note by the state
of the string: a Release or Idle tick of the manager's string, or an Attack tick
of it with a valid fret position. -/
def NoteBoundaryTick (frequencyToFret : Nat → ℚ → Int) (m : StringManager)
    (p : ProcessorView) : Prop :=
  p.stringId = m.stringId ∧
    (p.state = .Release ∨ p.state = .Idle ∨
      (p.state = .Attack ∧ (currentFretPos frequencyToFret m p).isValid = true))

/-- Among the first `n` ticks of the sequence, no note was ended or started
while a fret change was pending: every `NoteBoundaryTick` found
`fretChangeCounter_ = 0`. -/
def NoBoundaryWhilePending (frequencyToFret : Nat → ℚ → Int) (midiOut : MidiDinOut)
    (string : Nat) (ticks : List ProcessorView) (n : Nat) : Prop :=
  ∀ t q, t < n → ticks[t]? = some q →
    NoteBoundaryTick frequencyToFret (stateBefore frequencyToFret midiOut string ticks t) q →
    (stateBefore frequencyToFret midiOut string ticks t).fretChangeCounter = 0

/-- The run of the examples for a release during a pending fret change (E
string): Attack at fret 5, Active at fret 6 twice, Release, Attack at fret 5,
Active at fret 6. -/
def releasedRun : List ProcessorView :=
  [pitchedTick .Attack 55, pitchedTick .Active 58, pitchedTick .Active 58,
    { stringId := 0, state := .Release,
      latestPitch := { frequencyHz := 58, confidence := 1 }, isActive := false },
    pitchedTick .Attack 55, pitchedTick .Active 58]

end StringManager

/-! ## dsp/StringProcessor: example states -/

namespace StringProcessor

/-- The example processor in state Release, still holding a pitch estimate of
55 Hz with confidence 0.9. -/
def heldPitchProcessor : StringProcessor :=
  { exampleProcessor with
    state := .Release, latestPitch := { frequencyHz := 55, confidence := 9 / 10 } }

end StringProcessor

/-! ## Bit-mask facts -/

theorem and_7F_eq_mod (x : Nat) : x &&& 0x7F = x % 128 :=
  Nat.and_pow_two_sub_one_eq_mod x 7

theorem and_0F_eq_mod (x : Nat) : x &&& 0x0F = x % 16 :=
  Nat.and_pow_two_sub_one_eq_mod x 4

theorem mod256_and_7F (x : Nat) : (x % 256) &&& 0x7F = x &&& 0x7F := by
  rw [and_7F_eq_mod, and_7F_eq_mod]; omega

theorem and_7F_lt (x : Nat) : x &&& 0x7F < 0x80 := by
  rw [and_7F_eq_mod]; omega

/-- Or-ing a 4-bit value into a status byte with a zero low nibble adds it. -/
theorem status_or_low (s c : Nat) (hs : s % 16 = 0) (hc : c < 16) : s ||| c = s + c := by
  obtain ⟨q, rfl⟩ : ∃ q, s = 2 ^ 4 * q := ⟨s / 16, by omega⟩
  exact (Nat.mul_add_lt_is_or hc q).symm

theorem clampInt_bounds (v lo hi : Int) (h : lo ≤ hi) :
    lo ≤ clampInt v lo hi ∧ clampInt v lo hi ≤ hi := by
  unfold clampInt; split_ifs <;> omega

theorem toUInt8_of_range (v : Int) (h0 : 0 ≤ v) (h1 : v < 256) : toUInt8 v = v.toNat := by
  unfold toUInt8; rw [Int.emod_eq_of_lt h0 h1]

/-! ## SysEx frame -/

theorem SysExEncoder.encode_eq (p : SysExEncoder.FretSysExPayload) :
    SysExEncoder.encode p =
      [0xF0, 0x7D, 0x42, 0x4D, 0x01, p.string &&& 0x7F,
        (clampInt p.fret 0 127).toNat &&& 0x7F, p.midiNote &&& 0x7F,
        p.velocity &&& 0x7F, 0xF7] := by
  have hc := clampInt_bounds p.fret 0 127 (by omega)
  simp only [SysExEncoder.encode, SysExEncoder.SYSEX_START, SysExEncoder.SYSEX_END,
    SysExEncoder.MANUFACTURER_ID, SysExEncoder.BASSMINT_ID_1, SysExEncoder.BASSMINT_ID_2,
    SysExEncoder.PROTOCOL_VERSION, mod256_and_7F,
    toUInt8_of_range _ hc.1 (by omega : clampInt p.fret 0 127 < 256)]

/-- C4: for every payload, `SysExEncoder::encode` returns exactly the ten bytes
`[0xF0, 0x7D, 'B', 'M', 0x01, string & 0x7F, clamp(fret,0,127) & 0x7F,
midiNote & 0x7F, velocity & 0x7F, 0xF7]`, and the payload
`{string=3, fret=24, midiNote=67, velocity=100}` encodes to
`[0xF0,0x7D,0x42,0x4D,0x01,0x03,0x18,0x43,0x64,0xF7]`. -/
theorem SysExEncoder.encode_frame (p : SysExEncoder.FretSysExPayload) :
    SysExEncoder.encode p =
        [0xF0, 0x7D, 0x42, 0x4D, 0x01, p.string &&& 0x7F,
          (clampInt p.fret 0 127).toNat &&& 0x7F, p.midiNote &&& 0x7F,
          p.velocity &&& 0x7F, 0xF7] ∧
      SysExEncoder.encode { string := 3, fret := 24, midiNote := 67, velocity := 100 } =
        [0xF0, 0x7D, 0x42, 0x4D, 0x01, 0x03, 0x18, 0x43, 0x64, 0xF7] :=
  ⟨SysExEncoder.encode_eq p, by decide⟩

/-- C5: `SysExEncoder::encode` is total and its frame is well formed for every
payload: the frame has ten bytes, the bytes that are `≥ 0x80` are exactly the
first (`0xF0`) and the last (`0xF7`), the four data bytes 5..8 are at most 127,
a negative fret is encoded as 0 and a fret above 127 as 127. -/
theorem SysExEncoder.encode_well_formed (p : SysExEncoder.FretSysExPayload) :
    (SysExEncoder.encode p).length = 10 ∧
      (SysExEncoder.encode p).getD 0 0 = 0xF0 ∧
      (SysExEncoder.encode p).getD 9 0 = 0xF7 ∧
      (∀ i, i < 10 → (0x80 ≤ (SysExEncoder.encode p).getD i 0 ↔ i = 0 ∨ i = 9)) ∧
      (∀ i, 5 ≤ i → i ≤ 8 → (SysExEncoder.encode p).getD i 0 ≤ 127) ∧
      (p.fret < 0 → (SysExEncoder.encode p).getD 6 0 = 0) ∧
      (127 < p.fret → (SysExEncoder.encode p).getD 6 0 = 127) := by
  have hs := and_7F_lt p.string
  have hf := and_7F_lt (clampInt p.fret 0 127).toNat
  have hn := and_7F_lt p.midiNote
  have hv := and_7F_lt p.velocity
  rw [SysExEncoder.encode_eq p]
  refine ⟨rfl, rfl, rfl, ?_, ?_, ?_, ?_⟩
  · intro i hi
    interval_cases i <;> simp <;> omega
  · intro i h5 h8
    interval_cases i <;> simp <;> omega
  · intro h
    have : clampInt p.fret 0 127 = 0 := by unfold clampInt; simp [h]
    simp [this]
  · intro h
    have : clampInt p.fret 0 127 = 127 := by
      unfold clampInt; rw [if_neg (by omega), if_pos h]
    simp [this]

/-! ## MIDI channel messages -/

theorem status_byte (s channel : Nat) (hs : s % 16 = 0) (h : s + 15 < 256) :
    (s ||| (channel &&& 0x0F)) % 256 = s + channel % 16 := by
  rw [and_0F_eq_mod, status_or_low s _ hs (Nat.mod_lt _ (by omega))]
  have := Nat.mod_lt channel (by omega : 16 > 0)
  omega

theorem MidiDinOut.sendNoteOn_eq (d : MidiDinOut) (h : d.initialized = true)
    (channel note velocity : Nat) :
    d.sendNoteOn channel note velocity =
      [0x90 + channel % 16, note % 128, velocity % 128] := by
  simp [MidiDinOut.sendNoteOn, MidiDinOut.sendMessage, h, MIDI_NOTE_ON,
    status_byte 0x90 channel rfl (by omega), and_7F_eq_mod]

theorem MidiDinOut.sendNoteOff_eq (d : MidiDinOut) (h : d.initialized = true)
    (channel note velocity : Nat) :
    d.sendNoteOff channel note velocity =
      [0x80 + channel % 16, note % 128, velocity % 128] := by
  simp [MidiDinOut.sendNoteOff, MidiDinOut.sendMessage, h, MIDI_NOTE_OFF,
    status_byte 0x80 channel rfl (by omega), and_7F_eq_mod]

theorem MidiDinOut.sendControlChange_eq (d : MidiDinOut) (h : d.initialized = true)
    (channel controller value : Nat) :
    d.sendControlChange channel controller value =
      [0xB0 + channel % 16, controller % 128, value % 128] := by
  simp [MidiDinOut.sendControlChange, MidiDinOut.sendMessage, h, MIDI_CONTROL_CHANGE,
    status_byte 0xB0 channel rfl (by omega), and_7F_eq_mod]

theorem or_low_of_lt (s channel : Nat) (hc : channel < 16) :
    s ||| (channel &&& 0x0F) = s ||| channel := by
  rw [and_0F_eq_mod, Nat.mod_eq_of_lt hc]

theorem status_eq_or (s channel : Nat) (hs : s % 16 = 0) :
    s + channel % 16 = s ||| (channel &&& 0x0F) := by
  rw [and_0F_eq_mod, status_or_low s _ hs (Nat.mod_lt _ (by omega))]

/-- C6 as stated fails for a channel byte above 15: with channel `0x20` the
claimed status byte `0x90 | 0x20` is `0xB0` (a Control Change), while
`sendNoteOn` transmits `0x90`. -/
theorem MidiDinOut.wire_format_counterexample :
    (MidiDinOut.init MidiDinOut.mk0).sendNoteOn 0x20 60 100 = [0x90, 60, 100] ∧
      [0x90 ||| 0x20, 60 &&& 0x7F, 100 &&& 0x7F] = [0xB0, 60, 100] ∧
      (MidiDinOut.init MidiDinOut.mk0).sendNoteOn 0x20 60 100 ≠
        [0x90 ||| 0x20, 60 &&& 0x7F, 100 &&& 0x7F] := by
  decide

/-- C6 (amended): on an initialised transport, for every channel, note or
controller and velocity or value byte, `sendNoteOn` transmits exactly
`[0x90 | (channel & 0x0F), note & 0x7F, velocity & 0x7F]`, `sendNoteOff` exactly
`[0x80 | (channel & 0x0F), note & 0x7F, velocity & 0x7F]` and `sendControlChange`
exactly `[0xB0 | (channel & 0x0F), controller & 0x7F, value & 0x7F]`; for a
channel in 0..15 the status bytes are `0x90 | channel`, `0x80 | channel` and
`0xB0 | channel`. -/
theorem MidiDinOut.wire_format (d : MidiDinOut) (h : d.initialized = true)
    (channel data1 data2 : Nat) :
    d.sendNoteOn channel data1 data2 =
        [0x90 ||| (channel &&& 0x0F), data1 &&& 0x7F, data2 &&& 0x7F] ∧
      d.sendNoteOff channel data1 data2 =
        [0x80 ||| (channel &&& 0x0F), data1 &&& 0x7F, data2 &&& 0x7F] ∧
      d.sendControlChange channel data1 data2 =
        [0xB0 ||| (channel &&& 0x0F), data1 &&& 0x7F, data2 &&& 0x7F] ∧
      (channel < 16 →
        d.sendNoteOn channel data1 data2 =
            [0x90 ||| channel, data1 &&& 0x7F, data2 &&& 0x7F] ∧
          d.sendNoteOff channel data1 data2 =
            [0x80 ||| channel, data1 &&& 0x7F, data2 &&& 0x7F] ∧
          d.sendControlChange channel data1 data2 =
            [0xB0 ||| channel, data1 &&& 0x7F, data2 &&& 0x7F]) := by
  have e1 : d.sendNoteOn channel data1 data2 =
      [0x90 ||| (channel &&& 0x0F), data1 &&& 0x7F, data2 &&& 0x7F] := by
    rw [MidiDinOut.sendNoteOn_eq d h, status_eq_or 0x90 channel rfl, and_7F_eq_mod,
      and_7F_eq_mod]
  have e2 : d.sendNoteOff channel data1 data2 =
      [0x80 ||| (channel &&& 0x0F), data1 &&& 0x7F, data2 &&& 0x7F] := by
    rw [MidiDinOut.sendNoteOff_eq d h, status_eq_or 0x80 channel rfl, and_7F_eq_mod,
      and_7F_eq_mod]
  have e3 : d.sendControlChange channel data1 data2 =
      [0xB0 ||| (channel &&& 0x0F), data1 &&& 0x7F, data2 &&& 0x7F] := by
    rw [MidiDinOut.sendControlChange_eq d h, status_eq_or 0xB0 channel rfl, and_7F_eq_mod,
      and_7F_eq_mod]
  refine ⟨e1, e2, e3, fun hc => ?_⟩
  rw [e1, e2, e3, or_low_of_lt _ _ hc, or_low_of_lt _ _ hc, or_low_of_lt _ _ hc]
  exact ⟨rfl, rfl, rfl⟩

/-- Witness for C6 (amended): channel 5, note 60, velocity 100 on the transport
after `init`. -/
theorem MidiDinOut.wire_format_witness :
    (MidiDinOut.init MidiDinOut.mk0).initialized = true ∧
      (MidiDinOut.init MidiDinOut.mk0).sendNoteOn 5 60 100 = [0x95, 60, 100] ∧
      (MidiDinOut.init MidiDinOut.mk0).sendNoteOff 5 60 100 = [0x85, 60, 100] ∧
      (MidiDinOut.init MidiDinOut.mk0).sendControlChange 5 60 100 = [0xB5, 60, 100] := by
  have w := MidiDinOut.wire_format (MidiDinOut.init MidiDinOut.mk0) rfl 5 60 100
  exact ⟨rfl, w.1, w.2.1, w.2.2.1⟩

/-- C7: on an initialised transport, for every channel byte and every pair of
data bytes (in range or not), each of `sendNoteOn`, `sendNoteOff` and
`sendControlChange` transmits three bytes whose status byte has high nibble
`0x9`, `0x8` and `0xB` respectively and low nibble `channel & 0x0F`, and whose
two data bytes are below `0x80`. -/
theorem MidiDinOut.fields_masked (d : MidiDinOut) (h : d.initialized = true)
    (channel data1 data2 : Nat) :
    (∃ s a b, d.sendNoteOn channel data1 data2 = [s, a, b] ∧
        s / 16 = 0x9 ∧ s % 16 = channel &&& 0x0F ∧ a < 0x80 ∧ b < 0x80) ∧
      (∃ s a b, d.sendNoteOff channel data1 data2 = [s, a, b] ∧
        s / 16 = 0x8 ∧ s % 16 = channel &&& 0x0F ∧ a < 0x80 ∧ b < 0x80) ∧
      (∃ s a b, d.sendControlChange channel data1 data2 = [s, a, b] ∧
        s / 16 = 0xB ∧ s % 16 = channel &&& 0x0F ∧ a < 0x80 ∧ b < 0x80) := by
  have hc := Nat.mod_lt channel (by omega : 16 > 0)
  have h1 := Nat.mod_lt data1 (by omega : 128 > 0)
  have h2 := Nat.mod_lt data2 (by omega : 128 > 0)
  rw [MidiDinOut.sendNoteOn_eq d h, MidiDinOut.sendNoteOff_eq d h,
    MidiDinOut.sendControlChange_eq d h, and_0F_eq_mod]
  refine ⟨⟨_, _, _, rfl, ?_, ?_, h1, h2⟩, ⟨_, _, _, rfl, ?_, ?_, h1, h2⟩,
    ⟨_, _, _, rfl, ?_, ?_, h1, h2⟩⟩ <;> omega

/-- Witness for C7: the out-of-range channel `0xFF` with data bytes `0xFF`. -/
theorem MidiDinOut.fields_masked_witness :
    (MidiDinOut.init MidiDinOut.mk0).initialized = true ∧
      ∃ s a b, (MidiDinOut.init MidiDinOut.mk0).sendNoteOn 0xFF 0xFF 0xFF = [s, a, b] ∧
        s / 16 = 0x9 ∧ s % 16 = 0xFF &&& 0x0F ∧ a < 0x80 ∧ b < 0x80 :=
  ⟨rfl, (MidiDinOut.fields_masked (MidiDinOut.init MidiDinOut.mk0) rfl 0xFF 0xFF 0xFF).1⟩

/-! ## Ring buffer: index arithmetic -/

namespace RingBuffer

theorem size_bounds (k : Nat) (hk : k < 32) : 1 ≤ 2 ^ k ∧ 2 ^ k ≤ 2 ^ 31 :=
  ⟨Nat.one_le_two_pow, Nat.pow_le_pow_right (by omega) (by omega)⟩

theorem MASK_pow (k : Nat) (hk : k < 32) : MASK (2 ^ k) = 2 ^ k - 1 := by
  have h := size_bounds k hk
  unfold MASK
  generalize 2 ^ k = N at h ⊢
  norm_num at h ⊢
  omega

theorem and_MASK (k : Nat) (hk : k < 32) (x : Nat) : x &&& MASK (2 ^ k) = x % 2 ^ k := by
  rw [MASK_pow k hk]; exact Nat.and_pow_two_sub_one_eq_mod x k

theorem next_index (k : Nat) (hk : k < 32) (i : Nat) (hi : i < 2 ^ k) :
    ((i + 1) % 2 ^ 32) &&& MASK (2 ^ k) = if i + 1 = 2 ^ k then 0 else i + 1 := by
  have h := size_bounds k hk
  rw [and_MASK k hk]
  generalize 2 ^ k = N at h hi ⊢
  norm_num at h ⊢
  rw [Nat.mod_eq_of_lt (by omega : i + 1 < 4294967296)]
  split_ifs with e
  · rw [e, Nat.mod_self]
  · exact Nat.mod_eq_of_lt (by omega)

theorem sub_index (k : Nat) (hk : k < 32) (w r : Nat) (hw : w < 2 ^ k) (hr : r < 2 ^ k) :
    ((w + 2 ^ 32 - r) % 2 ^ 32) &&& MASK (2 ^ k) =
      if r ≤ w then w - r else w + 2 ^ k - r := by
  have h := size_bounds k hk
  obtain ⟨c, hc⟩ : 2 ^ k ∣ 2 ^ 32 := pow_dvd_pow 2 (by omega)
  rw [and_MASK k hk]
  generalize 2 ^ k = N at h hw hr hc ⊢
  norm_num at h hc ⊢
  split_ifs with e
  · have e1 : (w + 4294967296 - r) % 4294967296 = w - r := by omega
    rw [e1]; exact Nat.mod_eq_of_lt (by omega)
  · have e1 : (w + 4294967296 - r) % 4294967296 = w + 4294967296 - r := by omega
    have e2 : N * (c - 1) = N * c - N := Nat.mul_sub_one N c
    have e3 : w + 4294967296 - r = (w + N - r) + N * (c - 1) := by omega
    rw [e1, e3, Nat.add_mul_mod_self_left]
    exact Nat.mod_eq_of_lt (by omega)

variable {T : Type}

theorem getAvailable_eq (k : Nat) (hk : k < 32) (b : RingBuffer T (2 ^ k))
    (hb : IndicesOk k b) :
    getAvailable b =
      if b.readIndex ≤ b.writeIndex then b.writeIndex - b.readIndex
      else b.writeIndex + 2 ^ k - b.readIndex :=
  sub_index k hk _ _ hb.1 hb.2

theorem push_eq (k : Nat) (hk : k < 32) (b : RingBuffer T (2 ^ k)) (hb : IndicesOk k b)
    (x : T) :
    push b x =
      if (if b.writeIndex + 1 = 2 ^ k then 0 else b.writeIndex + 1) = b.readIndex then
        (false, b)
      else
        (true, { b with
          buffer := fun i => if i = b.writeIndex then x else b.buffer i
          writeIndex := if b.writeIndex + 1 = 2 ^ k then 0 else b.writeIndex + 1 }) := by
  unfold push
  simp only [next_index k hk _ hb.1]

theorem pop_eq (k : Nat) (hk : k < 32) (b : RingBuffer T (2 ^ k)) (hb : IndicesOk k b) :
    pop b =
      if b.readIndex = b.writeIndex then (none, b)
      else
        (some (b.buffer b.readIndex),
          { b with readIndex := if b.readIndex + 1 = 2 ^ k then 0 else b.readIndex + 1 }) := by
  unfold pop
  simp only [next_index k hk _ hb.2]

theorem push_indices (k : Nat) (hk : k < 32) (b : RingBuffer T (2 ^ k))
    (hb : IndicesOk k b) (x : T) : IndicesOk k (push b x).2 := by
  have h := size_bounds k hk
  rw [push_eq k hk b hb]
  obtain ⟨hw, hr⟩ := hb
  unfold IndicesOk
  split_ifs <;> simp <;> omega

theorem pop_indices (k : Nat) (hk : k < 32) (b : RingBuffer T (2 ^ k))
    (hb : IndicesOk k b) : IndicesOk k (pop b).2 := by
  have h := size_bounds k hk
  rw [pop_eq k hk b hb]
  obtain ⟨hw, hr⟩ := hb
  unfold IndicesOk
  split_ifs <;> simp <;> omega

theorem readLoop_indices (k : Nat) (hk : k < 32) (n : Nat) :
    ∀ b : RingBuffer T (2 ^ k), IndicesOk k b → IndicesOk k (readLoop b n).2 := by
  have h := size_bounds k hk
  induction n with
  | zero => intro b hb; exact hb
  | succ n ih =>
    intro b hb
    simp only [readLoop]
    apply ih
    obtain ⟨hw, hr⟩ := hb
    refine ⟨hw, ?_⟩
    simp only [next_index k hk _ hr]
    split_ifs <;> omega

theorem step_indices (k : Nat) (hk : k < 32) (b : RingBuffer T (2 ^ k))
    (hb : IndicesOk k b) (op : Op T) : IndicesOk k (step b op) := by
  cases op with
  | push x => exact push_indices k hk b hb x
  | pop => exact pop_indices k hk b hb
  | read n => exact readLoop_indices k hk _ b hb
  | peek n => exact hb
  | clear => exact ⟨hb.1, hb.1⟩

theorem run_indices (k : Nat) (hk : k < 32) (ops : List (Op T)) :
    ∀ b : RingBuffer T (2 ^ k), IndicesOk k b → IndicesOk k (run b ops) := by
  induction ops with
  | nil => intro b hb; exact hb
  | cons op ops ih =>
    intro b hb
    exact ih _ (step_indices k hk b hb op)

theorem empty_indices [Zero T] (k : Nat) : IndicesOk k (empty T (2 ^ k)) :=
  ⟨Nat.two_pow_pos k, Nat.two_pow_pos k⟩

/-! ## Ring buffer: claims -/

/-- C9: in every state reached from the empty `RingBuffer<T, N>` (`N = 2^k`) by
any sequence of `push`, `pop`, `read`, `peek` and `clear`, both indices are
below `N`, `getAvailable()` is at most `N - 1 = capacity()`, and
`getAvailable()` is 0 exactly when `isEmpty()`. -/
theorem available_bounds [Zero T] (k : Nat) (hk : k < 32) (ops : List (Op T)) :
    (run (empty T (2 ^ k)) ops).writeIndex < 2 ^ k ∧
      (run (empty T (2 ^ k)) ops).readIndex < 2 ^ k ∧
      getAvailable (run (empty T (2 ^ k)) ops) ≤ 2 ^ k - 1 ∧
      getAvailable (run (empty T (2 ^ k)) ops) ≤ capacity (2 ^ k) ∧
      (getAvailable (run (empty T (2 ^ k)) ops) = 0 ↔
        isEmpty (run (empty T (2 ^ k)) ops) = true) := by
  have hb := run_indices k hk ops _ (empty_indices (T := T) k)
  have h := size_bounds k hk
  rw [getAvailable_eq k hk _ hb]
  obtain ⟨hw, hr⟩ := hb
  refine ⟨hw, hr, ?_, ?_, ?_⟩
  · split_ifs <;> omega
  · unfold capacity; split_ifs <;> omega
  · simp only [isEmpty, decide_eq_true_eq]
    split_ifs <;> omega

/-- Witness for C9: a buffer of size 4 after three pushes (the buffer is then
full), a fourth push, a pop, a read of two, a peek, a push and a clear. -/
theorem available_bounds_witness :
    (2 < 32) ∧
      getAvailable (run (empty Nat (2 ^ 2))
        [.push 7, .push 8, .push 9, .push 10, .pop, .read 2, .peek 1, .push 11, .clear])
        ≤ 2 ^ 2 - 1 :=
  ⟨by decide, (available_bounds 2 (by decide) _).2.2.1⟩

theorem pushAll_from_zero (k : Nat) (hk : k < 32) (xs : List T) :
    ∀ b : RingBuffer T (2 ^ k), b.readIndex = 0 →
      b.writeIndex + xs.length ≤ 2 ^ k - 1 →
      (pushAll b xs).1 = List.replicate xs.length true ∧
        (pushAll b xs).2.readIndex = 0 ∧
        (pushAll b xs).2.writeIndex = b.writeIndex + xs.length := by
  have h := size_bounds k hk
  induction xs with
  | nil => intro b hr _; exact ⟨rfl, hr, rfl⟩
  | cons x xs ih =>
    intro b hr hlen
    simp only [List.length_cons] at hlen
    have hb : IndicesOk k b := ⟨by omega, by omega⟩
    have hp : push b x = (true, { b with
        buffer := fun i => if i = b.writeIndex then x else b.buffer i
        writeIndex := b.writeIndex + 1 }) := by
      rw [push_eq k hk b hb, if_neg (by omega : ¬ b.writeIndex + 1 = 2 ^ k),
        if_neg (by omega)]
    have := ih (push b x).2 (by rw [hp]; exact hr) (by rw [hp]; simp only; omega)
    simp only [pushAll, List.length_cons, List.replicate_succ]
    rw [this.1, this.2.1, this.2.2, hp]
    exact ⟨rfl, rfl, by simp only; omega⟩

/-- C8: for every power-of-two size `N = 2^k`, starting from the empty
`RingBuffer<T, N>`: `N - 1` consecutive pushes all return true and the next push
returns false; for `N ≥ 2` the following `pop` succeeds, the push after it
returns true (the write index wraps to 0) and the push after that returns
false. For `N = 1` the capacity is 0 and the `pop` returns false. -/
theorem push_pop_capacity [Zero T] (k : Nat) (hk : k < 32) (xs : List T)
    (hlen : xs.length = 2 ^ k - 1) (y z w : T) :
    (pushAll (empty T (2 ^ k)) xs).1 = List.replicate (2 ^ k - 1) true ∧
      (push (pushAll (empty T (2 ^ k)) xs).2 y).1 = false ∧
      (k = 0 → (pop (push (pushAll (empty T (2 ^ k)) xs).2 y).2).1 = none) ∧
      (1 ≤ k →
        (pop (push (pushAll (empty T (2 ^ k)) xs).2 y).2).1.isSome = true ∧
        (push (pop (push (pushAll (empty T (2 ^ k)) xs).2 y).2).2 z).1 = true ∧
        (push (pop (push (pushAll (empty T (2 ^ k)) xs).2 y).2).2 z).2.writeIndex = 0 ∧
        (push (push (pop (push (pushAll (empty T (2 ^ k)) xs).2 y).2).2 z).2 w).1
          = false) := by
  have h := size_bounds k hk
  obtain ⟨h1, hr, hw⟩ := pushAll_from_zero k hk xs (empty T (2 ^ k)) rfl
    (by simp only [empty]; omega)
  have hw1 : (pushAll (empty T (2 ^ k)) xs).2.writeIndex = 2 ^ k - 1 := by
    rw [hw]; simp only [empty]; omega
  generalize (pushAll (empty T (2 ^ k)) xs).2 = b1 at hr hw1
  rw [h1, hlen]
  have hb1 : IndicesOk k b1 := ⟨by omega, by omega⟩
  have hpush : push b1 y = (false, b1) := by
    rw [push_eq k hk b1 hb1, if_pos (by omega : b1.writeIndex + 1 = 2 ^ k), hr, if_pos rfl]
  rw [hpush]
  refine ⟨rfl, rfl, ?_, ?_⟩
  · intro hk0
    subst hk0
    rw [pop_eq 0 hk b1 hb1, if_pos (by omega)]
  · intro hk1
    have h2 : 2 ≤ 2 ^ k := by
      calc 2 = 2 ^ 1 := rfl
        _ ≤ 2 ^ k := Nat.pow_le_pow_right (by omega) hk1
    have hpop : pop b1 = (some (b1.buffer b1.readIndex), { b1 with readIndex := 1 }) := by
      rw [pop_eq k hk b1 hb1, if_neg (by omega), hr, if_neg (by omega)]
    rw [hpop]
    have hb2 : IndicesOk k { b1 with readIndex := 1 } := ⟨hb1.1, by simp only; omega⟩
    have hpush2 : push ({ b1 with readIndex := 1 } : RingBuffer T (2 ^ k)) z =
        (true, ({ b1 with
          buffer := fun i => if i = b1.writeIndex then z else b1.buffer i
          writeIndex := 0, readIndex := 1 } : RingBuffer T (2 ^ k))) := by
      rw [push_eq k hk _ hb2]
      simp only
      rw [if_pos (by omega : b1.writeIndex + 1 = 2 ^ k), if_neg (by omega)]
    rw [hpush2]
    refine ⟨rfl, rfl, rfl, ?_⟩
    have hb3 : IndicesOk k ({ b1 with
        buffer := fun i => if i = b1.writeIndex then z else b1.buffer i
        writeIndex := 0, readIndex := 1 } : RingBuffer T (2 ^ k)) :=
      ⟨by simp only; omega, by simp only; omega⟩
    rw [push_eq k hk _ hb3]
    simp only
    rw [if_neg (by omega : ¬ 0 + 1 = 2 ^ k), if_pos rfl]

/-- Witness for C8: a buffer of size 4 holding the samples 10, 20, 30. -/
theorem push_pop_capacity_witness :
    (2 < 32) ∧ [10, 20, 30].length = 2 ^ 2 - 1 ∧
      (pushAll (empty Nat (2 ^ 2)) [10, 20, 30]).1 = List.replicate (2 ^ 2 - 1) true ∧
      (push (pushAll (empty Nat (2 ^ 2)) [10, 20, 30]).2 40).1 = false :=
  ⟨by decide, by decide,
    (push_pop_capacity 2 (by decide) [10, 20, 30] (by decide) 40 50 60).1,
    (push_pop_capacity 2 (by decide) [10, 20, 30] (by decide) 40 50 60).2.1⟩

/-- C10: in every state `b` reached from the empty `RingBuffer<T, N>`
(`N = 2^k`): if `b` is full (`getAvailable() = N - 1`) then `push` returns false
and returns the buffer unchanged (both indices and every stored sample), so the
pushed sample is the one dropped; `push` returns true exactly when
`getFree() > 0`; and when it returns true `getAvailable()` has grown by exactly
1, the read index is unchanged and the sample sits in the slot of the old write
index. -/
theorem push_drop_on_full [Zero T] (k : Nat) (hk : k < 32) (ops : List (Op T)) (x : T) :
    (getAvailable (run (empty T (2 ^ k)) ops) = 2 ^ k - 1 →
        push (run (empty T (2 ^ k)) ops) x = (false, run (empty T (2 ^ k)) ops)) ∧
      ((push (run (empty T (2 ^ k)) ops) x).1 = true ↔
        0 < getFree (run (empty T (2 ^ k)) ops)) ∧
      ((push (run (empty T (2 ^ k)) ops) x).1 = true →
        getAvailable (push (run (empty T (2 ^ k)) ops) x).2 =
            getAvailable (run (empty T (2 ^ k)) ops) + 1 ∧
          (push (run (empty T (2 ^ k)) ops) x).2.readIndex =
            (run (empty T (2 ^ k)) ops).readIndex ∧
          (push (run (empty T (2 ^ k)) ops) x).2.buffer
            (run (empty T (2 ^ k)) ops).writeIndex = x) := by
  have hb := run_indices k hk ops _ (empty_indices (T := T) k)
  have hb2 := push_indices k hk _ hb x
  have h := size_bounds k hk
  have hfree : getFree (run (empty T (2 ^ k)) ops) =
      (2 ^ k + 2 ^ 32 + 2 ^ 32 - getAvailable (run (empty T (2 ^ k)) ops) - 1) % 2 ^ 32 := rfl
  rw [hfree, getAvailable_eq k hk _ hb2, getAvailable_eq k hk _ hb]
  rw [push_eq k hk _ hb]
  generalize run (empty T (2 ^ k)) ops = b at hb ⊢
  obtain ⟨hw, hr⟩ := hb
  refine ⟨?_, ?_, ?_⟩
  · intro hfull
    rw [if_pos]
    split_ifs at hfull ⊢ <;> omega
  · by_cases e : (if b.writeIndex + 1 = 2 ^ k then 0 else b.writeIndex + 1) = b.readIndex
    · rw [if_pos e]
      simp only [Bool.false_eq_true, false_iff, not_lt, Nat.le_zero]
      split_ifs at e ⊢ <;> omega
    · rw [if_neg e]
      simp only [true_iff]
      split_ifs at e ⊢ <;> omega
  · by_cases e : (if b.writeIndex + 1 = 2 ^ k then 0 else b.writeIndex + 1) = b.readIndex
    · rw [if_pos e]; intro hf; exact absurd hf (by simp)
    · rw [if_neg e]
      intro _
      refine ⟨?_, rfl, by simp⟩
      simp only
      split_ifs at e ⊢ <;> omega

/-- Witness for C10: a full buffer of size 4 rejects the sample 40 and is
returned unchanged. -/
theorem push_drop_on_full_witness :
    (2 < 32) ∧
      (getAvailable (run (empty Nat (2 ^ 2)) [.push 10, .push 20, .push 30]) = 2 ^ 2 - 1 →
        push (run (empty Nat (2 ^ 2)) [.push 10, .push 20, .push 30]) 40 =
          (false, run (empty Nat (2 ^ 2)) [.push 10, .push 20, .push 30])) ∧
      getAvailable (run (empty Nat (2 ^ 2)) [.push 10, .push 20, .push 30]) = 2 ^ 2 - 1 :=
  ⟨by decide,
    (push_drop_on_full 2 (by decide) [.push 10, .push 20, .push 30] 40).1,
    by decide⟩

end RingBuffer

/-! ## StringManager: single steps -/

namespace StringManager

theorem fretToMidiNote_lt (string : Nat) (fret : Int) :
    NoteMapping.fretToMidiNote string fret < 128 := by
  unfold NoteMapping.fretToMidiNote
  simp only
  split_ifs with h
  · omega
  · generalize ((NoteMapping.OPEN_STRING_MIDI_NOTES.getD (string % 256) 0 : Nat) : Int) +
      clampInt fret 0 NoteMapping.MAX_FRET = v
    have hc := clampInt_bounds v 0 127 (by omega)
    rw [toUInt8_of_range _ hc.1 (by omega)]
    omega

theorem sendNoteOn_bytes (m : StringManager) (d : MidiDinOut) (hd : d.initialized = true)
    (fp : FretPosition) :
    sendNoteOn m d fp =
      ({ m with noteOn := true,
                currentMidiNote := NoteMapping.fretToMidiNote fp.string fp.fret,
                currentFret := fp.fret, lastValidFret := fp },
        noteOnBytes fp.string fp.fret) := by
  have hn := fretToMidiNote_lt fp.string fp.fret
  simp only [sendNoteOn, noteOnBytes, MidiDinOut.sendNoteOn_eq d hd, MIDI_CHANNEL,
    DEFAULT_VELOCITY, SysExEncoder.fromFretPosition, MidiDinOut.sendSysEx,
    MidiDinOut.sendMessage, hd]
  simp [SysExEncoder.encode, Nat.mod_eq_of_lt hn]

theorem sendNoteOff_bytes (m : StringManager) (d : MidiDinOut) (hd : d.initialized = true)
    (hn : m.currentMidiNote < 128) :
    sendNoteOff m d =
      if m.noteOn then
        ({ m with noteOn := false, currentMidiNote := 0, currentFret := -1 },
          noteOffBytes m.currentMidiNote)
      else (m, []) := by
  unfold sendNoteOff
  cases hon : m.noteOn
  · simp
  · simp [MidiDinOut.sendNoteOff_eq d hd, MIDI_CHANNEL, noteOffBytes, Nat.mod_eq_of_lt hn]

theorem currentFretPos_of_reports (f : Nat → ℚ → Int) (m : StringManager)
    (p : ProcessorView) (st : StringState) (g : Int) (hg : 0 ≤ g)
    (h : Reports f m.stringId p st g) :
    currentFretPos f m p =
        { string := m.stringId, fret := g, frequency := p.latestPitch.frequencyHz,
          confidence := p.latestPitch.confidence } ∧
      (currentFretPos f m p).isValid = true := by
  obtain ⟨_, _, hv, ha, hf⟩ := h
  have e : currentFretPos f m p =
      { string := m.stringId, fret := g, frequency := p.latestPitch.frequencyHz,
        confidence := p.latestPitch.confidence } := by
    simp [currentFretPos, NoteMapping.mapPitchToFret, hv, ha, hf, hg]
  refine ⟨e, ?_⟩
  rw [e]
  simp only [PitchEstimate.isValid, decide_eq_true_eq] at hv
  simp [FretPosition.isValid, hv, hg]

theorem update_attack (f : Nat → ℚ → Int) (m : StringManager) (d : MidiDinOut)
    (hd : d.initialized = true) (p : ProcessorView) (g : Int) (hg : 0 ≤ g)
    (h : Reports f m.stringId p .Attack g) :
    update f m d p =
      ({ m with noteOn := true,
                currentMidiNote := NoteMapping.fretToMidiNote m.stringId g,
                currentFret := g,
                lastValidFret :=
                  { string := m.stringId, fret := g, frequency := p.latestPitch.frequencyHz,
                    confidence := p.latestPitch.confidence } },
        noteOnBytes m.stringId g) := by
  obtain ⟨e, hv⟩ := currentFretPos_of_reports f m p _ g hg h
  unfold update
  simp only [h.1, h.2.1, ne_eq, not_true_eq_false, if_false, hv, if_true, handleAttack]
  rw [sendNoteOn_bytes _ d hd, e]

/-- An Active tick reporting a valid fret other than the sounding one, below the
threshold: only the debounce fields and `lastValidFret_` change. -/
theorem update_active_pending (f : Nat → ℚ → Int) (m : StringManager) (d : MidiDinOut)
    (p : ProcessorView) (g : Int) (hg : 0 ≤ g)
    (h : Reports f m.stringId p .Active g) (hon : m.noteOn = true)
    (hne : g ≠ m.currentFret)
    (hlow : (if g = m.pendingFret then m.fretChangeCounter + 1 else 1) < 3) :
    update f m d p =
      ({ m with
          fretChangeCounter := if g = m.pendingFret then m.fretChangeCounter + 1 else 1,
          pendingFret := g,
          lastValidFret :=
            { string := m.stringId, fret := g, frequency := p.latestPitch.frequencyHz,
              confidence := p.latestPitch.confidence } }, []) := by
  obtain ⟨e, hv⟩ := currentFretPos_of_reports f m p _ g hg h
  unfold update
  simp only [h.1, h.2.1, ne_eq, not_true_eq_false, if_false, hv, if_true, hon]
  rw [e]
  simp only [hne, not_false_eq_true, if_true, handleFretChange, FRET_CHANGE_THRESHOLD]
  by_cases hp : g = m.pendingFret
  · rw [if_pos hp] at hlow
    simp only [if_pos hp]
    rw [if_neg (by omega)]
    simp [hp, hon]
  · simp only [if_neg hp]
    rw [if_neg (by omega)]
    simp [hon]

/-- An Active tick reporting a valid fret other than the sounding one, reaching
the threshold: note-off for the sounding note, note-on for the new fret. -/
theorem update_active_commit (f : Nat → ℚ → Int) (m : StringManager) (d : MidiDinOut)
    (hd : d.initialized = true) (p : ProcessorView) (g : Int) (hg : 0 ≤ g)
    (h : Reports f m.stringId p .Active g) (hon : m.noteOn = true)
    (hne : g ≠ m.currentFret) (hnote : m.currentMidiNote < 128)
    (hhigh : 3 ≤ (if g = m.pendingFret then m.fretChangeCounter + 1 else 1)) :
    update f m d p =
      ({ m with
          noteOn := true,
          currentMidiNote := NoteMapping.fretToMidiNote m.stringId g,
          currentFret := g,
          fretChangeCounter := 0,
          pendingFret := -1,
          lastValidFret :=
            { string := m.stringId, fret := g, frequency := p.latestPitch.frequencyHz,
              confidence := p.latestPitch.confidence } },
        noteOffBytes m.currentMidiNote ++ noteOnBytes m.stringId g) := by
  obtain ⟨e, hv⟩ := currentFretPos_of_reports f m p _ g hg h
  unfold update
  simp only [h.1, h.2.1, ne_eq, not_true_eq_false, if_false, hv, if_true, hon]
  rw [e]
  simp only [hne, not_false_eq_true, if_true, handleFretChange, FRET_CHANGE_THRESHOLD]
  by_cases hp : g = m.pendingFret
  · rw [if_pos hp] at hhigh
    simp only [if_pos hp]
    rw [if_pos (by omega), sendNoteOff_bytes _ d hd (by simpa using hnote)]
    simp only [hon, if_true]
    rw [sendNoteOn_bytes _ d hd]
  · rw [if_neg hp] at hhigh
    omega

/-! ## StringManager: the debounce scenario -/

/-- C1: from a freshly constructed `StringManager` on an initialised transport,
the ticks Attack(fret 5), Active(fret 6), Active(fret 6), Active(fret 6) transmit:
on the Attack tick exactly the note-on for fret 5 (Note-On message and its SysEx
frame); on the first and second Active tick nothing, with `fretChangeCounter_`
1 and then 2; on the third Active tick exactly the Note-Off for the fret-5 note
followed by the note-on for fret 6. -/
theorem debounce_scenario (f : Nat → ℚ → Int) (d : MidiDinOut) (hd : d.initialized = true)
    (string : Nat) (p1 p2 p3 p4 : ProcessorView)
    (h1 : Reports f string p1 .Attack 5) (h2 : Reports f string p2 .Active 6)
    (h3 : Reports f string p3 .Active 6) (h4 : Reports f string p4 .Active 6) :
    (update f (new string) d p1).2 = noteOnBytes string 5 ∧
      (update f (stateAfter f d (new string) [p1]) d p2).2 = [] ∧
      (stateAfter f d (new string) [p1, p2]).fretChangeCounter = 1 ∧
      (update f (stateAfter f d (new string) [p1, p2]) d p3).2 = [] ∧
      (stateAfter f d (new string) [p1, p2, p3]).fretChangeCounter = 2 ∧
      (update f (stateAfter f d (new string) [p1, p2, p3]) d p4).2 =
        noteOffBytes (NoteMapping.fretToMidiNote string 5) ++ noteOnBytes string 6 ∧
      (stateAfter f d (new string) [p1, p2, p3, p4]).noteOn = true ∧
      (stateAfter f d (new string) [p1, p2, p3, p4]).currentFret = 6 ∧
      (stateAfter f d (new string) [p1, p2, p3, p4]).fretChangeCounter = 0 := by
  have e1 := update_attack f (new string) d hd p1 5 (by omega) h1
  simp only [stateAfter, List.foldl]
  rw [e1]
  have e2 := update_active_pending f (update f (new string) d p1).1 d p2 6 (by omega)
    (by rw [e1]; exact h2) (by rw [e1]) (by rw [e1]; simp) (by rw [e1]; simp [new])
  rw [e1] at e2
  rw [e2]
  have e3 := update_active_pending f (update f (update f (new string) d p1).1 d p2).1 d p3 6
    (by omega) (by rw [e1, e2]; exact h3) (by rw [e1, e2]) (by rw [e1, e2]; simp)
    (by rw [e1, e2]; simp [new])
  rw [e1, e2] at e3
  rw [e3]
  have e4 := update_active_commit f
    (update f (update f (update f (new string) d p1).1 d p2).1 d p3).1 d hd p4 6
    (by omega) (by rw [e1, e2, e3]; exact h4) (by rw [e1, e2, e3]) (by rw [e1, e2, e3]; simp)
    (by rw [e1, e2, e3]; exact fretToMidiNote_lt _ _) (by rw [e1, e2, e3]; simp [new])
  rw [e1, e2, e3] at e4
  rw [e4]
  simp [new]

/-- Witness for C1: the E string with pitches of 55 Hz (fret 5) and 58 Hz
(fret 6). -/
theorem debounce_scenario_witness :
    (update exampleFret (new 0) (MidiDinOut.init MidiDinOut.mk0)
        (pitchedTick .Attack 55)).2 = noteOnBytes 0 5 ∧
      (update exampleFret
        (stateAfter exampleFret (MidiDinOut.init MidiDinOut.mk0) (new 0)
          [pitchedTick .Attack 55, pitchedTick .Active 58, pitchedTick .Active 58])
        (MidiDinOut.init MidiDinOut.mk0) (pitchedTick .Active 58)).2 =
        noteOffBytes 33 ++ noteOnBytes 0 6 := by
  have w := debounce_scenario exampleFret (MidiDinOut.init MidiDinOut.mk0) rfl 0
    (pitchedTick .Attack 55) (pitchedTick .Active 58) (pitchedTick .Active 58)
    (pitchedTick .Active 58) (by decide) (by decide) (by decide) (by decide)
  exact ⟨w.1, w.2.2.2.2.2.1⟩

/-! ## StringManager: what one tick does to the debounce state -/

theorem currentFretPos_string (f : Nat → ℚ → Int) (m : StringManager) (p : ProcessorView) :
    currentFretPos f m p = FretPosition.default ∨
      (currentFretPos f m p).string = m.stringId := by
  unfold currentFretPos NoteMapping.mapPitchToFret
  by_cases c1 : (p.latestPitch.isValid && p.isActive) = true
  · rw [if_pos c1]
    by_cases c2 : (!p.latestPitch.isValid) = true
    · left; rw [if_pos c2]
    · rw [if_neg c2]
      by_cases c3 : f m.stringId p.latestPitch.frequencyHz < 0
      · left; simp only [if_pos c3]
      · right; simp only [if_neg c3]
  · left; rw [if_neg c1]

theorem update_other_string (f : Nat → ℚ → Int) (d : MidiDinOut) (m : StringManager)
    (p : ProcessorView) (hs : p.stringId ≠ m.stringId) : update f m d p = (m, []) := by
  unfold update; rw [if_pos hs]

theorem update_invalid (f : Nat → ℚ → Int) (d : MidiDinOut) (m : StringManager)
    (p : ProcessorView) (hs : p.stringId = m.stringId)
    (hv : (currentFretPos f m p).isValid = false)
    (hst : p.state = .Attack ∨ p.state = .Active) : update f m d p = (m, []) := by
  unfold update
  rw [if_neg (by simpa using hs)]
  rcases hst with hst | hst <;> simp [hst, hv]

theorem update_attack_valid (f : Nat → ℚ → Int) (d : MidiDinOut) (hd : d.initialized = true)
    (m : StringManager) (p : ProcessorView) (hs : p.stringId = m.stringId)
    (hv : (currentFretPos f m p).isValid = true) (hst : p.state = .Attack) :
    update f m d p =
      ({ m with noteOn := true,
                currentMidiNote := NoteMapping.fretToMidiNote (currentFretPos f m p).string
                  (currentFretPos f m p).fret,
                currentFret := (currentFretPos f m p).fret,
                lastValidFret := currentFretPos f m p },
        noteOnBytes (currentFretPos f m p).string (currentFretPos f m p).fret) := by
  unfold update
  rw [if_neg (by simpa using hs)]
  simp only [hst, hv, if_true, handleAttack]
  rw [sendNoteOn_bytes _ d hd]

theorem update_late_attack (f : Nat → ℚ → Int) (d : MidiDinOut) (hd : d.initialized = true)
    (m : StringManager) (p : ProcessorView) (hs : p.stringId = m.stringId)
    (hv : (currentFretPos f m p).isValid = true) (hst : p.state = .Active)
    (hon : m.noteOn = false) :
    update f m d p =
      ({ m with noteOn := true,
                currentMidiNote := NoteMapping.fretToMidiNote (currentFretPos f m p).string
                  (currentFretPos f m p).fret,
                currentFret := (currentFretPos f m p).fret,
                lastValidFret := currentFretPos f m p },
        noteOnBytes (currentFretPos f m p).string (currentFretPos f m p).fret) := by
  unfold update
  rw [if_neg (by simpa using hs)]
  simp only [hst, hv, if_true, hon, Bool.false_eq_true, if_false, handleAttack]
  rw [sendNoteOn_bytes _ d hd]

theorem stateBefore_zero (f : Nat → ℚ → Int) (d : MidiDinOut) (string : Nat)
    (ps : List ProcessorView) : stateBefore f d string ps 0 = new string := rfl

/-- The run with a Release while fret 6 is pending is outside the amended claim
C3: the Release tick 3 finds `fretChangeCounter_ = 2`. -/
theorem released_run_has_boundary :
    ¬ NoBoundaryWhilePending exampleFret (MidiDinOut.init MidiDinOut.mk0) 0 releasedRun 5 := by
  intro h
  have h3 := h 3 _ (by decide) rfl ⟨rfl, Or.inl rfl⟩
  exact absurd h3 (by decide)

/-- C2 fails on the code: on the E string the ticks Attack(fret 5), Attack(fret 7)
followed by `forceNoteOff` transmit the Note-On of note 33, the Note-On of note
35 and the Note-Off of note 35 only, so the stream does not alternate and note
33 is never turned off. -/
theorem reattack_leaves_note_on :
    runThenForceOff exampleFret (MidiDinOut.init MidiDinOut.mk0) (new 0)
        [pitchedTick .Attack 55, pitchedTick .Attack 62] =
      [0x90, 33, 100, 0xF0, 0x7D, 0x42, 0x4D, 0x01, 0, 5, 33, 100, 0xF7,
        0x90, 35, 100, 0xF0, 0x7D, 0x42, 0x4D, 0x01, 0, 7, 35, 100, 0xF7,
        0x80, 35, 64] ∧
      NoStuckNotes (runThenForceOff exampleFret (MidiDinOut.init MidiDinOut.mk0) (new 0)
        [pitchedTick .Attack 55, pitchedTick .Attack 62]) = false := by
  decide

end StringManager

/-! ## Ring buffer: available and free counts -/

namespace RingBuffer

/-- C12: for all index values `w`, `r` below `N = 2^k`, `getAvailable()` (the
32-bit wrap-around difference masked with `N - 1`) is the mathematical
`(w - r) mod N`, also when `w < r` (it is then `w + N - r`);
`getFree() = N - getAvailable() - 1`, and `getAvailable() + getFree() = N - 1 =
capacity()`. -/
theorem available_is_mod (k : Nat) (hk : k < 32) (b : RingBuffer T (2 ^ k))
    (hw : b.writeIndex < 2 ^ k) (hr : b.readIndex < 2 ^ k) :
    (getAvailable b : Int) = ((b.writeIndex : Int) - b.readIndex) % ((2 ^ k : Nat) : Int) ∧
      (b.writeIndex < b.readIndex → getAvailable b = b.writeIndex + 2 ^ k - b.readIndex) ∧
      getFree b = 2 ^ k - getAvailable b - 1 ∧
      getAvailable b + getFree b = 2 ^ k - 1 ∧
      getAvailable b + getFree b = capacity (2 ^ k) := by
  have h := size_bounds k hk
  have hfree : getFree b = (2 ^ k + 2 ^ 32 + 2 ^ 32 - getAvailable b - 1) % 2 ^ 32 := rfl
  rw [hfree, getAvailable_eq k hk b ⟨hw, hr⟩]
  unfold capacity
  clear hfree
  generalize b.writeIndex = w at hw ⊢
  generalize b.readIndex = r at hr ⊢
  clear b
  generalize 2 ^ k = N at h hw hr ⊢
  have h31 : N ≤ 2147483648 := by simpa using h.2
  by_cases hle : r ≤ w
  · simp only [if_pos hle]
    refine ⟨?_, by omega, by omega, by omega, by omega⟩
    rw [Int.emod_eq_of_lt (by omega) (by omega)]
    omega
  · simp only [if_neg hle]
    refine ⟨?_, ?_, ?_, ?_, ?_⟩
    · rw [← Int.add_emod_self, Int.emod_eq_of_lt (by omega) (by omega)]
      omega
    all_goals first | omega | exact fun _ => trivial

/-- Witness for C12: size 8 with the write index wrapped to 1 behind the read
index 6. -/
theorem available_is_mod_witness :
    getAvailable ({ buffer := fun _ => 0, writeIndex := 1, readIndex := 6 } :
        RingBuffer Nat (2 ^ 3)) = 1 + 2 ^ 3 - 6 ∧
      getAvailable ({ buffer := fun _ => 0, writeIndex := 1, readIndex := 6 } :
        RingBuffer Nat (2 ^ 3)) +
        getFree ({ buffer := fun _ => 0, writeIndex := 1, readIndex := 6 } :
          RingBuffer Nat (2 ^ 3)) = 2 ^ 3 - 1 :=
  ⟨(available_is_mod 3 (by decide) _ (by decide) (by decide)).2.1 (by decide),
    (available_is_mod 3 (by decide) _ (by decide) (by decide)).2.2.2.1⟩

end RingBuffer

/-! ## NoteMapping: frets and notes -/

namespace NoteMapping

/-- C14: for every supported string `s` (0..3, open notes 28, 33, 38, 43) and
every integer fret `f`, `fretToMidiNote(s, f)` is the open note plus `f` when
`0 ≤ f ≤ 24`, the open note plus 24 when `f > 24` and the open note when
`f < 0`; the result is at most 127. -/
theorem fretToMidiNote_spec (s : Nat) (hs : s < 4) (f : Int) :
    [getOpenStringMidiNote 0, getOpenStringMidiNote 1, getOpenStringMidiNote 2,
        getOpenStringMidiNote 3] = [28, 33, 38, 43] ∧
      (0 ≤ f → f ≤ 24 → (fretToMidiNote s f : Int) = getOpenStringMidiNote s + f) ∧
      (24 < f → fretToMidiNote s f = getOpenStringMidiNote s + 24) ∧
      (f < 0 → fretToMidiNote s f = getOpenStringMidiNote s) ∧
      fretToMidiNote s f ≤ 127 := by
  refine ⟨by decide, ?_, ?_, ?_, ?_⟩
  · intro h0 h24
    interval_cases s <;>
      simp [fretToMidiNote, getOpenStringMidiNote, NUM_STRINGS, OPEN_STRING_MIDI_NOTES,
        MAX_FRET, clampInt, toUInt8] <;> split_ifs <;> omega
  · intro h24
    interval_cases s <;>
      simp [fretToMidiNote, getOpenStringMidiNote, NUM_STRINGS, OPEN_STRING_MIDI_NOTES,
        MAX_FRET, clampInt, toUInt8] <;> split_ifs <;> omega
  · intro h0
    interval_cases s <;>
      simp [fretToMidiNote, getOpenStringMidiNote, NUM_STRINGS, OPEN_STRING_MIDI_NOTES,
        MAX_FRET, clampInt, toUInt8] <;> split_ifs <;> omega
  · have := StringManager.fretToMidiNote_lt s f
    omega

/-- Witness for C14: the G string at fret 24, above the neck (fret 30) and below
it (fret -2). -/
theorem fretToMidiNote_spec_witness :
    (3 < 4) ∧ (fretToMidiNote 3 24 : Int) = getOpenStringMidiNote 3 + 24 ∧
      fretToMidiNote 3 30 = getOpenStringMidiNote 3 + 24 ∧
      fretToMidiNote 3 (-2) = getOpenStringMidiNote 3 :=
  ⟨by decide, (fretToMidiNote_spec 3 (by decide) 24).2.1 (by decide) (by decide),
    (fretToMidiNote_spec 3 (by decide) 30).2.2.1 (by decide),
    (fretToMidiNote_spec 3 (by decide) (-2)).2.2.2.1 (by decide)⟩

theorem getOpenStringFrequency_pos (s : Nat) (hs : s < 4) :
    0 < getOpenStringFrequency s := by
  interval_cases s <;>
    norm_num [getOpenStringFrequency, NUM_STRINGS, OPEN_STRING_FREQUENCIES]

theorem getOpenStringFrequency_out_of_range (s : Nat) (h4 : 4 ≤ s) (h : s < 256) :
    getOpenStringFrequency s = 0 := by
  unfold getOpenStringFrequency NUM_STRINGS
  simp only [Nat.mod_eq_of_lt h]
  rw [if_pos h4]

theorem frequencyToFret_of_pos (log2 : ℚ → ℚ) (s : Nat) (hs : s < 4) (freq : ℚ)
    (hf : 0 < freq) :
    frequencyToFret log2 s freq =
      clampInt (roundToInt (12 * log2 (freq / getOpenStringFrequency s))) 0 24 := by
  have ho := getOpenStringFrequency_pos s hs
  unfold frequencyToFret clampInt MAX_FRET
  rw [if_neg (not_le.mpr hf)]
  simp only [if_neg (ne_of_gt ho)]

theorem frequencyToFret_of_nonpos (log2 : ℚ → ℚ) (s : Nat) (freq : ℚ) (hf : freq ≤ 0) :
    frequencyToFret log2 s freq = -1 := by
  unfold frequencyToFret
  rw [if_pos hf]

theorem frequencyToFret_out_of_range (log2 : ℚ → ℚ) (s : Nat) (h4 : 4 ≤ s) (h : s < 256)
    (freq : ℚ) : frequencyToFret log2 s freq = -1 := by
  unfold frequencyToFret
  by_cases hf : freq ≤ 0
  · rw [if_pos hf]
  · rw [if_neg hf]
    simp only [getOpenStringFrequency_out_of_range s h4 h, if_true]

theorem default_not_valid : FretPosition.default.isValid = false := by decide

/-- C17: `mapPitchToFret(s, p)` is the invalid default `FretPosition` whenever
the pitch is invalid or `frequencyToFret(s, p.frequencyHz)` is -1; otherwise it is
the valid position `{s, frequencyToFret(s, p.frequencyHz), p.frequencyHz,
p.confidence}`. Hence the result is valid exactly when the pitch is valid, its
frequency is positive and the string is one of 0..3. -/
theorem mapPitchToFret_spec (log2 : ℚ → ℚ) (s : Nat) (hs : s < 256) (p : PitchEstimate) :
    ((p.isValid = false ∨ frequencyToFret log2 s p.frequencyHz = -1) →
        mapPitchToFret (frequencyToFret log2) s p = FretPosition.default ∧
          (mapPitchToFret (frequencyToFret log2) s p).isValid = false) ∧
      ((p.isValid = true ∧ frequencyToFret log2 s p.frequencyHz ≠ -1) →
        mapPitchToFret (frequencyToFret log2) s p =
            { string := s, fret := frequencyToFret log2 s p.frequencyHz,
              frequency := p.frequencyHz, confidence := p.confidence } ∧
          (mapPitchToFret (frequencyToFret log2) s p).isValid = true) ∧
      ((mapPitchToFret (frequencyToFret log2) s p).isValid = true ↔
        (p.isValid = true ∧ 0 < p.frequencyHz ∧ s < 4)) := by
  have hrange : frequencyToFret log2 s p.frequencyHz = -1 ∨
      (0 ≤ frequencyToFret log2 s p.frequencyHz ∧ 0 < p.frequencyHz ∧ s < 4) := by
    by_cases h4 : s < 4
    · by_cases hf : p.frequencyHz ≤ 0
      · exact Or.inl (frequencyToFret_of_nonpos log2 s _ hf)
      · rw [frequencyToFret_of_pos log2 s h4 _ (not_le.mp hf)]
        exact Or.inr ⟨(clampInt_bounds _ 0 24 (by omega)).1, not_le.mp hf, h4⟩
    · exact Or.inl (frequencyToFret_out_of_range log2 s (by omega) hs _)
  have hneg : frequencyToFret log2 s p.frequencyHz = -1 →
      ¬ (0 < p.frequencyHz ∧ s < 4) := by
    intro h ⟨hf, h4⟩
    rw [frequencyToFret_of_pos log2 s h4 _ hf] at h
    have := (clampInt_bounds (roundToInt (12 * log2 (p.frequencyHz /
      getOpenStringFrequency s))) 0 24 (by omega)).1
    omega
  have hinv : (p.isValid = false ∨ frequencyToFret log2 s p.frequencyHz = -1) →
      mapPitchToFret (frequencyToFret log2) s p = FretPosition.default := by
    intro h
    unfold mapPitchToFret
    rcases h with h | h
    · simp [h]
    · simp [h]
  have hval : (p.isValid = true ∧ frequencyToFret log2 s p.frequencyHz ≠ -1) →
      mapPitchToFret (frequencyToFret log2) s p =
          { string := s, fret := frequencyToFret log2 s p.frequencyHz,
            frequency := p.frequencyHz, confidence := p.confidence } ∧
        (mapPitchToFret (frequencyToFret log2) s p).isValid = true := by
    intro ⟨hv, hne⟩
    have h0 : 0 ≤ frequencyToFret log2 s p.frequencyHz := by
      rcases hrange with h | h
      · exact absurd h hne
      · exact h.1
    have e : mapPitchToFret (frequencyToFret log2) s p =
        { string := s, fret := frequencyToFret log2 s p.frequencyHz,
          frequency := p.frequencyHz, confidence := p.confidence } := by
      unfold mapPitchToFret
      simp [hv, h0]
    refine ⟨e, ?_⟩
    rw [e]
    simp only [PitchEstimate.isValid, decide_eq_true_eq] at hv
    simp [FretPosition.isValid, hv, h0]
  refine ⟨fun h => ⟨hinv h, by rw [hinv h]; exact default_not_valid⟩, hval, ?_⟩
  constructor
  · intro hvalid
    by_cases hv : p.isValid = true
    · rcases hrange with h | h
      · rw [hinv (Or.inr h), default_not_valid] at hvalid
        exact absurd hvalid (by decide)
      · exact ⟨hv, h.2⟩
    · rw [hinv (Or.inl (by simpa using hv)), default_not_valid] at hvalid
      exact absurd hvalid (by decide)
  · intro ⟨hv, hf, h4⟩
    exact (hval ⟨hv, fun h => hneg h ⟨hf, h4⟩⟩).2

/-- Witness for C17: a confident pitch at twice the open E frequency. -/
theorem mapPitchToFret_spec_witness :
    (0 < 256) ∧
      ((mapPitchToFret (frequencyToFret exampleLog2) 0
          { frequencyHz := 41203 / 500, confidence := 1 }).isValid = true ↔
        ((PitchEstimate.isValid { frequencyHz := 41203 / 500, confidence := 1 }) = true ∧
          (0 : ℚ) < 41203 / 500 ∧ 0 < 4)) :=
  ⟨by decide, (mapPitchToFret_spec exampleLog2 0 (by decide)
    { frequencyHz := 41203 / 500, confidence := 1 }).2.2⟩

/-- C16: for every string index from `NUM_STRINGS` (4) up, `getOpenStringFrequency`
returns 0, `getOpenStringMidiNote` returns 0, `fretToMidiNote` returns 0 for every
fret, `frequencyToFret` returns -1 for every frequency, `isFrequencyPlausible`
returns false, and `App::onAdcSample` leaves every processor as it was. -/
theorem out_of_range_string (s : Nat) (h4 : 4 ≤ s) (h : s < 256) :
    getOpenStringFrequency s = 0 ∧
      getOpenStringMidiNote s = 0 ∧
      (∀ fret, fretToMidiNote s fret = 0) ∧
      (∀ log2 freq, frequencyToFret log2 s freq = -1) ∧
      (∀ freq, isFrequencyPlausible s freq = false) ∧
      (∀ (P : Type) (pushSample : P → Nat → Bool × P) (processors : List P) (sample : Nat),
        App.onAdcSample pushSample processors s sample = processors) := by
  have hmod : s % 256 = s := Nat.mod_eq_of_lt h
  refine ⟨getOpenStringFrequency_out_of_range s h4 h, ?_, ?_,
    fun log2 freq => frequencyToFret_out_of_range log2 s h4 h freq, ?_, ?_⟩
  · unfold getOpenStringMidiNote NUM_STRINGS
    simp only [hmod]
    rw [if_pos h4]
  · intro fret
    unfold fretToMidiNote NUM_STRINGS
    simp only [hmod]
    rw [if_pos h4]
  · intro freq
    unfold isFrequencyPlausible
    by_cases hf : freq ≤ 0
    · rw [if_pos hf]
    · rw [if_neg hf]
      simp only [getOpenStringFrequency_out_of_range s h4 h, zero_mul]
      simp [hf]
  · intro P pushSample processors sample
    unfold App.onAdcSample NUM_STRINGS
    simp only [hmod]
    rw [if_neg (by omega)]

/-- Witness for C16: the string index 4. -/
theorem out_of_range_string_witness :
    (4 ≤ 4) ∧ (4 < 256) ∧ getOpenStringFrequency 4 = 0 ∧ getOpenStringMidiNote 4 = 0 ∧
      App.onAdcSample (fun (b : Nat) x => (true, b + x)) [0, 0, 0, 0] 4 7 = [0, 0, 0, 0] ∧
      App.onAdcSample (fun (b : Nat) x => (true, b + x)) [0, 0, 0, 0] 3 7 = [0, 0, 0, 7] :=
  ⟨by decide, by decide, (out_of_range_string 4 (by decide) (by decide)).1,
    (out_of_range_string 4 (by decide) (by decide)).2.1,
    (out_of_range_string 4 (by decide) (by decide)).2.2.2.2.2 Nat _ _ _, by decide⟩

end NoteMapping

/-! ## StringManager: forced note-off and note-on emission -/

namespace StringManager

/-- C19: on an initialised transport, `forceNoteOff` on a manager with no note on
transmits nothing and returns the manager unchanged; on a manager with a note on
it transmits exactly one Note-Off `[0x80 | MIDI_CHANNEL, currentMidiNote & 0x7F,
64]` (the byte `currentMidiNote` itself when it is a MIDI note number) and leaves
`noteOn = false`, `currentMidiNote = 0`, `currentFret = -1`, the other members
unchanged; a second call transmits nothing and changes nothing. -/
theorem forceNoteOff_spec (m : StringManager) (d : MidiDinOut) (hd : d.initialized = true) :
    (m.noteOn = false → forceNoteOff m d = (m, [])) ∧
      (m.noteOn = true →
        forceNoteOff m d =
            ({ m with noteOn := false, currentMidiNote := 0, currentFret := -1 },
              [0x80 ||| MIDI_CHANNEL, m.currentMidiNote &&& 0x7F, 64]) ∧
          (m.currentMidiNote < 128 →
            (forceNoteOff m d).2 = [0x80, m.currentMidiNote, 64])) ∧
      forceNoteOff (forceNoteOff m d).1 d = ((forceNoteOff m d).1, []) := by
  have hon : m.noteOn = true →
      forceNoteOff m d =
        ({ m with noteOn := false, currentMidiNote := 0, currentFret := -1 },
          [0x80 ||| MIDI_CHANNEL, m.currentMidiNote &&& 0x7F, 64]) := by
    intro h
    unfold forceNoteOff sendNoteOff
    simp only [h, if_true, Bool.not_true, Bool.false_eq_true, if_false]
    rw [MidiDinOut.sendNoteOff_eq d hd, and_7F_eq_mod]
    rfl
  have hoff : ∀ m' : StringManager, m'.noteOn = false → forceNoteOff m' d = (m', []) := by
    intro m' h
    unfold forceNoteOff
    simp only [h, Bool.false_eq_true, if_false]
  refine ⟨hoff m, fun h => ⟨hon h, fun hn => ?_⟩, ?_⟩
  · rw [hon h, and_7F_eq_mod, Nat.mod_eq_of_lt hn]
    rfl
  · cases h : m.noteOn
    · rw [hoff m h]; exact hoff m h
    · rw [hon h]; exact hoff _ rfl

/-- Witness for C19: the E-string manager after Attack(fret 5), where note 33 is
on. -/
theorem forceNoteOff_spec_witness :
    (MidiDinOut.init MidiDinOut.mk0).initialized = true ∧
      (forceNoteOff
        (stateAfter exampleFret (MidiDinOut.init MidiDinOut.mk0) (new 0)
          [pitchedTick .Attack 55]) (MidiDinOut.init MidiDinOut.mk0)).2 = [0x80, 33, 64] :=
  ⟨rfl, ((forceNoteOff_spec
    (stateAfter exampleFret (MidiDinOut.init MidiDinOut.mk0) (new 0) [pitchedTick .Attack 55])
    (MidiDinOut.init MidiDinOut.mk0) rfl).2.1 (by decide)).2 (by decide)⟩

/-- C20: on an initialised transport, an Attack tick with a valid fret `f`, and
an Active tick with a valid fret `f` while no note is on, transmits the Note-On
`[0x90 | MIDI_CHANNEL, n, 100]` immediately followed by the SysEx frame
`encode({string, f, n, 100})` with `n = fretToMidiNote(string, f)` and nothing
else; afterwards `noteOn = true`, `currentMidiNote = n`, `currentFret = f`, and
the debounce members are as before. -/
theorem note_on_emission (f : Nat → ℚ → Int) (d : MidiDinOut) (hd : d.initialized = true)
    (m : StringManager) (p : ProcessorView) (hs : p.stringId = m.stringId)
    (hv : (currentFretPos f m p).isValid = true)
    (hst : p.state = .Attack ∨ (p.state = .Active ∧ m.noteOn = false)) :
    update f m d p =
      ({ m with
          noteOn := true,
          currentMidiNote := NoteMapping.fretToMidiNote m.stringId (currentFretPos f m p).fret,
          currentFret := (currentFretPos f m p).fret,
          lastValidFret := currentFretPos f m p },
        [0x90 ||| MIDI_CHANNEL,
            NoteMapping.fretToMidiNote m.stringId (currentFretPos f m p).fret, 100] ++
          SysExEncoder.encode
            { string := m.stringId, fret := (currentFretPos f m p).fret,
              midiNote := NoteMapping.fretToMidiNote m.stringId (currentFretPos f m p).fret,
              velocity := 100 }) := by
  have hstr : (currentFretPos f m p).string = m.stringId := by
    rcases currentFretPos_string f m p with h | h
    · rw [h] at hv; exact absurd hv (by decide)
    · exact h
  rcases hst with hst | ⟨hst, hoff⟩
  · rw [update_attack_valid f d hd m p hs hv hst, hstr]
    rfl
  · rw [update_late_attack f d hd m p hs hv hst hoff, hstr]
    rfl

/-- Witness for C20: the Attack tick at 55 Hz on a fresh E-string manager. -/
theorem note_on_emission_witness :
    (update exampleFret (new 0) (MidiDinOut.init MidiDinOut.mk0) (pitchedTick .Attack 55)).2 =
        [0x90, 33, 100, 0xF0, 0x7D, 0x42, 0x4D, 0x01, 0, 5, 33, 100, 0xF7] ∧
      (update exampleFret (new 0) (MidiDinOut.init MidiDinOut.mk0)
        (pitchedTick .Attack 55)).1.currentFret = 5 := by
  have w := note_on_emission exampleFret (MidiDinOut.init MidiDinOut.mk0) rfl (new 0)
    (pitchedTick .Attack 55) rfl (by decide) (Or.inl rfl)
  rw [w]
  exact ⟨by decide, by decide⟩

end StringManager

/-! ## Ring buffer: the unread samples -/

namespace RingBuffer

theorem mod_two_range (N x : Nat) (h : x < N + N) :
    x % N = if x < N then x else x - N := by
  split_ifs with hx
  · exact Nat.mod_eq_of_lt hx
  · rw [Nat.mod_eq_sub_mod (by omega), Nat.mod_eq_of_lt (by omega)]

theorem slot_index (k : Nat) (hk : k < 32) (r i : Nat) (hr : r < 2 ^ k) (hi : i < 2 ^ k) :
    ((r + i) % 2 ^ 32) &&& MASK (2 ^ k) = (r + i) % 2 ^ k := by
  have h := size_bounds k hk
  have h31 : 2 ^ k ≤ 2147483648 := by simpa using h.2
  rw [and_MASK k hk, Nat.mod_eq_of_lt (show r + i < 2 ^ 32 by omega)]

theorem getAvailable_lt (k : Nat) (hk : k < 32) (b : RingBuffer T (2 ^ k))
    (hb : IndicesOk k b) : getAvailable b < 2 ^ k := by
  rw [getAvailable_eq k hk b hb]
  obtain ⟨hw, hr⟩ := hb
  split_ifs <;> omega

theorem unread_eq (k : Nat) (hk : k < 32) (b : RingBuffer T (2 ^ k)) (hb : IndicesOk k b) :
    unread b =
      (List.range (getAvailable b)).map (fun i => b.buffer ((b.readIndex + i) % 2 ^ k)) := by
  have hlt := getAvailable_lt k hk b hb
  unfold unread
  apply List.map_congr_left
  intro i hi
  rw [slot_index k hk _ _ hb.2 (by have := List.mem_range.mp hi; omega)]

theorem unread_length (b : RingBuffer T SIZE) : (unread b).length = getAvailable b := by
  simp [unread]

/-- Advancing the read index by one slot removes the oldest unread sample. -/
theorem unread_advance (k : Nat) (hk : k < 32) (b : RingBuffer T (2 ^ k))
    (hb : IndicesOk k b) (hne : b.readIndex ≠ b.writeIndex) :
    IndicesOk k ({ b with readIndex := ((b.readIndex + 1) % 2 ^ 32) &&& MASK (2 ^ k) } :
        RingBuffer T (2 ^ k)) ∧
      getAvailable b =
        getAvailable ({ b with readIndex := ((b.readIndex + 1) % 2 ^ 32) &&& MASK (2 ^ k) } :
          RingBuffer T (2 ^ k)) + 1 ∧
      unread b = b.buffer b.readIndex ::
        unread ({ b with readIndex := ((b.readIndex + 1) % 2 ^ 32) &&& MASK (2 ^ k) } :
          RingBuffer T (2 ^ k)) := by
  have h := size_bounds k hk
  have hnext := slot_index k hk b.readIndex 1 hb.2 (by
    by_contra hc
    have : 2 ^ k = 1 := by omega
    obtain ⟨hw, hr⟩ := hb
    omega)
  have hb' : IndicesOk k ({ b with readIndex := (b.readIndex + 1) % 2 ^ k } :
      RingBuffer T (2 ^ k)) := ⟨hb.1, Nat.mod_lt _ (by omega)⟩
  rw [hnext]
  have hav : getAvailable b =
      getAvailable ({ b with readIndex := (b.readIndex + 1) % 2 ^ k } :
        RingBuffer T (2 ^ k)) + 1 := by
    rw [getAvailable_eq k hk b hb, getAvailable_eq k hk _ hb']
    obtain ⟨hw, hr⟩ := hb
    simp only
    rw [mod_two_range _ _ (by omega)]
    split_ifs <;> omega
  refine ⟨hb', hav, ?_⟩
  rw [unread_eq k hk b hb, unread_eq k hk _ hb', hav, List.range_succ_eq_map,
    List.map_cons, List.map_map]
  simp only [Nat.add_zero, Nat.mod_eq_of_lt hb.2]
  congr 1
  apply List.map_congr_left
  intro i _
  simp only [Function.comp, Nat.succ_eq_add_one]
  rw [Nat.mod_add_mod, Nat.add_assoc, Nat.add_comm 1 i]

/-- A successful `push` appends its sample to the unread samples. -/
theorem unread_push (k : Nat) (hk : k < 32) (b : RingBuffer T (2 ^ k))
    (hb : IndicesOk k b) (x : T) (hok : (push b x).1 = true) :
    unread (push b x).2 = unread b ++ [x] ∧ getAvailable b + 1 < 2 ^ k := by
  have h := size_bounds k hk
  have hb2 := push_indices k hk b hb x
  have hav2 := getAvailable_eq k hk _ hb2
  have hav := getAvailable_eq k hk b hb
  rw [unread_eq k hk _ hb2, unread_eq k hk b hb]
  rw [push_eq k hk b hb] at hok hav2 ⊢
  obtain ⟨hw, hr⟩ := hb
  by_cases e : (if b.writeIndex + 1 = 2 ^ k then 0 else b.writeIndex + 1) = b.readIndex
  · rw [if_pos e] at hok; simp at hok
  · rw [if_neg e] at hav2 ⊢
    simp only at hav2 ⊢
    have hsucc : getAvailable ({ b with
        buffer := fun i => if i = b.writeIndex then x else b.buffer i
        writeIndex := if b.writeIndex + 1 = 2 ^ k then 0 else b.writeIndex + 1 } :
          RingBuffer T (2 ^ k)) = getAvailable b + 1 := by
      rw [hav2, hav]; split_ifs at e ⊢ <;> omega
    have hlt : getAvailable b + 1 < 2 ^ k := by
      rw [hav]; split_ifs at e ⊢ <;> omega
    refine ⟨?_, hlt⟩
    rw [hsucc, List.range_succ, List.map_append, List.map_cons, List.map_nil]
    congr 1
    · apply List.map_congr_left
      intro i hi
      have hi' := List.mem_range.mp hi
      rw [if_neg]
      rw [mod_two_range _ _ (by omega)]
      rw [hav] at hi'
      split_ifs at hi' ⊢ <;> omega
    · rw [if_pos]
      rw [mod_two_range _ _ (by omega), hav]
      split_ifs <;> omega

/-- A failed `push` leaves the buffer as it was, and the buffer is full. -/
theorem push_fail (k : Nat) (hk : k < 32) (b : RingBuffer T (2 ^ k))
    (hb : IndicesOk k b) (x : T) (hfail : (push b x).1 = false) :
    (push b x).2 = b ∧ getAvailable b + 1 = 2 ^ k := by
  have h := size_bounds k hk
  have hav := getAvailable_eq k hk b hb
  rw [push_eq k hk b hb] at hfail ⊢
  obtain ⟨hw, hr⟩ := hb
  by_cases e : (if b.writeIndex + 1 = 2 ^ k then 0 else b.writeIndex + 1) = b.readIndex
  · rw [if_pos e]
    refine ⟨rfl, ?_⟩
    rw [hav]; split_ifs at e ⊢ <;> omega
  · rw [if_neg e] at hfail; simp at hfail

/-- The loop of `read`, run `n ≤ getAvailable()` times, copies the `n` oldest unread
samples in order and leaves the rest unread. -/
theorem readLoop_spec (k : Nat) (hk : k < 32) (n : Nat) :
    ∀ b : RingBuffer T (2 ^ k), IndicesOk k b → n ≤ getAvailable b →
      (readLoop b n).1 = (unread b).take n ∧
        unread (readLoop b n).2 = (unread b).drop n ∧
        (readLoop b n).2.writeIndex = b.writeIndex ∧
        (readLoop b n).2.readIndex = (b.readIndex + n) % 2 ^ k ∧
        getAvailable (readLoop b n).2 + n = getAvailable b := by
  induction n with
  | zero =>
    intro b hb _
    exact ⟨rfl, rfl, rfl, (Nat.mod_eq_of_lt hb.2).symm, rfl⟩
  | succ n ih =>
    intro b hb hn
    have hne : b.readIndex ≠ b.writeIndex := by
      intro e
      have := getAvailable_eq k hk b hb
      rw [e] at this
      simp at this
      omega
    obtain ⟨hb', hav, hun⟩ := unread_advance k hk b hb hne
    obtain ⟨h1, h2, h3, h4, h5⟩ := ih _ hb' (by omega)
    have hr' : ((b.readIndex + 1) % 2 ^ 32) &&& MASK (2 ^ k) = (b.readIndex + 1) % 2 ^ k := by
      have h := size_bounds k hk
      have h31 : 2 ^ k ≤ 2147483648 := by simpa using h.2
      obtain ⟨hw, hr⟩ := hb
      rw [and_MASK k hk, Nat.mod_eq_of_lt (show b.readIndex + 1 < 2 ^ 32 by omega)]
    simp only [readLoop]
    refine ⟨?_, ?_, h3, ?_, by omega⟩
    · rw [h1, hun, List.take_succ_cons]
    · rw [h2, hun, List.drop_succ_cons]
    · rw [h4]
      simp only
      rw [hr', Nat.mod_add_mod, Nat.add_assoc, Nat.add_comm 1 n]

theorem take_unread (b : RingBuffer T SIZE) (n : Nat) (hn : n ≤ getAvailable b) :
    (unread b).take n =
      (List.range n).map
        (fun i => b.buffer (((b.readIndex + i) % 2 ^ 32) &&& MASK SIZE)) := by
  unfold unread
  rw [← List.map_take, List.take_range, Nat.min_eq_left hn]

theorem min_count (count available : Nat) :
    (if count < available then count else available) = min count available := by
  split_ifs <;> omega

/-- Every call acts on the unread samples as on a queue of capacity `N - 1`. -/
theorem unread_step (k : Nat) (hk : k < 32) (b : RingBuffer T (2 ^ k))
    (hb : IndicesOk k b) (op : Op T) :
    unread (step b op) = fifoStep (2 ^ k - 1) (unread b) op := by
  have h := size_bounds k hk
  cases op with
  | push x =>
    simp only [step, fifoStep, unread_length]
    cases hp : (push b x).1
    · obtain ⟨e, hfull⟩ := push_fail k hk b hb x hp
      rw [e, if_neg (by omega)]
    · obtain ⟨e, hroom⟩ := unread_push k hk b hb x hp
      rw [e, if_pos (by omega)]
  | pop =>
    simp only [step, fifoStep]
    unfold pop
    by_cases e : b.readIndex = b.writeIndex
    · rw [if_pos e]
      have hav := getAvailable_eq k hk b hb
      rw [e] at hav
      simp only [le_refl, if_true, Nat.sub_self] at hav
      have hnil : unread b = [] := by
        apply List.eq_nil_of_length_eq_zero
        rw [unread_length, hav]
      simp only [hnil, List.drop_nil]
    · rw [if_neg e]
      obtain ⟨_, _, hun⟩ := unread_advance k hk b hb e
      rw [hun]
      rfl
  | read n =>
    simp only [step, fifoStep, read, min_count]
    obtain ⟨_, h2, _⟩ := readLoop_spec k hk (min n (getAvailable b)) b hb (Nat.min_le_right _ _)
    rw [h2]
    by_cases hn : n ≤ getAvailable b
    · rw [Nat.min_eq_left hn]
    · rw [Nat.min_eq_right (by omega), List.drop_of_length_le (by rw [unread_length]),
        List.drop_of_length_le (by rw [unread_length]; omega)]
  | peek n => rfl
  | clear =>
    simp only [step, fifoStep, clear]
    apply List.eq_nil_of_length_eq_zero
    have hc : IndicesOk k ({ b with readIndex := b.writeIndex } : RingBuffer T (2 ^ k)) :=
      ⟨hb.1, hb.1⟩
    rw [unread_length, getAvailable_eq k hk _ hc]
    simp

theorem unread_run (k : Nat) (hk : k < 32) (ops : List (Op T)) :
    ∀ b : RingBuffer T (2 ^ k), IndicesOk k b →
      unread (run b ops) = ops.foldl (fifoStep (2 ^ k - 1)) (unread b) := by
  induction ops with
  | nil => intro b _; rfl
  | cons op ops ih =>
    intro b hb
    simp only [run, List.foldl_cons]
    rw [← unread_step k hk b hb op]
    exact ih _ (step_indices k hk b hb op)

theorem unread_empty [Zero T] (k : Nat) (hk : k < 32) : unread (empty T (2 ^ k)) = [] := by
  apply List.eq_nil_of_length_eq_zero
  rw [unread_length, getAvailable_eq k hk _ (empty_indices k)]
  simp [empty]

/-- C11: in every state `b` reached from the empty `RingBuffer<T, N>` (`N = 2^k`)
and for every `count`, with `n = min(count, getAvailable())`: `read(dest, count)`
returns `n`, writes to `dest[0..n)` the `n` oldest unread samples in order — the
unread samples being the successfully pushed samples not yet consumed, in the
order they were pushed — advances the read index by `n` modulo `N`, so that
`getAvailable()` drops by exactly `n` and the remaining samples stay unread, and
leaves the write index unchanged; `peek(dest, count)` returns the same `n` and
the same samples, and has no effect on the buffer. -/
theorem read_peek_spec [Zero T] (k : Nat) (hk : k < 32) (ops : List (Op T)) (count : Nat) :
    unread (run (empty T (2 ^ k)) ops) = fifoRun (2 ^ k - 1) ops ∧
      (read (run (empty T (2 ^ k)) ops) count).1 =
        min count (getAvailable (run (empty T (2 ^ k)) ops)) ∧
      (read (run (empty T (2 ^ k)) ops) count).2.1 =
        (unread (run (empty T (2 ^ k)) ops)).take
          (min count (getAvailable (run (empty T (2 ^ k)) ops))) ∧
      (read (run (empty T (2 ^ k)) ops) count).2.2.readIndex =
        ((run (empty T (2 ^ k)) ops).readIndex +
          min count (getAvailable (run (empty T (2 ^ k)) ops))) % 2 ^ k ∧
      (read (run (empty T (2 ^ k)) ops) count).2.2.writeIndex =
        (run (empty T (2 ^ k)) ops).writeIndex ∧
      getAvailable (read (run (empty T (2 ^ k)) ops) count).2.2 +
          min count (getAvailable (run (empty T (2 ^ k)) ops)) =
        getAvailable (run (empty T (2 ^ k)) ops) ∧
      unread (read (run (empty T (2 ^ k)) ops) count).2.2 =
        (unread (run (empty T (2 ^ k)) ops)).drop
          (min count (getAvailable (run (empty T (2 ^ k)) ops))) ∧
      peek (run (empty T (2 ^ k)) ops) count =
        (min count (getAvailable (run (empty T (2 ^ k)) ops)),
          (unread (run (empty T (2 ^ k)) ops)).take
            (min count (getAvailable (run (empty T (2 ^ k)) ops)))) ∧
      step (run (empty T (2 ^ k)) ops) (.peek count) = run (empty T (2 ^ k)) ops := by
  have hb := run_indices k hk ops _ (empty_indices (T := T) k)
  have hq : unread (run (empty T (2 ^ k)) ops) = fifoRun (2 ^ k - 1) ops := by
    rw [unread_run k hk ops _ (empty_indices k), unread_empty k hk]
    rfl
  refine ⟨hq, ?_⟩
  generalize run (empty T (2 ^ k)) ops = b at hb
  obtain ⟨h1, h2, h3, h4, h5⟩ :=
    readLoop_spec k hk (min count (getAvailable b)) b hb (Nat.min_le_right _ _)
  have hread : read b count =
      (min count (getAvailable b), (readLoop b (min count (getAvailable b))).1,
        (readLoop b (min count (getAvailable b))).2) := by
    unfold read; simp only [min_count]
  have hpeek : peek b count =
      (min count (getAvailable b), (unread b).take (min count (getAvailable b))) := by
    unfold peek; simp only [min_count]
    rw [take_unread b _ (Nat.min_le_right _ _)]
  rw [hread, hpeek]
  exact ⟨rfl, h1, h4, h3, h5, h2, rfl, rfl⟩

/-- Witness for C11: a buffer of size 4 after the pushes 10, 20, a pop and the
pushes 30, 40; reading two samples returns 20 and 30. -/
theorem read_peek_spec_witness :
    (2 < 32) ∧
      (read (run (empty Nat (2 ^ 2)) [.push 10, .push 20, .pop, .push 30, .push 40]) 2).2.1 =
        (unread (run (empty Nat (2 ^ 2)) [.push 10, .push 20, .pop, .push 30, .push 40])).take
          (min 2 (getAvailable
            (run (empty Nat (2 ^ 2)) [.push 10, .push 20, .pop, .push 30, .push 40]))) ∧
      (read (run (empty Nat (2 ^ 2)) [.push 10, .push 20, .pop, .push 30, .push 40]) 2).2.1 =
        [20, 30] :=
  ⟨by decide,
    (read_peek_spec 2 (by decide) [.push 10, .push 20, .pop, .push 30, .push 40] 2).2.2.1,
    by decide⟩

end RingBuffer

/-! ## StringProcessor: sample normalisation -/

namespace StringProcessor

theorem normalizeAdcSample_eq (r : Nat) : normalizeAdcSample r = ((r : ℚ) - 2048) / 2048 := by
  unfold normalizeAdcSample ADC_MIDPOINT ADC_SCALE
  ring

/-- C28: for every 12-bit raw sample `r` in `[0, 4095]`, `normalizeAdcSample(r)`
is exactly `(r - 2048) / 2048`, which lies in `[-1, 1]`; `normalizeAdcSample(2048)`
is 0 and `normalizeAdcSample(0)` is -1; the function is strictly increasing. -/
theorem normalizeAdcSample_spec (r : Nat) (hr : r ≤ 4095) :
    normalizeAdcSample r = ((r : ℚ) - 2048) / 2048 ∧
      -1 ≤ normalizeAdcSample r ∧ normalizeAdcSample r ≤ 1 ∧
      normalizeAdcSample 2048 = 0 ∧ normalizeAdcSample 0 = -1 ∧
      ∀ r' : Nat, r < r' → normalizeAdcSample r < normalizeAdcSample r' := by
  have hq : (r : ℚ) ≤ 4095 := by exact_mod_cast hr
  have h0 : (0 : ℚ) ≤ r := Nat.cast_nonneg r
  refine ⟨normalizeAdcSample_eq r, ?_, ?_, ?_, ?_, ?_⟩
  · rw [normalizeAdcSample_eq, le_div_iff₀ (by norm_num)]; linarith
  · rw [normalizeAdcSample_eq, div_le_iff₀ (by norm_num)]; linarith
  · rw [normalizeAdcSample_eq]; norm_num
  · rw [normalizeAdcSample_eq]; norm_num
  · intro r' hlt
    have hq' : (r : ℚ) < r' := by exact_mod_cast hlt
    rw [normalizeAdcSample_eq, normalizeAdcSample_eq]
    exact div_lt_div_of_pos_right (by linarith) (by norm_num)

/-- Witness for C28: the largest 12-bit sample. -/
theorem normalizeAdcSample_spec_witness :
    (4095 ≤ 4095) ∧ normalizeAdcSample 4095 = ((4095 : Nat) - 2048 : ℚ) / 2048 ∧
      normalizeAdcSample 4095 ≤ 1 :=
  ⟨le_refl _, (normalizeAdcSample_spec 4095 (le_refl _)).1,
    (normalizeAdcSample_spec 4095 (le_refl _)).2.2.1⟩

end StringProcessor

/-! ## EnvelopeFollower: the hysteresis gate -/

namespace EnvelopeFollower

end EnvelopeFollower

/-! ## PitchDetectorYin: the frame-size guard -/

namespace PitchDetectorYin

/-- C30: for a null frame, and for every frame with a count different from the
configured frame size, `estimate` returns the invalid estimate (frequency 0,
confidence 0, `isValid()` false) and leaves the detector untouched. -/
theorem estimate_wrong_size (y : PitchDetectorYin) (samples : Option (Nat → ℚ)) (count : Nat)
    (h : samples = none ∨ count ≠ y.bufferSize) :
    estimate y samples count = (PitchEstimate.default, y) ∧
      (estimate y samples count).1.frequencyHz = 0 ∧
      (estimate y samples count).1.confidence = 0 ∧
      (estimate y samples count).1.isValid = false := by
  have e : estimate y samples count = (PitchEstimate.default, y) := by
    unfold estimate
    cases samples with
    | none => rfl
    | some frame =>
      rcases h with h | h
      · exact absurd h (by simp)
      · simp only [ne_eq, h, not_false_eq_true, if_true]
  rw [e]
  exact ⟨rfl, rfl, rfl, show PitchEstimate.default.isValid = false by decide⟩

/-- Witness for C30: a frame of 512 samples for a detector configured for 1024,
and the null frame. -/
theorem estimate_wrong_size_witness :
    (512 ≠ (new 512 8000 1024 30 500).bufferSize) ∧
      (estimate (new 512 8000 1024 30 500) (some (fun _ => 0)) 512).1 =
        PitchEstimate.default ∧
      (estimate (new 512 8000 1024 30 500) none 1024).1 = PitchEstimate.default :=
  ⟨by decide,
    congrArg Prod.fst
      (estimate_wrong_size (new 512 8000 1024 30 500) (some (fun _ => 0)) 512
        (Or.inr (by decide))).1,
    congrArg Prod.fst
      (estimate_wrong_size (new 512 8000 1024 30 500) none 1024 (Or.inl rfl)).1⟩

end PitchDetectorYin

/-! ## StringProcessor: the activity state machine -/

namespace StringProcessor

theorem updateState_eq (p : StringProcessor) :
    (updateState p).wasActive = p.envelopeFollower.isActive ∧
      (updateState p).state =
        (if p.wasActive = false ∧ p.envelopeFollower.isActive = true then StringState.Attack
         else if p.wasActive = true ∧ p.envelopeFollower.isActive = false then
           StringState.Release
         else if p.envelopeFollower.isActive = true then
           (if p.state = .Attack then StringState.Active else p.state)
         else (if p.state = .Release then StringState.Idle else p.state)) ∧
      (updateState p).sampleBuffer = p.sampleBuffer ∧
      (updateState p).pitchDetector = p.pitchDetector ∧
      (updateState p).floatBuffer = p.floatBuffer ∧
      (updateState p).envelopeFollower = p.envelopeFollower ∧
      ((updateState p).latestPitch = p.latestPitch ∨
        ((updateState p).latestPitch = PitchEstimate.default ∧
          (updateState p).state = .Idle)) ∧
      ((updateState p).state = .Idle → p.state ≠ .Idle →
        (updateState p).latestPitch = PitchEstimate.default) := by
  unfold updateState
  cases hw : p.wasActive <;> cases hc : p.envelopeFollower.isActive <;>
    cases hs : p.state <;> simp [hs]

/-- C24: `updateState` implements the transition table. With the previous gate
output `wasActive_` and the current gate output of the envelope follower:
(false, true) gives Attack; (true, true) gives Active if the state was Attack and
leaves the state unchanged otherwise; (true, false) gives Release; (false, false)
gives Idle if the state was Release and leaves the state unchanged otherwise.
Afterwards `wasActive_` equals the current gate output. -/
theorem updateState_table (p : StringProcessor) :
    (p.wasActive = false → p.envelopeFollower.isActive = true →
        (updateState p).state = .Attack) ∧
      (p.wasActive = true → p.envelopeFollower.isActive = true →
        (updateState p).state = if p.state = .Attack then .Active else p.state) ∧
      (p.wasActive = true → p.envelopeFollower.isActive = false →
        (updateState p).state = .Release) ∧
      (p.wasActive = false → p.envelopeFollower.isActive = false →
        (updateState p).state = if p.state = .Release then .Idle else p.state) ∧
      (updateState p).wasActive = p.envelopeFollower.isActive := by
  obtain ⟨hw, hs, _⟩ := updateState_eq p
  refine ⟨?_, ?_, ?_, ?_, hw⟩ <;> intro h1 h2 <;> rw [hs] <;> simp [h1, h2]

end StringProcessor

/-! ## StringManager: release ticks and skipped ticks -/

namespace StringManager

theorem currentFretPos_of_invalid_pitch (f : Nat → ℚ → Int) (m : StringManager)
    (p : ProcessorView) (h : p.latestPitch.isValid = false) :
    currentFretPos f m p = FretPosition.default := by
  unfold currentFretPos
  simp [h]

/-- C22: for every manager state, an Attack or Active tick whose pitch estimate
is invalid (confidence ≤ 0) transmits nothing and leaves every member unchanged;
so does a call of `update` with a processor of another string. -/
theorem invalid_tick_skipped (f : Nat → ℚ → Int) (d : MidiDinOut) (m : StringManager)
    (p : ProcessorView) :
    (p.stringId = m.stringId → (p.state = .Attack ∨ p.state = .Active) →
        p.latestPitch.confidence ≤ 0 → update f m d p = (m, [])) ∧
      ((p.state = .Attack ∨ p.state = .Active) → p.latestPitch.confidence ≤ 0 →
        update f m d p = (m, [])) ∧
      (p.stringId ≠ m.stringId → update f m d p = (m, [])) := by
  have hother := update_other_string f d m p
  have hskip : p.stringId = m.stringId → (p.state = .Attack ∨ p.state = .Active) →
      p.latestPitch.confidence ≤ 0 → update f m d p = (m, []) := by
    intro hs hst hc
    have hv : p.latestPitch.isValid = false := by
      simp only [PitchEstimate.isValid, decide_eq_false_iff_not, not_lt]
      exact hc
    apply update_invalid f d m p hs _ hst
    rw [currentFretPos_of_invalid_pitch f m p hv]
    decide
  refine ⟨hskip, fun hst hc => ?_, hother⟩
  by_cases hs : p.stringId = m.stringId
  · exact hskip hs hst hc
  · exact hother hs

/-- C21 fails on the code in one point: after Attack(fret 5), Active(fret 6),
Active(fret 6) on the E string, a Release tick transmits the Note-Off of note 33
and clears `noteOn_`, `currentMidiNote_` and `currentFret_`, but leaves
`fretChangeCounter_ = 2` and `pendingFret_ = 6`; after a new Attack(fret 5) the
first Active(fret 6) tick then commits the fret change at once. -/
theorem release_keeps_pending :
    (update exampleFret
        (stateAfter exampleFret (MidiDinOut.init MidiDinOut.mk0) (new 0)
          [pitchedTick .Attack 55, pitchedTick .Active 58, pitchedTick .Active 58])
        (MidiDinOut.init MidiDinOut.mk0)
        { stringId := 0, state := .Release,
          latestPitch := { frequencyHz := 58, confidence := 1 }, isActive := false }).2 =
        [0x80, 33, 64] ∧
      (stateAfter exampleFret (MidiDinOut.init MidiDinOut.mk0) (new 0)
        [pitchedTick .Attack 55, pitchedTick .Active 58, pitchedTick .Active 58,
          { stringId := 0, state := .Release,
            latestPitch := { frequencyHz := 58, confidence := 1 }, isActive := false }]) =
        { stringId := 0, noteOn := false, currentMidiNote := 0, currentFret := -1,
          lastValidFret := { string := 0, fret := 6, frequency := 58, confidence := 1 },
          fretChangeCounter := 2, pendingFret := 6 } ∧
      (update exampleFret
        (stateAfter exampleFret (MidiDinOut.init MidiDinOut.mk0) (new 0)
          [pitchedTick .Attack 55, pitchedTick .Active 58, pitchedTick .Active 58,
            { stringId := 0, state := .Release,
              latestPitch := { frequencyHz := 58, confidence := 1 }, isActive := false },
            pitchedTick .Attack 55])
        (MidiDinOut.init MidiDinOut.mk0) (pitchedTick .Active 58)).2 =
        [0x80, 33, 64, 0x90, 34, 100, 0xF0, 0x7D, 0x42, 0x4D, 0x01, 0, 6, 34, 100, 0xF7] := by
  decide

end StringManager

/-! ## StringProcessor: reachable states -/

namespace StringProcessor

theorem convert_fold (l : List Nat) :
    ∀ p : StringProcessor,
      (l.foldl convertStep p).state = p.state ∧
        (l.foldl convertStep p).wasActive = p.wasActive ∧
        (l.foldl convertStep p).latestPitch = p.latestPitch ∧
        (l.foldl convertStep p).sampleBuffer = p.sampleBuffer ∧
        (l.foldl convertStep p).pitchDetector = p.pitchDetector := by
  induction l with
  | nil => intro p; exact ⟨rfl, rfl, rfl, rfl, rfl⟩
  | cons i l ih =>
    intro p
    rw [List.foldl_cons]
    obtain ⟨h1, h2, h3, h4, h5⟩ := ih (convertStep p i)
    exact ⟨h1, h2, h3, h4, h5⟩

theorem process_of_empty (p : StringProcessor)
    (h : RingBuffer.getAvailable p.sampleBuffer = 0) : process p = p := by
  unfold process
  simp only [h, if_true]

/-- What `process` does when the buffer holds at least one sample: the state
machine advances once from the old state and gate memory, and the pitch is either
what `updateState` left or a fresh estimate that passed the confidence filter. -/
theorem process_of_nonempty (p : StringProcessor)
    (h : RingBuffer.getAvailable p.sampleBuffer ≠ 0) :
    ∃ p2 : StringProcessor,
      p2.state = p.state ∧ p2.wasActive = p.wasActive ∧ p2.latestPitch = p.latestPitch ∧
        p2.pitchDetector = p.pitchDetector ∧
        (process p).state = (updateState p2).state ∧
        (process p).wasActive = (updateState p2).wasActive ∧
        (process p).sampleBuffer =
          (RingBuffer.read p.sampleBuffer
            (min (RingBuffer.getAvailable p.sampleBuffer) PITCH_FRAME_SIZE)).2.2 ∧
        (((process p).latestPitch = (updateState p2).latestPitch ∧
            (process p).pitchDetector = p.pitchDetector) ∨
          (isActive (updateState p2) = true ∧
            PITCH_FRAME_SIZE ≤ RingBuffer.getAvailable p.sampleBuffer ∧
            ((process p).latestPitch = PitchEstimate.default ∨
              MIN_PITCH_CONFIDENCE ≤ (process p).latestPitch.confidence))) := by
  have hread : (RingBuffer.read p.sampleBuffer
      (min (RingBuffer.getAvailable p.sampleBuffer) PITCH_FRAME_SIZE)).1 =
      min (RingBuffer.getAvailable p.sampleBuffer) PITCH_FRAME_SIZE := by
    unfold RingBuffer.read
    simp only
    split_ifs with hc
    · rfl
    · have := Nat.min_le_left (RingBuffer.getAvailable p.sampleBuffer) PITCH_FRAME_SIZE
      omega
  have hpos : min (RingBuffer.getAvailable p.sampleBuffer) PITCH_FRAME_SIZE ≠ 0 := by
    unfold PITCH_FRAME_SIZE
    omega
  obtain ⟨c1, c2, c3, c4, c5⟩ := convert_fold
    (List.range (min (RingBuffer.getAvailable p.sampleBuffer) PITCH_FRAME_SIZE))
    ({ p with
      sampleBuffer := (RingBuffer.read p.sampleBuffer
        (min (RingBuffer.getAvailable p.sampleBuffer) PITCH_FRAME_SIZE)).2.2,
      rawBuffer := fun i =>
        if i < min (RingBuffer.getAvailable p.sampleBuffer) PITCH_FRAME_SIZE then
          (RingBuffer.read p.sampleBuffer
            (min (RingBuffer.getAvailable p.sampleBuffer) PITCH_FRAME_SIZE)).2.1.getD i 0
        else p.rawBuffer i } : StringProcessor)
  refine ⟨_, c1, c2, c3, c5, ?_⟩
  obtain ⟨_, _, u3, u4, _⟩ := updateState_eq
    ((List.range (min (RingBuffer.getAvailable p.sampleBuffer) PITCH_FRAME_SIZE)).foldl
      convertStep
      ({ p with
        sampleBuffer := (RingBuffer.read p.sampleBuffer
          (min (RingBuffer.getAvailable p.sampleBuffer) PITCH_FRAME_SIZE)).2.2,
        rawBuffer := fun i =>
          if i < min (RingBuffer.getAvailable p.sampleBuffer) PITCH_FRAME_SIZE then
            (RingBuffer.read p.sampleBuffer
              (min (RingBuffer.getAvailable p.sampleBuffer) PITCH_FRAME_SIZE)).2.1.getD i 0
          else p.rawBuffer i } : StringProcessor))
  unfold process detectPitch
  simp only [h, if_false, hread, hpos]
  split_ifs with hact hconf
  · simp only [Bool.and_eq_true, decide_eq_true_eq] at hact
    refine ⟨rfl, rfl, ?_, Or.inr ⟨hact.1, ?_, Or.inl rfl⟩⟩
    · rw [u3, c4]
    · have := Nat.min_le_left (RingBuffer.getAvailable p.sampleBuffer) PITCH_FRAME_SIZE
      omega
  · simp only [Bool.and_eq_true, decide_eq_true_eq] at hact
    refine ⟨rfl, rfl, ?_, Or.inr ⟨hact.1, ?_, Or.inr (not_lt.mp hconf)⟩⟩
    · rw [u3, c4]
    · have := Nat.min_le_left (RingBuffer.getAvailable p.sampleBuffer) PITCH_FRAME_SIZE
      omega
  · refine ⟨rfl, rfl, ?_, Or.inl ⟨rfl, ?_⟩⟩
    · rw [u3, c4]
    · rw [u4, c5]

theorem updateState_consistent (p : StringProcessor)
    (h2 : p.wasActive = true ↔ (p.state = .Attack ∨ p.state = .Active))
    (h3 : p.state = .Idle → p.latestPitch = PitchEstimate.default)
    (h4 : p.latestPitch = PitchEstimate.default ∨
      MIN_PITCH_CONFIDENCE ≤ p.latestPitch.confidence) :
    ((updateState p).wasActive = true ↔
        ((updateState p).state = .Attack ∨ (updateState p).state = .Active)) ∧
      ((updateState p).state = .Idle → (updateState p).latestPitch = PitchEstimate.default) ∧
      ((updateState p).latestPitch = PitchEstimate.default ∨
        MIN_PITCH_CONFIDENCE ≤ (updateState p).latestPitch.confidence) ∧
      (p.state = .Attack → (updateState p).state ≠ .Attack) ∧
      (p.state = .Release → (updateState p).state ≠ .Release) := by
  obtain ⟨hw, hs, _, _, _, _, hl, hidle⟩ := updateState_eq p
  refine ⟨?_, ?_, ?_, ?_, ?_⟩
  · rw [hw, hs]
    cases hwa : p.wasActive <;> cases hc : p.envelopeFollower.isActive <;>
      cases hst : p.state <;> simp_all
  · intro hi
    by_cases hp : p.state = .Idle
    · rcases hl with hl | hl
      · rw [hl]; exact h3 hp
      · exact hl.1
    · exact hidle hi hp
  · rcases hl with hl | hl
    · rw [hl]; exact h4
    · exact Or.inl hl.1
  · intro ha
    rw [hs]
    have hwa : p.wasActive = true := h2.mpr (Or.inl ha)
    cases hc : p.envelopeFollower.isActive <;> simp [hwa, ha]
  · intro hr
    rw [hs]
    have hwa : p.wasActive = false := by
      cases h : p.wasActive
      · rfl
      · rcases h2.mp h with h' | h' <;> rw [hr] at h' <;> exact absurd h' (by decide)
    cases hc : p.envelopeFollower.isActive <;> simp [hwa, hr]

theorem isActive_not_idle (p : StringProcessor) (h : isActive p = true) : p.state ≠ .Idle := by
  intro hi
  unfold isActive at h
  rw [hi] at h
  exact absurd h (by decide)

theorem read_indices (p : StringProcessor) (h : RingBuffer.IndicesOk 10 p.sampleBuffer)
    (n : Nat) : RingBuffer.IndicesOk 10 (RingBuffer.read p.sampleBuffer n).2.2 :=
  RingBuffer.step_indices 10 (by decide) p.sampleBuffer h (.read n)

theorem process_consistent (p : StringProcessor) (h : Consistent p) :
    Consistent (process p) := by
  obtain ⟨h1, h2, h3, h4⟩ := h
  by_cases he : RingBuffer.getAvailable p.sampleBuffer = 0
  · rw [process_of_empty p he]; exact ⟨h1, h2, h3, h4⟩
  · obtain ⟨p2, e1, e2, e3, _, hs, hw, hb, hl⟩ := process_of_nonempty p he
    obtain ⟨u2, u3, u4, _, _⟩ := updateState_consistent p2 (by rw [e1, e2]; exact h2)
      (by rw [e1, e3]; exact h3) (by rw [e3]; exact h4)
    refine ⟨?_, ?_, ?_, ?_⟩
    · rw [hb]; exact read_indices p h1 _
    · rw [hs, hw]; exact u2
    · rcases hl with hl | hl
      · rw [hs, hl.1]; exact u3
      · intro hi
        rw [hs] at hi
        exact absurd hi (isActive_not_idle _ hl.1)
    · rcases hl with hl | hl
      · rw [hl.1]; exact u4
      · exact hl.2.2

theorem step_consistent (p : StringProcessor) (h : Consistent p) (c : Call) :
    Consistent (step p c) := by
  cases c with
  | pushSample x =>
    obtain ⟨h1, h2, h3, h4⟩ := h
    exact ⟨RingBuffer.push_indices 10 (by decide) p.sampleBuffer h1 x, h2, h3, h4⟩
  | process => exact process_consistent p h
  | reset =>
    obtain ⟨h1, _, _, _⟩ := h
    refine ⟨⟨h1.1, h1.1⟩, ?_, fun _ => rfl, Or.inl rfl⟩
    simp [step, reset]

theorem run_consistent (calls : List Call) :
    ∀ p : StringProcessor, Consistent p → Consistent (run p calls) := by
  induction calls with
  | nil => intro p h; exact h
  | cons c calls ih => intro p h; exact ih _ (step_consistent p h c)

theorem new_consistent (exp : ℚ → ℚ) (MAX_LAG : Nat) (minFreq maxFreq : ℚ) (stringId : Nat)
    (sampleRate : ℚ) : Consistent (new exp MAX_LAG minFreq maxFreq stringId sampleRate) := by
  refine ⟨⟨show (0 : Nat) < 2 ^ 10 by decide, show (0 : Nat) < 2 ^ 10 by decide⟩, ?_,
    fun _ => rfl, Or.inl rfl⟩
  simp [new]

theorem available_lt_frame (p : StringProcessor) (h : Consistent p) :
    RingBuffer.getAvailable p.sampleBuffer < PITCH_FRAME_SIZE :=
  RingBuffer.getAvailable_lt 10 (by decide) p.sampleBuffer h.1

theorem step_never_estimates (p : StringProcessor) (h : Consistent p)
    (hl : p.latestPitch = PitchEstimate.default) (c : Call) :
    (step p c).latestPitch = PitchEstimate.default ∧
      (step p c).pitchDetector = p.pitchDetector := by
  cases c with
  | pushSample x => exact ⟨hl, rfl⟩
  | reset => exact ⟨rfl, rfl⟩
  | process =>
    show (process p).latestPitch = PitchEstimate.default ∧
      (process p).pitchDetector = p.pitchDetector
    by_cases he : RingBuffer.getAvailable p.sampleBuffer = 0
    · rw [process_of_empty p he]; exact ⟨hl, rfl⟩
    · obtain ⟨p2, _, _, e3, _, _, _, _, hcase⟩ := process_of_nonempty p he
      obtain ⟨_, _, _, _, _, _, hu, _⟩ := updateState_eq p2
      rcases hcase with ⟨h1, h2⟩ | ⟨_, hbig, _⟩
      · refine ⟨?_, h2⟩
        rw [h1]
        rcases hu with hu | hu
        · rw [hu, e3]; exact hl
        · exact hu.1
      · have := available_lt_frame p h
        omega

theorem run_never_estimates (calls : List Call) :
    ∀ p : StringProcessor, Consistent p → p.latestPitch = PitchEstimate.default →
      (run p calls).latestPitch = PitchEstimate.default ∧
        (run p calls).pitchDetector = p.pitchDetector := by
  induction calls with
  | nil => intro p _ hl; exact ⟨hl, rfl⟩
  | cons c calls ih =>
    intro p h hl
    obtain ⟨s1, s2⟩ := step_never_estimates p h hl c
    obtain ⟨r1, r2⟩ := ih (step p c) (step_consistent p h c) s1
    exact ⟨r1, r2.trans s2⟩

/-- C23 fails on the code: in every state reached from the constructor by
`pushSample`, `process` and `reset`, the ring buffer of `RING_BUFFER_SIZE = 1024`
slots holds at most 1023 samples, fewer than `PITCH_FRAME_SIZE = 1024`; so no
call of `process` reads a full frame, the pitch detector is never run (its
working arrays are never written) and the latest pitch is always the invalid
estimate. -/
theorem full_frame_never_available (exp : ℚ → ℚ) (MAX_LAG : Nat) (minFreq maxFreq : ℚ)
    (stringId : Nat) (sampleRate : ℚ) (calls : List Call) :
    RingBuffer.getAvailable
        (run (new exp MAX_LAG minFreq maxFreq stringId sampleRate) calls).sampleBuffer <
        PITCH_FRAME_SIZE ∧
      RingBuffer.getAvailable
        (run (new exp MAX_LAG minFreq maxFreq stringId sampleRate) calls).sampleBuffer ≤
        RingBuffer.capacity RING_BUFFER_SIZE ∧
      RingBuffer.capacity RING_BUFFER_SIZE = 1023 ∧
      (run (new exp MAX_LAG minFreq maxFreq stringId sampleRate) calls).latestPitch =
        PitchEstimate.default ∧
      (run (new exp MAX_LAG minFreq maxFreq stringId sampleRate) calls).pitchDetector =
        (new exp MAX_LAG minFreq maxFreq stringId sampleRate).pitchDetector := by
  have hc := run_consistent calls _ (new_consistent exp MAX_LAG minFreq maxFreq stringId
    sampleRate)
  have hlt := available_lt_frame _ hc
  obtain ⟨h1, h2⟩ := run_never_estimates calls _
    (new_consistent exp MAX_LAG minFreq maxFreq stringId sampleRate) rfl
  refine ⟨hlt, ?_, by decide, h1, h2⟩
  have hcap : RingBuffer.capacity RING_BUFFER_SIZE = 1023 := by decide
  rw [hcap]
  unfold PITCH_FRAME_SIZE at hlt
  omega

/-- C25 as stated fails: the example processor, after 16 samples of raw value 0
and one `process` call, is in state Attack with an empty buffer, and the next
`process` call returns at once and leaves it in Attack. -/
theorem one_tick_transitional_counterexample : ¬ OneTickTransitional exampleProcessor := by
  intro h
  exact (h (List.replicate 16 (.pushSample 0) ++ [.process])).1
    (by with_unfolding_all decide) (by with_unfolding_all decide)

/-- C25 (amended): for every state reached from the constructor by `pushSample`,
`process` and `reset`, and every call of `process` that finds at least one sample
in the buffer, a processor in Attack before the call is not in Attack after it,
and a processor in Release before the call is not in Release after it. A call of
`process` that finds the buffer empty returns at once and changes nothing. -/
theorem transitional_states (exp : ℚ → ℚ) (MAX_LAG : Nat) (minFreq maxFreq : ℚ)
    (stringId : Nat) (sampleRate : ℚ) (calls : List Call) :
    (RingBuffer.getAvailable
          (run (new exp MAX_LAG minFreq maxFreq stringId sampleRate) calls).sampleBuffer ≠ 0 →
        ((run (new exp MAX_LAG minFreq maxFreq stringId sampleRate) calls).state = .Attack →
            (process (run (new exp MAX_LAG minFreq maxFreq stringId sampleRate)
              calls)).state ≠ .Attack) ∧
          ((run (new exp MAX_LAG minFreq maxFreq stringId sampleRate) calls).state = .Release →
            (process (run (new exp MAX_LAG minFreq maxFreq stringId sampleRate)
              calls)).state ≠ .Release)) ∧
      (RingBuffer.getAvailable
          (run (new exp MAX_LAG minFreq maxFreq stringId sampleRate) calls).sampleBuffer = 0 →
        process (run (new exp MAX_LAG minFreq maxFreq stringId sampleRate) calls) =
          run (new exp MAX_LAG minFreq maxFreq stringId sampleRate) calls) := by
  have hc := run_consistent calls _ (new_consistent exp MAX_LAG minFreq maxFreq stringId
    sampleRate)
  generalize run (new exp MAX_LAG minFreq maxFreq stringId sampleRate) calls = p at hc
  obtain ⟨_, h2, h3, h4⟩ := hc
  refine ⟨fun he => ?_, process_of_empty p⟩
  obtain ⟨p2, e1, e2, e3, _, hs, _⟩ := process_of_nonempty p he
  obtain ⟨_, _, _, ua, ur⟩ := updateState_consistent p2 (by rw [e1, e2]; exact h2)
    (by rw [e1, e3]; exact h3) (by rw [e3]; exact h4)
  rw [hs]
  exact ⟨fun ha => ua (e1.trans ha), fun hr => ur (e1.trans hr)⟩

end StringProcessor

/-! ## AdcDriver: the round-robin timer callback -/

namespace AdcDriver

theorem fire_cons (a : AdcDriver) (n s : Nat) (rest : List Nat) (hcb : a.hasCallback = true) :
    fire a n (s :: rest) =
      (fireTime n, a.currentChannel, s) :: fire (onTimerFired a s).2 (n + 1) rest := by
  have hstep : (onTimerFired a s).1 = some (a.currentChannel, s) := by
    unfold onTimerFired
    rw [if_pos hcb]
  rw [fire, hstep]

theorem fire_get (adc : List Nat) : ∀ (a : AdcDriver) (n : Nat), a.hasCallback = true →
    a.currentChannel = n % NUM_STRINGS →
    ∀ (i s : Nat), adc[i]? = some s →
      (fire a n adc)[i]? = some (fireTime (n + i), (n + i) % NUM_STRINGS, s) := by
  induction adc with
  | nil =>
    intro a n _ _ i s h
    simp at h
  | cons s0 rest ih =>
    intro a n hcb hch i s h
    rw [fire_cons a n s0 rest hcb]
    cases i with
    | zero =>
      simp only [List.getElem?_cons_zero, Option.some.injEq] at h
      simp only [List.getElem?_cons_zero, Nat.add_zero, hch, h]
    | succ j =>
      simp only [List.getElem?_cons_succ] at h
      have hnext : (onTimerFired a s0).2.currentChannel = (n + 1) % NUM_STRINGS := by
        unfold onTimerFired
        simp only
        rw [hch, Nat.mod_add_mod]
      have hcb2 : (onTimerFired a s0).2.hasCallback = true := hcb
      have := ih (onTimerFired a s0).2 (n + 1) hcb2 hnext j s h
      simp only [List.getElem?_cons_succ]
      rw [this, show n + 1 + j = n + (j + 1) by omega]

/-- C32: after `init`, `setSampleCallback` and `startSampling`, the timer firing
number `i` (at `(i + 1) × ADC_TIMER_INTERVAL_US` microseconds) makes the `i`-th
call of the sample callback, for string `i mod 4` only. A string is therefore
served by every fourth firing: the firings `n` and `n + 4` serve the same
string, the three firings between them serve other strings, and the two samples
are `4 × 125 = 500` microseconds apart, not `1,000,000 / SAMPLE_RATE_HZ = 125`;
in nine firings string 0 is sampled at 125, 625 and 1125 microseconds. -/
theorem one_channel_per_firing (adc : List Nat) (n : Nat) :
    (∀ (i s : Nat), adc[i]? = some s →
        (fire started 0 adc)[i]? = some (fireTime i, i % NUM_STRINGS, s)) ∧
      (n + NUM_STRINGS) % NUM_STRINGS = n % NUM_STRINGS ∧
      (n + 1) % NUM_STRINGS ≠ n % NUM_STRINGS ∧
      (n + 2) % NUM_STRINGS ≠ n % NUM_STRINGS ∧
      (n + 3) % NUM_STRINGS ≠ n % NUM_STRINGS ∧
      fireTime (n + NUM_STRINGS) - fireTime n = 500 ∧
      1000000 / SAMPLE_RATE_HZ = 125 ∧
      sampleTimes 0 (fire started 0 [10, 11, 12, 13, 14, 15, 16, 17, 18]) =
        [125, 625, 1125] := by
  refine ⟨?_, ?_, ?_, ?_, ?_, ?_, ?_, ?_⟩
  · intro i s h
    have := fire_get adc started 0 rfl rfl i s h
    rw [Nat.zero_add] at this
    exact this
  · unfold NUM_STRINGS; omega
  · unfold NUM_STRINGS; omega
  · unfold NUM_STRINGS; omega
  · unfold NUM_STRINGS; omega
  · unfold fireTime NUM_STRINGS BoardConfig.ADC_TIMER_INTERVAL_US; omega
  · decide
  · decide

end AdcDriver

/-! ## Ring buffer: refinement of the bounded queue -/

namespace RingBuffer

variable {T : Type}

theorem take_min_length (l : List T) (n : Nat) : l.take (min n l.length) = l.take n := by
  by_cases h : n ≤ l.length
  · rw [Nat.min_eq_left h]
  · rw [Nat.min_eq_right (by omega), List.take_of_length_le (le_refl _),
      List.take_of_length_le (by omega)]

/-- What each call returns is what the bounded queue of the unread samples
returns. -/
theorem result_eq (k : Nat) (hk : k < 32) (b : RingBuffer T (2 ^ k)) (hb : IndicesOk k b)
    (op : Op T) : result b op = fifoResult (2 ^ k - 1) (unread b) op := by
  have h := size_bounds k hk
  cases op with
  | push x =>
    simp only [result, fifoResult, unread_length]
    congr 1
    cases hp : (push b x).1
    · obtain ⟨_, hfull⟩ := push_fail k hk b hb x hp
      exact (decide_eq_false (by omega)).symm
    · obtain ⟨_, hroom⟩ := unread_push k hk b hb x hp
      exact (decide_eq_true (by omega)).symm
  | pop =>
    simp only [result, fifoResult]
    congr 1
    unfold pop
    by_cases e : b.readIndex = b.writeIndex
    · rw [if_pos e]
      have hav := getAvailable_eq k hk b hb
      rw [e] at hav
      simp only [le_refl, if_true, Nat.sub_self] at hav
      have hnil : unread b = [] := by
        apply List.eq_nil_of_length_eq_zero
        rw [unread_length, hav]
      rw [hnil]
      rfl
    · rw [if_neg e]
      obtain ⟨_, _, hun⟩ := unread_advance k hk b hb e
      rw [hun]
      rfl
  | read n =>
    simp only [result, fifoResult, unread_length]
    obtain ⟨h1, _⟩ := readLoop_spec k hk (min n (getAvailable b)) b hb (Nat.min_le_right _ _)
    have hread : read b n =
        (min n (getAvailable b), (readLoop b (min n (getAvailable b))).1,
          (readLoop b (min n (getAvailable b))).2) := by
      unfold read; simp only [min_count]
    rw [hread]
    simp only
    rw [h1]
    congr 1
    rw [← unread_length, take_min_length]
  | peek n =>
    simp only [result, fifoResult, unread_length]
    have hpeek : peek b n =
        (min n (getAvailable b), (unread b).take (min n (getAvailable b))) := by
      unfold peek; simp only [min_count]
      rw [take_unread b _ (Nat.min_le_right _ _)]
    rw [hpeek]
    simp only
    congr 1
    rw [← unread_length, take_min_length]
  | clear => rfl

/-- C37: `RingBuffer<T, N>` (`N = 2^k`) refines the bounded first-in-first-out
queue of capacity `N - 1`: after every sequence of `push`, `pop`, `read`, `peek`
and `clear` calls on the empty buffer, the unread samples are the items of the
queue after the same calls, every further call returns what it returns on the
queue (`push` succeeds iff the queue holds fewer than `N - 1` items, `pop` hands
out the oldest item, `read` the oldest `count` items in insertion order), and
`getAvailable()` is the length of the queue. -/
theorem refines_bounded_fifo [Zero T] (k : Nat) (hk : k < 32) (ops : List (Op T)) (op : Op T) :
    unread (run (empty T (2 ^ k)) ops) = fifoRun (2 ^ k - 1) ops ∧
      result (run (empty T (2 ^ k)) ops) op =
        fifoResult (2 ^ k - 1) (fifoRun (2 ^ k - 1) ops) op ∧
      getAvailable (run (empty T (2 ^ k)) ops) = (fifoRun (2 ^ k - 1) ops).length ∧
      capacity (2 ^ k) = 2 ^ k - 1 := by
  have hb := run_indices k hk ops _ (empty_indices (T := T) k)
  have hq : unread (run (empty T (2 ^ k)) ops) = fifoRun (2 ^ k - 1) ops := by
    rw [unread_run k hk ops _ (empty_indices k), unread_empty k hk]
    rfl
  refine ⟨hq, ?_, ?_, rfl⟩
  · rw [result_eq k hk _ hb op, hq]
  · rw [← hq, unread_length]

/-- Witness for C37: a buffer of size 4 (capacity 3) after four pushes, the
last of which fails, and a pop; a `read` of up to five samples then returns the
two samples 20 and 30. -/
theorem refines_bounded_fifo_witness :
    (2 < 32) ∧
      result (run (empty Nat (2 ^ 2)) [.push 10, .push 20, .push 30, .push 40, .pop])
          (.read 5) =
        fifoResult (2 ^ 2 - 1)
          (fifoRun (2 ^ 2 - 1) [.push 10, .push 20, .push 30, .push 40, .pop]) (.read 5) ∧
      result (run (empty Nat (2 ^ 2)) [.push 10, .push 20, .push 30, .push 40, .pop])
          (.read 5) = .items 2 [20, 30] ∧
      result (run (empty Nat (2 ^ 2)) [.push 10, .push 20, .push 30]) (.push 40) =
        .flag false :=
  ⟨by decide,
    (refines_bounded_fifo 2 (by decide) [.push 10, .push 20, .push 30, .push 40, .pop]
      (.read 5)).2.1,
    by decide, by decide⟩

end RingBuffer

/-! ## StringManager: the note-state invariant -/

namespace StringManager

theorem fretToMidiNote_on_neck (s : Nat) (hs : s < 4) (f : Int) (h0 : 0 ≤ f) (h24 : f ≤ 24) :
    (NoteMapping.fretToMidiNote s f : Int) =
      (NoteMapping.getOpenStringMidiNote s : Int) + f := by
  interval_cases s <;>
    simp [NoteMapping.fretToMidiNote, NoteMapping.getOpenStringMidiNote, NUM_STRINGS,
      NoteMapping.OPEN_STRING_MIDI_NOTES, NoteMapping.MAX_FRET, clampInt, toUInt8] <;>
    split_ifs <;> omega

/-- A valid fret position computed by `update` is on the manager's own string,
which is one of the four strings, at a fret from 0 to 24. -/
theorem currentFretPos_valid (log2 : ℚ → ℚ) (m : StringManager) (p : ProcessorView)
    (hid : m.stringId < 256)
    (hv : (currentFretPos (NoteMapping.frequencyToFret log2) m p).isValid = true) :
    m.stringId < 4 ∧
      (currentFretPos (NoteMapping.frequencyToFret log2) m p).string = m.stringId ∧
      0 ≤ (currentFretPos (NoteMapping.frequencyToFret log2) m p).fret ∧
      (currentFretPos (NoteMapping.frequencyToFret log2) m p).fret ≤ 24 := by
  have hdef : FretPosition.default.isValid = false := by decide
  unfold currentFretPos NoteMapping.mapPitchToFret at hv ⊢
  by_cases c1 : (p.latestPitch.isValid && p.isActive) = true
  swap
  · rw [if_neg c1] at hv
    rw [hdef] at hv
    exact absurd hv (by decide)
  rw [if_pos c1] at hv ⊢
  by_cases c2 : (!p.latestPitch.isValid) = true
  · rw [if_pos c2] at hv
    rw [hdef] at hv
    exact absurd hv (by decide)
  rw [if_neg c2] at hv ⊢
  by_cases c3 : NoteMapping.frequencyToFret log2 m.stringId p.latestPitch.frequencyHz < 0
  · simp only [if_pos c3] at hv
    rw [hdef] at hv
    exact absurd hv (by decide)
  simp only [if_neg c3]
  have hs : m.stringId < 4 := by
    by_contra h4
    rw [NoteMapping.frequencyToFret_out_of_range log2 m.stringId (by omega) hid] at c3
    exact c3 (by decide)
  have hf : 0 < p.latestPitch.frequencyHz := by
    by_contra hf
    rw [NoteMapping.frequencyToFret_of_nonpos log2 m.stringId _ (not_lt.mp hf)] at c3
    exact c3 (by decide)
  rw [NoteMapping.frequencyToFret_of_pos log2 m.stringId hs _ hf]
  have hb := clampInt_bounds
    (NoteMapping.roundToInt
      (12 * log2 (p.latestPitch.frequencyHz / NoteMapping.getOpenStringFrequency m.stringId)))
    0 24 (by decide)
  exact ⟨hs, trivial, hb.1, hb.2⟩

theorem noteState_new (s : Nat) : NoteState (new s) := by
  unfold NoteState new FRET_CHANGE_THRESHOLD
  simp

theorem noteState_sendNoteOff (m : StringManager) (d : MidiDinOut) (h : NoteState m) :
    NoteState (sendNoteOff m d).1 ∧ (sendNoteOff m d).1.stringId = m.stringId := by
  unfold sendNoteOff
  cases hn : m.noteOn
  · simp only [Bool.not_false, if_true]
    exact ⟨h, trivial⟩
  · simp only [Bool.not_true, Bool.false_eq_true, if_false]
    refine ⟨?_, trivial⟩
    obtain ⟨_, _, h3, h4⟩ := h
    exact ⟨fun hc => absurd hc (by simp), fun _ => ⟨rfl, rfl⟩, h3, h4⟩

theorem noteState_sendNoteOn (m : StringManager) (d : MidiDinOut) (fp : FretPosition)
    (h : NoteState m) (hs : m.stringId < 4) (hstr : fp.string = m.stringId)
    (h0 : 0 ≤ fp.fret) (h24 : fp.fret ≤ 24) :
    NoteState (sendNoteOn m d fp).1 ∧ (sendNoteOn m d fp).1.stringId = m.stringId := by
  unfold sendNoteOn
  simp only
  refine ⟨?_, trivial⟩
  obtain ⟨_, _, h3, h4⟩ := h
  refine ⟨fun _ => ⟨h0, h24, ?_⟩, fun hc => absurd hc (by simp), h3, h4⟩
  simp only
  rw [hstr]
  exact fretToMidiNote_on_neck m.stringId hs fp.fret h0 h24

theorem noteState_handleFretChange (m : StringManager) (d : MidiDinOut) (fp : FretPosition)
    (h : NoteState m) (hs : m.stringId < 4) (hstr : fp.string = m.stringId)
    (h0 : 0 ≤ fp.fret) (h24 : fp.fret ≤ 24) :
    NoteState (handleFretChange m d fp).1 ∧
      (handleFretChange m d fp).1.stringId = m.stringId := by
  obtain ⟨h1, h2, h3, h4⟩ := h
  unfold FRET_CHANGE_THRESHOLD at h3
  unfold handleFretChange
  by_cases hp : fp.fret = m.pendingFret
  · rw [if_pos hp]
    have hne : m.fretChangeCounter ≠ 0 := by
      intro hc
      have := h4.mp hc
      omega
    by_cases hc : m.fretChangeCounter + 1 ≥ FRET_CHANGE_THRESHOLD
    · simp only [if_pos hc]
      have hoff1 : (sendNoteOff ({ m with fretChangeCounter := m.fretChangeCounter + 1 } :
          StringManager) d).1.stringId = m.stringId := by
        unfold sendNoteOff; split_ifs <;> rfl
      unfold sendNoteOn
      simp only
      refine ⟨⟨fun _ => ⟨h0, h24, ?_⟩, fun hc => absurd hc (by simp), ?_, ?_⟩, hoff1⟩
      · simp only
        rw [hstr, hoff1]
        exact fretToMidiNote_on_neck m.stringId hs fp.fret h0 h24
      · unfold FRET_CHANGE_THRESHOLD; simp
      · simp
    · simp only [if_neg hc]
      unfold FRET_CHANGE_THRESHOLD at hc
      refine ⟨⟨h1, h2, ?_, ?_⟩, trivial⟩
      · unfold FRET_CHANGE_THRESHOLD; simp only; omega
      · simp only
        constructor
        · intro e; omega
        · intro e; omega
  · rw [if_neg hp]
    have hc : ¬ ((1 : Int) ≥ FRET_CHANGE_THRESHOLD) := by unfold FRET_CHANGE_THRESHOLD; omega
    simp only [if_neg hc]
    refine ⟨⟨h1, h2, ?_, ?_⟩, trivial⟩
    · unfold FRET_CHANGE_THRESHOLD; simp
    · simp only
      constructor
      · intro e; omega
      · intro e; omega

theorem noteState_update (log2 : ℚ → ℚ) (d : MidiDinOut) (m : StringManager)
    (p : ProcessorView) (hid : m.stringId < 256) (h : NoteState m) :
    NoteState (update (NoteMapping.frequencyToFret log2) m d p).1 ∧
      (update (NoteMapping.frequencyToFret log2) m d p).1.stringId = m.stringId := by
  unfold update
  by_cases hs : p.stringId ≠ m.stringId
  · rw [if_pos hs]
    exact ⟨h, rfl⟩
  rw [if_neg hs]
  simp only
  have hoff : NoteState (handleRelease m d).1 ∧ (handleRelease m d).1.stringId = m.stringId :=
    noteState_sendNoteOff m d h
  by_cases hv : (currentFretPos (NoteMapping.frequencyToFret log2) m p).isValid = true
  swap
  · cases hst : p.state <;> simp only [hv, Bool.false_eq_true, if_false]
    · split_ifs
      · exact hoff
      · exact ⟨h, rfl⟩
    · exact ⟨h, trivial⟩
    · exact ⟨h, trivial⟩
    · split_ifs
      · exact hoff
      · exact ⟨h, rfl⟩
  obtain ⟨h4, hstr, h0, h24⟩ := currentFretPos_valid log2 m p hid hv
  have hon := noteState_sendNoteOn m d _ h h4 hstr h0 h24
  have hch := noteState_handleFretChange m d _ h h4 hstr h0 h24
  cases hst : p.state <;> simp only [hv, if_true]
  · split_ifs
    · exact hoff
    · exact ⟨h, rfl⟩
  · by_cases hn : m.noteOn = true
    · rw [if_pos hn]
      by_cases hf : (currentFretPos (NoteMapping.frequencyToFret log2) m p).fret ≠ m.currentFret
      · rw [if_pos hf]
        obtain ⟨⟨a1, a2, a3, a4⟩, b⟩ := hch
        exact ⟨⟨a1, a2, a3, a4⟩, b⟩
      · rw [if_neg hf]
        obtain ⟨a1, a2, _, _⟩ := h
        refine ⟨⟨a1, a2, ?_, ?_⟩, rfl⟩
        · unfold FRET_CHANGE_THRESHOLD; simp
        · simp
    · rw [if_neg hn]
      unfold handleAttack
      obtain ⟨⟨a1, a2, a3, a4⟩, b⟩ := hon
      exact ⟨⟨a1, a2, a3, a4⟩, b⟩
  · unfold handleAttack
    exact hon
  · split_ifs
    · exact hoff
    · exact ⟨h, rfl⟩

theorem noteState_step (log2 : ℚ → ℚ) (d : MidiDinOut) (m : StringManager) (c : Call)
    (hid : m.stringId < 256) (h : NoteState m) :
    NoteState (step (NoteMapping.frequencyToFret log2) d m c) ∧
      (step (NoteMapping.frequencyToFret log2) d m c).stringId = m.stringId := by
  cases c with
  | update p => exact noteState_update log2 d m p hid h
  | forceNoteOff =>
    simp only [step, forceNoteOff]
    split_ifs
    · exact noteState_sendNoteOff m d h
    · exact ⟨h, rfl⟩

theorem noteState_run (log2 : ℚ → ℚ) (d : MidiDinOut) (calls : List Call) :
    ∀ m : StringManager, m.stringId < 256 → NoteState m →
      NoteState (run (NoteMapping.frequencyToFret log2) d m calls) ∧
        (run (NoteMapping.frequencyToFret log2) d m calls).stringId = m.stringId := by
  induction calls with
  | nil => intro m _ h; exact ⟨h, rfl⟩
  | cons c cs ih =>
    intro m hid h
    obtain ⟨h1, h2⟩ := noteState_step log2 d m c hid h
    obtain ⟨h3, h4⟩ := ih _ (by rw [h2]; exact hid) h1
    simp only [run, List.foldl_cons] at h3 h4 ⊢
    exact ⟨h3, by rw [h4, h2]⟩

/-- C38: in every state reached from a freshly constructed `StringManager` (for a
string id that fits the `uint8_t`) by `update` and `forceNoteOff` calls, the fret
positions being those `mapPitchToFret` computes for the manager's own string:
(a) if `noteOn` then `0 ≤ currentFret ≤ 24` and `currentMidiNote` is
`getOpenStringMidiNote(string) + currentFret`; (b) if not `noteOn` then
`currentFret = -1` and `currentMidiNote = 0`; (c) `0 ≤ fretChangeCounter <
FRET_CHANGE_THRESHOLD`, and `fretChangeCounter = 0` iff `pendingFret = -1`. -/
theorem note_state_invariant (log2 : ℚ → ℚ) (d : MidiDinOut) (string : Nat)
    (hid : string < 256) (calls : List Call) :
    (run (NoteMapping.frequencyToFret log2) d (new string) calls).stringId = string ∧
      ((run (NoteMapping.frequencyToFret log2) d (new string) calls).noteOn = true →
        0 ≤ (run (NoteMapping.frequencyToFret log2) d (new string) calls).currentFret ∧
          (run (NoteMapping.frequencyToFret log2) d (new string) calls).currentFret ≤ 24 ∧
          ((run (NoteMapping.frequencyToFret log2) d (new string) calls).currentMidiNote : Int) =
            (NoteMapping.getOpenStringMidiNote string : Int) +
              (run (NoteMapping.frequencyToFret log2) d (new string) calls).currentFret) ∧
      ((run (NoteMapping.frequencyToFret log2) d (new string) calls).noteOn = false →
        (run (NoteMapping.frequencyToFret log2) d (new string) calls).currentFret = -1 ∧
          (run (NoteMapping.frequencyToFret log2) d (new string) calls).currentMidiNote = 0) ∧
      (0 ≤ (run (NoteMapping.frequencyToFret log2) d (new string) calls).fretChangeCounter ∧
        (run (NoteMapping.frequencyToFret log2) d (new string) calls).fretChangeCounter <
          FRET_CHANGE_THRESHOLD) ∧
      ((run (NoteMapping.frequencyToFret log2) d (new string) calls).fretChangeCounter = 0 ↔
        (run (NoteMapping.frequencyToFret log2) d (new string) calls).pendingFret = -1) := by
  obtain ⟨⟨h1, h2, h3, h4⟩, hs⟩ :=
    noteState_run log2 d calls (new string) hid (noteState_new string)
  have hs2 : (run (NoteMapping.frequencyToFret log2) d (new string) calls).stringId = string :=
    hs
  rw [hs2] at h1
  exact ⟨hs2, h1, h2, h3, h4⟩

/-- Witness for C38: the E string after an Attack tick at the octave (fret 12);
the note is on at fret 12 with MIDI note 28 + 12 = 40. -/
theorem note_state_invariant_witness :
    (0 < 256) ∧
      (run (NoteMapping.frequencyToFret NoteMapping.exampleLog2) MidiDinOut.mk0.init (new 0)
        [.update (pitchedTick .Attack (41203 / 500))]).noteOn = true ∧
      ((run (NoteMapping.frequencyToFret NoteMapping.exampleLog2) MidiDinOut.mk0.init (new 0)
        [.update (pitchedTick .Attack (41203 / 500))]).currentMidiNote : Int) =
        (NoteMapping.getOpenStringMidiNote 0 : Int) +
          (run (NoteMapping.frequencyToFret NoteMapping.exampleLog2) MidiDinOut.mk0.init (new 0)
            [.update (pitchedTick .Attack (41203 / 500))]).currentFret ∧
      (run (NoteMapping.frequencyToFret NoteMapping.exampleLog2) MidiDinOut.mk0.init (new 0)
        [.update (pitchedTick .Attack (41203 / 500))]).currentFret = 12 :=
  ⟨by decide, by with_unfolding_all decide,
    ((note_state_invariant NoteMapping.exampleLog2 MidiDinOut.mk0.init 0 (by decide)
      [.update (pitchedTick .Attack (41203 / 500))]).2.1 (by with_unfolding_all decide)).2.2,
    by with_unfolding_all decide⟩

end StringManager

/-! ## PitchDetectorYin: difference function, CMNDF and lag search -/

namespace PitchDetectorYin

theorem fold_setAt (g : Nat → ℚ) (a : Nat → ℚ) (n t : Nat) :
    ((List.range n).foldl (fun d tau => setAt d tau (g tau)) a) t =
      if t < n then g t else a t := by
  induction n with
  | zero => simp
  | succ n ih =>
    rw [List.range_succ, List.foldl_append]
    simp only [List.foldl_cons, List.foldl_nil, setAt]
    by_cases h : t = n
    · subst h; simp
    · rw [if_neg h, ih]
      by_cases h2 : t < n
      · rw [if_pos h2, if_pos (by omega)]
      · rw [if_neg h2, if_neg (by omega)]

theorem fold_sum (f : Nat → ℚ) (n : Nat) :
    (List.range n).foldl (fun sum j => sum + f j) 0 = ∑ j in Finset.range n, f j := by
  induction n with
  | zero => simp
  | succ n ih =>
    rw [List.range_succ, List.foldl_append, ih, Finset.sum_range_succ]
    rfl

theorem differenceAt_eq (y : PitchDetectorYin) (x : Nat → ℚ) (tau : Nat)
    (htau : tau ≤ y.bufferSize) (hN : y.bufferSize < 2 ^ 32) :
    differenceAt y x tau = differenceOf y.bufferSize x tau := by
  unfold differenceAt differenceOf
  have e : (y.bufferSize + 2 ^ 32 - tau) % 2 ^ 32 = y.bufferSize - tau := by omega
  rw [e, fold_sum (fun j => (x j - x (j + tau)) * (x j - x (j + tau)))]
  apply Finset.sum_congr rfl
  intro j _
  ring

theorem computeDifference_apply (y : PitchDetectorYin) (x : Nat → ℚ) (t : Nat) :
    (computeDifference y x).differenceFunction t =
      if t < y.maxLag then differenceAt y x t else y.differenceFunction t := by
  unfold computeDifference
  simp only
  rw [fold_setAt (fun tau => differenceAt y x tau)]

theorem cmndfOf_congr (d e : Nat → ℚ) (tau : Nat) (h : ∀ k, 1 ≤ k → k ≤ tau → d k = e k)
    (h1 : 1 ≤ tau) : cmndfOf d tau = cmndfOf e tau := by
  unfold cmndfOf
  have hs : ∑ k in Finset.Icc 1 tau, d k = ∑ k in Finset.Icc 1 tau, e k := by
    apply Finset.sum_congr rfl
    intro k hk
    rw [Finset.mem_Icc] at hk
    exact h k hk.1 hk.2
  rw [hs, h tau h1 (le_refl _)]

theorem cmndf_fold (d : Nat → ℚ) (a : Nat → ℚ) (n : Nat) :
    ((List.range' 1 n).foldl (cmndfStep d) (0, a)).1 = ∑ k in Finset.Icc 1 n, d k ∧
      ∀ t, ((List.range' 1 n).foldl (cmndfStep d) (0, a)).2 t =
        if 1 ≤ t ∧ t ≤ n then cmndfOf d t else a t := by
  induction n with
  | zero =>
    refine ⟨by simp, ?_⟩
    intro t
    rw [if_neg (by omega)]
    rfl
  | succ n ih =>
    obtain ⟨ih1, ih2⟩ := ih
    have hsum : ∑ k in Finset.Icc 1 (n + 1), d k = ∑ k in Finset.Icc 1 n, d k + d (n + 1) := by
      rw [← Nat.Ico_succ_right, ← Nat.Ico_succ_right, Finset.sum_Ico_succ_top (by omega)]
    rw [List.range'_1_concat, List.foldl_append]
    simp only [List.foldl_cons, List.foldl_nil]
    generalize (List.range' 1 n).foldl (cmndfStep d) (0, a) = r at ih1 ih2
    have hstep : cmndfStep d r (1 + n) =
        (r.1 + d (n + 1), setAt r.2 (n + 1) (cmndfOf d (n + 1))) := by
      unfold cmndfStep cmndfOf
      rw [hsum, ← ih1, Nat.add_comm 1 n]
      simp only
      split_ifs with h0
      · rfl
      · congr 2
        push_cast
        field_simp
    rw [hstep]
    refine ⟨by rw [hsum, ih1], ?_⟩
    intro t
    simp only [setAt]
    by_cases ht : t = n + 1
    · subst ht
      rw [if_pos rfl, if_pos (by omega)]
    · rw [if_neg ht, ih2 t]
      by_cases h2 : 1 ≤ t ∧ t ≤ n
      · rw [if_pos h2, if_pos (by omega)]
      · rw [if_neg h2, if_neg (by omega)]

theorem computeCMNDF_apply (y : PitchDetectorYin) (t : Nat) :
    (computeCMNDF y).cmndf t =
      if t = 0 then 1
      else if t < y.maxLag then cmndfOf y.differenceFunction t else y.cmndf t := by
  unfold computeCMNDF
  simp only
  rw [(cmndf_fold y.differenceFunction (setAt y.cmndf 0 1) (y.maxLag - 1)).2 t]
  by_cases h0 : t = 0
  · subst h0
    rw [if_neg (by omega), if_pos rfl]
    simp [setAt]
  · rw [if_neg h0]
    by_cases h1 : t < y.maxLag
    · rw [if_pos h1, if_pos (by omega)]
    · rw [if_neg h1, if_neg (by omega)]
      simp [setAt, h0]

theorem analyse_cmndf_raw (y : PitchDetectorYin) (x : Nat → ℚ) (t : Nat) :
    (analyse y x).cmndf t =
      if t = 0 then 1
      else if t < y.maxLag then cmndfOf (differenceAt y x) t else y.cmndf t := by
  unfold analyse
  rw [computeCMNDF_apply]
  by_cases h0 : t = 0
  · rw [if_pos h0, if_pos h0]
  · rw [if_neg h0, if_neg h0]
    have hm : (computeDifference y x).maxLag = y.maxLag := rfl
    have hc : (computeDifference y x).cmndf = y.cmndf := rfl
    rw [hm, hc]
    by_cases h1 : t < y.maxLag
    · rw [if_pos h1, if_pos h1]
      apply cmndfOf_congr _ _ _ _ (by omega)
      intro k _ hk
      rw [computeDifference_apply, if_pos (by omega)]
    · rw [if_neg h1, if_neg h1]

theorem analyse_cmndf (y : PitchDetectorYin) (x : Nat → ℚ) (t : Nat)
    (hsize : y.maxLag ≤ y.bufferSize) (hN : y.bufferSize < 2 ^ 32) :
    (analyse y x).cmndf t =
      if t = 0 then 1
      else if t < y.maxLag then cmndfOf (differenceOf y.bufferSize x) t else y.cmndf t := by
  rw [analyse_cmndf_raw]
  by_cases h0 : t = 0
  · rw [if_pos h0, if_pos h0]
  · rw [if_neg h0, if_neg h0]
    by_cases h1 : t < y.maxLag
    · rw [if_pos h1, if_pos h1]
      apply cmndfOf_congr _ _ _ _ (by omega)
      intro k _ hk
      exact differenceAt_eq y x k (by omega) hN
    · rw [if_neg h1, if_neg h1]

theorem analyse_difference (y : PitchDetectorYin) (x : Nat → ℚ) (t : Nat)
    (hsize : y.maxLag ≤ y.bufferSize) (hN : y.bufferSize < 2 ^ 32) :
    (analyse y x).differenceFunction t =
      if t < y.maxLag then differenceOf y.bufferSize x t else y.differenceFunction t := by
  unfold analyse
  have h := computeDifference_apply y x t
  by_cases h1 : t < y.maxLag
  · rw [if_pos h1] at h ⊢
    rw [← differenceAt_eq y x t (by omega) hN]
    exact h
  · rw [if_neg h1] at h ⊢
    exact h

theorem find_range_from (p : Nat → Bool) : ∀ (n s : Nat),
    (∀ t, (List.range' s n).find? p = some t →
        s ≤ t ∧ t < s + n ∧ p t = true ∧ ∀ u, s ≤ u → u < t → p u = false) ∧
      ((List.range' s n).find? p = none → ∀ u, s ≤ u → u < s + n → p u = false) := by
  intro n
  induction n with
  | zero =>
    intro s
    refine ⟨?_, ?_⟩
    · intro t h
      simp at h
    · intro _ u h1 h2
      omega
  | succ n ih =>
    intro s
    rw [List.range'_succ, List.find?_cons]
    cases hp : p s with
    | true =>
      simp only
      refine ⟨?_, ?_⟩
      · intro t h
        have e : s = t := Option.some.inj h
        subst e
        exact ⟨le_refl _, by omega, hp, fun u h1 h2 => by omega⟩
      · intro h
        exact absurd h (by simp)
    | false =>
      simp only
      obtain ⟨ih1, ih2⟩ := ih (s + 1)
      refine ⟨?_, ?_⟩
      · intro t h
        obtain ⟨a, b, c, d⟩ := ih1 t h
        refine ⟨by omega, by omega, c, ?_⟩
        intro u h1 h2
        by_cases e : u = s
        · rw [e]; exact hp
        · exact d u (by omega) h2
      · intro h u h1 h2
        by_cases e : u = s
        · rw [e]; exact hp
        · exact ih2 h u (by omega) (by omega)

theorem minStep_fold (c : Nat → ℚ) (s : Nat) : ∀ n : Nat,
    s ≤ ((List.range' (s + 1) n).foldl (minStep c) (s, c s)).1 ∧
      ((List.range' (s + 1) n).foldl (minStep c) (s, c s)).1 ≤ s + n ∧
      ((List.range' (s + 1) n).foldl (minStep c) (s, c s)).2 =
        c ((List.range' (s + 1) n).foldl (minStep c) (s, c s)).1 ∧
      (∀ t, s ≤ t → t ≤ s + n →
        c ((List.range' (s + 1) n).foldl (minStep c) (s, c s)).1 ≤ c t) ∧
      (∀ t, s ≤ t → t < ((List.range' (s + 1) n).foldl (minStep c) (s, c s)).1 →
        c ((List.range' (s + 1) n).foldl (minStep c) (s, c s)).1 < c t) := by
  intro n
  induction n with
  | zero =>
    refine ⟨le_refl _, le_refl _, rfl, ?_, ?_⟩
    · intro t h1 h2
      have e : t = s := by omega
      rw [e]
      exact le_refl _
    · intro t h1 h2
      simp only [List.range'_zero, List.foldl_nil] at h2
      omega
  | succ n ih =>
    rw [List.range'_1_concat, List.foldl_append]
    simp only [List.foldl_cons, List.foldl_nil]
    generalize (List.range' (s + 1) n).foldl (minStep c) (s, c s) = r at ih
    obtain ⟨h1, h2, h3, h4, h5⟩ := ih
    unfold minStep
    by_cases hlt : c (s + 1 + n) < r.2
    · rw [if_pos hlt]
      simp only
      rw [h3] at hlt
      refine ⟨by omega, by omega, trivial, ?_, ?_⟩
      · intro t ht1 ht2
        by_cases e : t = s + 1 + n
        · rw [e]
        · exact le_trans (le_of_lt hlt) (h4 t ht1 (by omega))
      · intro t ht1 ht2
        exact lt_of_lt_of_le hlt (h4 t ht1 (by omega))
    · rw [if_neg hlt]
      rw [h3] at hlt
      refine ⟨h1, by omega, h3, ?_, h5⟩
      intro t ht1 ht2
      by_cases e : t = s + 1 + n
      · rw [e]; exact not_lt.mp hlt
      · exact h4 t ht1 (by omega)

theorem maxLagMinusOne_eq (y : PitchDetectorYin) (h1 : 1 ≤ y.maxLag) (hmax : y.maxLag < 2 ^ 32) :
    maxLagMinusOne y = y.maxLag - 1 := by
  unfold maxLagMinusOne
  have e : y.maxLag + 2 ^ 32 - 1 = (y.maxLag - 1) + 2 ^ 32 := by omega
  rw [e, Nat.add_mod_right, Nat.mod_eq_of_lt (by omega)]

theorem isFirstMin_unique (y : PitchDetectorYin) (m n : Nat) (hm : IsFirstMin y m)
    (hn : IsFirstMin y n) : m = n := by
  obtain ⟨a1, a2, a3, a4⟩ := hm
  obtain ⟨b1, b2, b3, b4⟩ := hn
  rcases Nat.lt_trichotomy m n with h | h | h
  · exact absurd (b4 m a1 h) (not_lt.mpr (a3 n b1 b2))
  · exact h
  · exact absurd (a4 n b1 h) (not_lt.mpr (b3 m a1 a2))

/-- What `absoluteThreshold` returns when the search range is not empty: the
first lag of `[minLag, maxLag - 2]` that passes the test of the first loop, or
else the first least lag of `[minLag, maxLag - 1]` if its value is below 1/2,
or else 0. -/
theorem absoluteThreshold_cases (y : PitchDetectorYin) (hlag : y.minLag < y.maxLag)
    (hmax : y.maxLag < 2 ^ 32) :
    (∃ t, y.minLag ≤ t ∧ t + 1 < y.maxLag ∧ Dip y t ∧
        (∀ u, y.minLag ≤ u → u < t → ¬ Dip y u) ∧ absoluteThreshold y = t) ∨
      ((∀ u, y.minLag ≤ u → u + 1 < y.maxLag → ¬ Dip y u) ∧
        ∃ m, IsFirstMin y m ∧ absoluteThreshold y = if y.cmndf m < 1 / 2 then m else 0) := by
  have hm1 := maxLagMinusOne_eq y (by omega) hmax
  have hdip : ∀ u, (decide (y.cmndf u < y.confidenceThreshold) &&
      decide (y.cmndf u < y.cmndf (u + 1))) = false → ¬ Dip y u := by
    intro u h hd
    unfold Dip at hd
    simp only [Bool.and_eq_false_iff, decide_eq_false_iff_not] at h
    rcases h with h | h
    · exact h hd.1
    · exact h hd.2
  obtain ⟨f1, f2⟩ := find_range_from (fun tau => decide (y.cmndf tau < y.confidenceThreshold) &&
      decide (y.cmndf tau < y.cmndf (tau + 1))) (maxLagMinusOne y - y.minLag) y.minLag
  unfold absoluteThreshold
  cases hf : (List.range' y.minLag (maxLagMinusOne y - y.minLag)).find?
      (fun tau => decide (y.cmndf tau < y.confidenceThreshold) &&
        decide (y.cmndf tau < y.cmndf (tau + 1))) with
  | some t =>
    left
    obtain ⟨a, b, c, d⟩ := f1 t hf
    refine ⟨t, a, by omega, ?_, fun u h1 h2 => hdip u (d u h1 h2), rfl⟩
    simp only [Bool.and_eq_true, decide_eq_true_eq] at c
    exact c
  | none =>
    right
    refine ⟨fun u h1 h2 => hdip u (f2 hf u h1 (by omega)), ?_⟩
    obtain ⟨h1, h2, h3, h4, h5⟩ := minStep_fold y.cmndf y.minLag (y.maxLag - (y.minLag + 1))
    simp only
    generalize (List.range' (y.minLag + 1) (y.maxLag - (y.minLag + 1))).foldl
      (minStep y.cmndf) (y.minLag, y.cmndf y.minLag) = r at h1 h2 h3 h4 h5
    refine ⟨r.1, ⟨h1, by omega, fun t ht1 ht2 => h4 t ht1 (by omega), h5⟩, ?_⟩
    rw [h3]

theorem estimate_eq (y : PitchDetectorYin) (frame : Nat → ℚ) :
    estimate y (some frame) y.bufferSize =
      if absoluteThreshold (analyse y frame) = 0 then (PitchEstimate.default, analyse y frame)
      else
        ({ frequencyHz := y.sampleRate /
              parabolicInterpolation (analyse y frame) (absoluteThreshold (analyse y frame)),
           confidence := 1 - (analyse y frame).cmndf (absoluteThreshold (analyse y frame)) },
          analyse y frame) := by
  unfold estimate
  simp only [ne_eq, not_true_eq_false, if_false]
  rfl

theorem differenceOf_silent (N : Nat) (x : Nat → ℚ) (v : ℚ) (h : ∀ j, j < N → x j = v)
    (tau : Nat) : differenceOf N x tau = 0 := by
  unfold differenceOf
  apply Finset.sum_eq_zero
  intro j hj
  rw [Finset.mem_range] at hj
  rw [h j (by omega), h (j + tau) (by omega)]
  norm_num

theorem cmndfOf_zero (d : Nat → ℚ) (h : ∀ k, d k = 0) (tau : Nat) : cmndfOf d tau = 1 := by
  unfold cmndfOf
  rw [if_pos (Finset.sum_eq_zero (fun k _ => h k))]

/-- C39: for every detector with `minLag < maxLag`, whatever its working arrays
hold, and every frame of the configured size whose samples are all equal, every
`d(tau)` and every `cmndf(tau)` with `tau` in `[0, maxLag)` is 0 and 1 after the
two passes, `absoluteThreshold` returns 0 and `estimate` returns the invalid
estimate (frequency 0, confidence 0). -/
theorem silent_frame_no_pitch (y : PitchDetectorYin) (frame : Nat → ℚ) (v : ℚ)
    (hlag : y.minLag < y.maxLag) (hsize : y.maxLag ≤ y.bufferSize)
    (hN : y.bufferSize < 2 ^ 32) (hthr : y.confidenceThreshold = 15 / 100)
    (hsilent : ∀ j, j < y.bufferSize → frame j = v) :
    (∀ tau, tau < y.maxLag →
        (computeCMNDF (computeDifference y frame)).differenceFunction tau = 0) ∧
      (∀ tau, tau < y.maxLag → (computeCMNDF (computeDifference y frame)).cmndf tau = 1) ∧
      absoluteThreshold (computeCMNDF (computeDifference y frame)) = 0 ∧
      (estimate y (some frame) y.bufferSize).1 = PitchEstimate.default ∧
      (estimate y (some frame) y.bufferSize).1.confidence = 0 ∧
      (estimate y (some frame) y.bufferSize).1.isValid = false := by
  have hd : ∀ tau, tau < y.maxLag → (analyse y frame).differenceFunction tau = 0 := by
    intro tau h
    rw [analyse_difference y frame tau hsize hN, if_pos h, differenceOf_silent _ _ v hsilent]
  have hc : ∀ tau, tau < y.maxLag → (analyse y frame).cmndf tau = 1 := by
    intro tau h
    rw [analyse_cmndf y frame tau hsize hN]
    by_cases h0 : tau = 0
    · rw [if_pos h0]
    · rw [if_neg h0, if_pos h, cmndfOf_zero _ (differenceOf_silent _ _ v hsilent)]
  have hmin : (analyse y frame).minLag = y.minLag := rfl
  have hmaxl : (analyse y frame).maxLag = y.maxLag := rfl
  have ht : (analyse y frame).confidenceThreshold = 15 / 100 := hthr
  have h0 : absoluteThreshold (analyse y frame) = 0 := by
    rcases absoluteThreshold_cases (analyse y frame) (by rw [hmin, hmaxl]; exact hlag)
      (by rw [hmaxl]; omega) with ⟨t, h1, h2, h3, _, _⟩ | ⟨_, m, hm, he⟩
    · exfalso
      unfold Dip at h3
      rw [hmaxl] at h2
      rw [hc t (by omega), ht] at h3
      norm_num at h3
    · obtain ⟨a1, a2, _, _⟩ := hm
      rw [hmaxl] at a2
      rw [he, hc m a2, if_neg (by norm_num)]
  have he : estimate y (some frame) y.bufferSize =
      (PitchEstimate.default, analyse y frame) := by
    rw [estimate_eq, if_pos h0]
  rw [he]
  exact ⟨hd, hc, h0, rfl, rfl, show PitchEstimate.default.isValid = false by decide⟩

set_option maxRecDepth 8000 in
/-- Witness for C39: the all-zero frame of 16 samples, in a detector with lags
2 to 8 whose arrays hold the values of an earlier frame. -/
theorem silent_frame_no_pitch_witness :
    (afterFrames (new 512 8000 16 100 4000) [fun j => ((j % 3 : Nat) : ℚ)]).minLag <
        (afterFrames (new 512 8000 16 100 4000) [fun j => ((j % 3 : Nat) : ℚ)]).maxLag ∧
      (estimate (afterFrames (new 512 8000 16 100 4000) [fun j => ((j % 3 : Nat) : ℚ)])
        (some (fun _ => 0))
        (afterFrames (new 512 8000 16 100 4000)
          [fun j => ((j % 3 : Nat) : ℚ)]).bufferSize).1 = PitchEstimate.default :=
  ⟨by with_unfolding_all decide,
    (silent_frame_no_pitch
      (afterFrames (new 512 8000 16 100 4000) [fun j => ((j % 3 : Nat) : ℚ)])
      (fun _ => 0) 0 (by with_unfolding_all decide) (by with_unfolding_all decide)
      (by with_unfolding_all decide) (by with_unfolding_all decide) (fun _ _ => rfl)).2.2.2.1⟩

/-- C33 (amended): for every detector whose search range is not empty
(`minLag < maxLag`) and every content of the CMNDF array, `absoluteThreshold`
returns the smallest lag `tau` in `[minLag, maxLag - 2]` with
`cmndf(tau) < confidenceThreshold` and `cmndf(tau) < cmndf(tau + 1)` if there is
one; otherwise the first lag of `[minLag, maxLag - 1]` with the least CMNDF
value, provided that value is below 1/2; otherwise 0. A non-zero result lies in
`[minLag, maxLag - 1]`, `estimate` returns the invalid estimate when the result
is 0, and the constructor sets the threshold to 0.15. -/
theorem absoluteThreshold_spec (y : PitchDetectorYin) (hlag : y.minLag < y.maxLag)
    (hmax : y.maxLag < 2 ^ 32) :
    ((∃ t, y.minLag ≤ t ∧ t + 1 < y.maxLag ∧
          y.cmndf t < y.confidenceThreshold ∧ y.cmndf t < y.cmndf (t + 1)) →
        y.minLag ≤ absoluteThreshold y ∧ absoluteThreshold y + 1 < y.maxLag ∧
          y.cmndf (absoluteThreshold y) < y.confidenceThreshold ∧
          y.cmndf (absoluteThreshold y) < y.cmndf (absoluteThreshold y + 1) ∧
          ∀ u, y.minLag ≤ u → u < absoluteThreshold y →
            ¬ (y.cmndf u < y.confidenceThreshold ∧ y.cmndf u < y.cmndf (u + 1))) ∧
      ((¬ ∃ t, y.minLag ≤ t ∧ t + 1 < y.maxLag ∧
          y.cmndf t < y.confidenceThreshold ∧ y.cmndf t < y.cmndf (t + 1)) →
        ∃ m, IsFirstMin y m ∧ (y.cmndf m < 1 / 2 → absoluteThreshold y = m) ∧
          (1 / 2 ≤ y.cmndf m → absoluteThreshold y = 0)) ∧
      (absoluteThreshold y ≠ 0 →
        y.minLag ≤ absoluteThreshold y ∧ absoluteThreshold y < y.maxLag) ∧
      (∀ frame : Nat → ℚ, absoluteThreshold (computeCMNDF (computeDifference y frame)) = 0 →
        (estimate y (some frame) y.bufferSize).1 = PitchEstimate.default) ∧
      (∀ (MAX_LAG : Nat) (sampleRate : ℚ) (bufferSize : Nat) (minFreq maxFreq : ℚ),
        (new MAX_LAG sampleRate bufferSize minFreq maxFreq).confidenceThreshold = 15 / 100) := by
  have hcases := absoluteThreshold_cases y hlag hmax
  refine ⟨?_, ?_, ?_, ?_, ?_⟩
  · rintro ⟨t, ht1, ht2, ht3, ht4⟩
    rcases hcases with ⟨s, h1, h2, h3, h4, h5⟩ | ⟨hno, _⟩
    · rw [h5]
      exact ⟨h1, h2, h3.1, h3.2, h4⟩
    · exact absurd ⟨ht3, ht4⟩ (hno t ht1 ht2)
  · intro hnone
    rcases hcases with ⟨s, h1, h2, h3, h4, h5⟩ | ⟨_, m, hm, he⟩
    · exact absurd ⟨s, h1, h2, h3.1, h3.2⟩ hnone
    · refine ⟨m, hm, ?_, ?_⟩
      · intro h; rw [he, if_pos h]
      · intro h; rw [he, if_neg (not_lt.mpr h)]
  · intro hne
    rcases hcases with ⟨s, h1, h2, h3, h4, h5⟩ | ⟨_, m, hm, he⟩
    · rw [h5]; exact ⟨h1, by omega⟩
    · by_cases h : y.cmndf m < 1 / 2
      · rw [he, if_pos h]; exact ⟨hm.1, hm.2.1⟩
      · rw [he, if_neg h] at hne; exact absurd rfl hne
  · intro frame h0
    rw [estimate_eq]
    unfold analyse
    rw [if_pos h0]
  · intro _ _ _ _ _
    rfl

set_option maxRecDepth 8000 in
/-- Witness for C33 (amended): a frame of 16 samples with period 4 in a detector
with lags 2 to 8; the search returns lag 4. -/
theorem absoluteThreshold_spec_witness :
    (computeCMNDF (computeDifference (new 512 8000 16 100 4000)
        (fun j => ((j % 4 : Nat) : ℚ)))).minLag <
      (computeCMNDF (computeDifference (new 512 8000 16 100 4000)
        (fun j => ((j % 4 : Nat) : ℚ)))).maxLag ∧
    (computeCMNDF (computeDifference (new 512 8000 16 100 4000)
        (fun j => ((j % 4 : Nat) : ℚ)))).maxLag < 2 ^ 32 ∧
    absoluteThreshold (computeCMNDF (computeDifference (new 512 8000 16 100 4000)
        (fun j => ((j % 4 : Nat) : ℚ)))) = 4 ∧
    (absoluteThreshold (computeCMNDF (computeDifference (new 512 8000 16 100 4000)
        (fun j => ((j % 4 : Nat) : ℚ)))) ≠ 0 →
      (computeCMNDF (computeDifference (new 512 8000 16 100 4000)
          (fun j => ((j % 4 : Nat) : ℚ)))).minLag ≤
        absoluteThreshold (computeCMNDF (computeDifference (new 512 8000 16 100 4000)
          (fun j => ((j % 4 : Nat) : ℚ)))) ∧
      absoluteThreshold (computeCMNDF (computeDifference (new 512 8000 16 100 4000)
          (fun j => ((j % 4 : Nat) : ℚ)))) <
        (computeCMNDF (computeDifference (new 512 8000 16 100 4000)
          (fun j => ((j % 4 : Nat) : ℚ)))).maxLag) :=
  ⟨by with_unfolding_all decide, by with_unfolding_all decide, by with_unfolding_all decide,
    (absoluteThreshold_spec
      (computeCMNDF (computeDifference (new 512 8000 16 100 4000)
        (fun j => ((j % 4 : Nat) : ℚ))))
      (by with_unfolding_all decide) (by with_unfolding_all decide)).2.2.1⟩

set_option maxRecDepth 8000 in
/-- C33: counterexample to the claim as stated. (i) In the state `tiedState`
(`minLag = 2`, `maxLag = 4`, `cmndf(2) = cmndf(3) = 1/10`, `cmndf(4) = 1`) the
smallest lag of `[minLag, maxLag - 1]` below 0.15 and below its right neighbour
is 3, and `absoluteThreshold` returns 2. (ii) The constructor called with
sample rate 8000, frame size 16 and `minFreq = maxFreq = 1000` gives
`minLag = maxLag = 8`; on the all-zero frame `absoluteThreshold` returns 8, a
non-zero result outside `[minLag, maxLag - 1]`. -/
theorem absoluteThreshold_range_counterexample :
    (tiedState.minLag ≤ 3 ∧ 3 ≤ tiedState.maxLag - 1 ∧
        tiedState.cmndf 3 < 15 / 100 ∧ tiedState.cmndf 3 < tiedState.cmndf (3 + 1) ∧
        ¬ (tiedState.cmndf 2 < 15 / 100 ∧ tiedState.cmndf 2 < tiedState.cmndf (2 + 1)) ∧
        absoluteThreshold tiedState = 2) ∧
      ((new 512 8000 16 1000 1000).minLag = 8 ∧ (new 512 8000 16 1000 1000).maxLag = 8 ∧
        absoluteThreshold
          (computeCMNDF (computeDifference (new 512 8000 16 1000 1000) (fun _ => 0))) = 8 ∧
        ¬ (8 ≤ (new 512 8000 16 1000 1000).maxLag - 1)) := by
  refine ⟨⟨?_, ?_, ?_, ?_, ?_, ?_⟩, ?_, ?_, ?_, ?_⟩ <;> with_unfolding_all decide

set_option maxRecDepth 8000 in
/-- C35: the detector built for sample rate 8000, frame size 18, `minFreq` 100
and `maxFreq` 1100 has `minLag = 7` and `maxLag = 9`. On the frame that repeats
3, 3, -1, -1, -1, 0 `absoluteThreshold` returns 7, the lower end of the search
range; `parabolicInterpolation` does not skip the interpolation there and
returns `7 - 16328/1739` instead of 7. -/
theorem interpolation_not_skipped_at_minLag :
    (new 512 8000 18 100 1100).minLag = 7 ∧ (new 512 8000 18 100 1100).maxLag = 9 ∧
      absoluteThreshold
        (computeCMNDF (computeDifference (new 512 8000 18 100 1100) periodSixFrame)) = 7 ∧
      parabolicInterpolation
        (computeCMNDF (computeDifference (new 512 8000 18 100 1100) periodSixFrame)) 7 =
          7 - 16328 / 1739 ∧
      parabolicInterpolation
        (computeCMNDF (computeDifference (new 512 8000 18 100 1100) periodSixFrame)) 7 ≠ 7 :=
  ⟨by with_unfolding_all decide, by with_unfolding_all decide, by with_unfolding_all decide,
    le_antisymm (by with_unfolding_all decide) (by with_unfolding_all decide),
    by with_unfolding_all decide⟩

theorem toSize_example_low : toSize ((8000 : ℚ) / 30) = 266 := by
  unfold toSize
  rw [Nat.floor_eq_iff (by norm_num)]
  norm_num

theorem toSize_example_high : toSize ((8000 : ℚ) / 100) = 80 := by
  unfold toSize
  rw [Nat.floor_eq_iff (by norm_num)]
  norm_num

theorem new_example (MAX_LAG : Nat) (h1 : 80 < MAX_LAG) (h2 : MAX_LAG ≤ 2 ^ 32) :
    new MAX_LAG 8000 64 30 100 =
      { sampleRate := 8000, bufferSize := 64, minFreq := 30, maxFreq := 100,
        confidenceThreshold := 15 / 100, maxLag := 32, minLag := 80,
        differenceFunction := fun _ => 0, cmndf := fun _ => 0 } := by
  unfold new
  simp only [toSize_example_low, toSize_example_high]
  have e1 : min (min 266 (64 / 2)) ((MAX_LAG + 2 ^ 32 - 1) % 2 ^ 32) = 32 := by omega
  have e2 : max 80 1 = 80 := by omega
  rw [e1, e2]

/-- With an empty search range (`maxLag ≤ minLag`), `absoluteThreshold` reads
`cmndf[minLag]`, which `computeCMNDF` did not write, and `estimate` reports the
lag `minLag` when that stale value is below 1/2. -/
theorem estimate_of_empty_range (y : PitchDetectorYin) (frame : Nat → ℚ)
    (hlag : y.maxLag ≤ y.minLag) (h1 : 1 ≤ y.maxLag) (hmax : y.maxLag < 2 ^ 32)
    (hstale : y.cmndf y.minLag < 1 / 2) :
    (analyse y frame).cmndf y.minLag = y.cmndf y.minLag ∧
      absoluteThreshold (analyse y frame) = y.minLag ∧
      (estimate y (some frame) y.bufferSize).1 =
        { frequencyHz := y.sampleRate / (y.minLag : ℚ), confidence := 1 - y.cmndf y.minLag } := by
  have hc : (analyse y frame).cmndf y.minLag = y.cmndf y.minLag := by
    rw [analyse_cmndf_raw, if_neg (by omega), if_neg (by omega)]
  have hmin2 : (analyse y frame).minLag = y.minLag := rfl
  have hmax2 : (analyse y frame).maxLag = y.maxLag := rfl
  have hm1 : maxLagMinusOne (analyse y frame) = y.maxLag - 1 := by
    rw [maxLagMinusOne_eq _ (by rw [hmax2]; exact h1) (by rw [hmax2]; exact hmax), hmax2]
  have hat : absoluteThreshold (analyse y frame) = y.minLag := by
    unfold absoluteThreshold
    rw [hm1, hmin2, hmax2]
    have e1 : y.maxLag - 1 - y.minLag = 0 := by omega
    have e2 : y.maxLag - (y.minLag + 1) = 0 := by omega
    rw [e1, e2]
    simp only [List.range'_zero, List.find?_nil, List.foldl_nil, hc]
    rw [if_pos hstale]
  have hpi : parabolicInterpolation (analyse y frame) y.minLag = (y.minLag : ℚ) := by
    unfold parabolicInterpolation
    rw [hm1, if_pos (by omega)]
  refine ⟨hc, hat, ?_⟩
  rw [estimate_eq, hat, if_neg (by omega), hpi, hc]

/-- C36: the constructor called with sample rate 8000, frame size 64,
`minFreq = 30` and `maxFreq = 100` (and any `MAX_LAG` above 80) leaves
`maxLag = 32` and `minLag = 80`: `minLag` is above `maxLag` and above half the
frame size. `computeCMNDF` then never writes `cmndf[80]`, which keeps the 0 the
constructor stored; `absoluteThreshold` reads it and returns 80, and `estimate`
returns 100 Hz with confidence 1 for every frame of 64 samples. -/
theorem minLag_not_clamped (MAX_LAG : Nat) (frame : Nat → ℚ) (h1 : 80 < MAX_LAG)
    (h2 : MAX_LAG ≤ 2 ^ 32) :
    (new MAX_LAG 8000 64 30 100).minLag = 80 ∧
      (new MAX_LAG 8000 64 30 100).maxLag = 32 ∧
      ¬ ((new MAX_LAG 8000 64 30 100).minLag ≤ (new MAX_LAG 8000 64 30 100).maxLag) ∧
      ¬ ((new MAX_LAG 8000 64 30 100).minLag ≤ (new MAX_LAG 8000 64 30 100).bufferSize / 2) ∧
      (computeCMNDF (computeDifference (new MAX_LAG 8000 64 30 100) frame)).cmndf 80 = 0 ∧
      absoluteThreshold
        (computeCMNDF (computeDifference (new MAX_LAG 8000 64 30 100) frame)) = 80 ∧
      (estimate (new MAX_LAG 8000 64 30 100) (some frame) 64).1 =
        { frequencyHz := 100, confidence := 1 } := by
  have hy := new_example MAX_LAG h1 h2
  have hmin : (new MAX_LAG 8000 64 30 100).minLag = 80 := by rw [hy]
  have hmaxl : (new MAX_LAG 8000 64 30 100).maxLag = 32 := by rw [hy]
  have hbuf : (new MAX_LAG 8000 64 30 100).bufferSize = 64 := by rw [hy]
  have hsr : (new MAX_LAG 8000 64 30 100).sampleRate = 8000 := by rw [hy]
  have hc0 : (new MAX_LAG 8000 64 30 100).cmndf 80 = 0 := by rw [hy]
  change _ ∧ _ ∧ _ ∧ _ ∧ (analyse (new MAX_LAG 8000 64 30 100) frame).cmndf 80 = 0 ∧
    absoluteThreshold (analyse (new MAX_LAG 8000 64 30 100) frame) = 80 ∧ _
  clear hy
  generalize new MAX_LAG 8000 64 30 100 = y at hmin hmaxl hbuf hsr hc0 ⊢
  obtain ⟨a, b, c⟩ := estimate_of_empty_range y frame (by omega) (by omega) (by omega)
    (by rw [hmin, hc0]; norm_num)
  rw [hmin] at a b c
  rw [hbuf, hc0, hsr] at c
  rw [hc0] at a
  refine ⟨hmin, hmaxl, by omega, by omega, a, b, ?_⟩
  rw [c]
  norm_num

/-- Witness for C36: `MAX_LAG = 512` and the all-zero frame. -/
theorem minLag_not_clamped_witness :
    80 < 512 ∧ 512 ≤ 2 ^ 32 ∧
      (estimate (new 512 8000 64 30 100) (some (fun _ => 0)) 64).1 =
        { frequencyHz := 100, confidence := 1 } :=
  ⟨by decide, by decide,
    (minLag_not_clamped 512 (fun _ => 0) (by decide) (by decide)).2.2.2.2.2.2⟩

set_option maxRecDepth 8000 in
/-- C40: the detector built for sample rate 8000, frame size 18, `minFreq` 100
and `maxFreq` 1100 (`minLag = 7`, `maxLag = 9`), given the frame that repeats
3, 3, -1, -1, -1, 0. `absoluteThreshold` returns lag 7, interpolation is applied
there (`1 ≤ 7 < maxLag - 1`) with a non-zero denominator, and the refined lag is
`7 - 16328/1739`: more than 1/2 away from 7 and negative, so the frequency
returned is negative. The confidence is in `(1/2, 1]` and `isValid()` holds. -/
theorem refined_lag_negative :
    absoluteThreshold
        (computeCMNDF (computeDifference (new 512 8000 18 100 1100) periodSixFrame)) = 7 ∧
      (1 ≤ 7 ∧ 7 < maxLagMinusOne
        (computeCMNDF (computeDifference (new 512 8000 18 100 1100) periodSixFrame))) ∧
      parabolicInterpolation
        (computeCMNDF (computeDifference (new 512 8000 18 100 1100) periodSixFrame)) 7 =
          7 - 16328 / 1739 ∧
      parabolicInterpolation
        (computeCMNDF (computeDifference (new 512 8000 18 100 1100) periodSixFrame)) 7 - 7 <
          -(1 / 2) ∧
      parabolicInterpolation
        (computeCMNDF (computeDifference (new 512 8000 18 100 1100) periodSixFrame)) 7 < 0 ∧
      (estimate (new 512 8000 18 100 1100) (some periodSixFrame) 18).1.frequencyHz < 0 ∧
      1 / 2 < (estimate (new 512 8000 18 100 1100) (some periodSixFrame) 18).1.confidence ∧
      (estimate (new 512 8000 18 100 1100) (some periodSixFrame) 18).1.confidence ≤ 1 ∧
      (estimate (new 512 8000 18 100 1100) (some periodSixFrame) 18).1.isValid = true :=
  ⟨by with_unfolding_all decide, by with_unfolding_all decide,
    le_antisymm (by with_unfolding_all decide) (by with_unfolding_all decide),
    by with_unfolding_all decide, by with_unfolding_all decide, by with_unfolding_all decide,
    by with_unfolding_all decide, by with_unfolding_all decide, by with_unfolding_all decide⟩

end PitchDetectorYin

/-! ## StringProcessor: clearing and filtering the pitch -/

namespace StringProcessor

/-- A call of `process` that ends in Idle leaves the invalid estimate, from every
state that is not an Idle state holding a pitch. -/
theorem process_idle_cleared (p : StringProcessor)
    (h : p.state = .Idle → p.latestPitch = PitchEstimate.default)
    (hi : (process p).state = .Idle) : (process p).latestPitch = PitchEstimate.default := by
  by_cases he : RingBuffer.getAvailable p.sampleBuffer = 0
  · rw [process_of_empty p he] at hi ⊢; exact h hi
  · obtain ⟨p2, e1, _, e3, _, hs, _, _, hl⟩ := process_of_nonempty p he
    obtain ⟨_, _, _, _, _, _, hu, hidle⟩ := updateState_eq p2
    rw [hs] at hi
    rcases hl with hl | hl
    · rw [hl.1]
      by_cases hp : p2.state = .Idle
      · rcases hu with hu | hu
        · rw [hu, e3]; exact h (e1 ▸ hp)
        · exact hu.1
      · exact hidle hi hp
    · exact absurd hi (isActive_not_idle _ hl.1)

theorem step_idle_cleared (p : StringProcessor)
    (h : p.state = .Idle → p.latestPitch = PitchEstimate.default) (c : Call) :
    (step p c).state = .Idle → (step p c).latestPitch = PitchEstimate.default := by
  cases c with
  | pushSample x => exact h
  | process => exact process_idle_cleared p h
  | reset => intro _; rfl

theorem run_idle_cleared (calls : List Call) :
    ∀ p : StringProcessor, (p.state = .Idle → p.latestPitch = PitchEstimate.default) →
      (run p calls).state = .Idle → (run p calls).latestPitch = PitchEstimate.default := by
  induction calls with
  | nil => intro p h; exact h
  | cons c calls ih => intro p h; exact ih _ (step_idle_cleared p h c)

/-- C26: the last pitch estimate is cleared on entering Idle. For every state `p`
of the processor, whatever pitch it holds: a call of `updateState` or of
`process` that takes a processor that is not in Idle into Idle leaves the invalid
estimate (frequency 0, confidence 0), and so does `reset`. Hence, from every
state `p0` that is not an Idle state holding a pitch, and in particular from the
constructed processor, every sequence of `pushSample`, `process` and `reset`
calls leads to a state in which `getLatestPitch()` is the invalid estimate
whenever `getState()` is Idle. -/
theorem idle_pitch_cleared (p0 : StringProcessor) (calls : List Call)
    (h0 : p0.state = .Idle → p0.latestPitch = PitchEstimate.default) :
    (getState (run p0 calls) = .Idle →
        getLatestPitch (run p0 calls) = PitchEstimate.default ∧
          (getLatestPitch (run p0 calls)).frequencyHz = 0 ∧
          (getLatestPitch (run p0 calls)).confidence = 0) ∧
      (∀ p : StringProcessor, p.state ≠ .Idle → (updateState p).state = .Idle →
        (updateState p).latestPitch = PitchEstimate.default) ∧
      (∀ p : StringProcessor, p.state ≠ .Idle → (process p).state = .Idle →
        (process p).latestPitch = PitchEstimate.default) ∧
      (∀ p : StringProcessor,
        (reset p).state = .Idle ∧ (reset p).latestPitch = PitchEstimate.default) ∧
      (∀ (exp : ℚ → ℚ) (MAX_LAG : Nat) (minFreq maxFreq : ℚ) (stringId : Nat)
          (sampleRate : ℚ),
        (new exp MAX_LAG minFreq maxFreq stringId sampleRate).state = .Idle ∧
          (new exp MAX_LAG minFreq maxFreq stringId sampleRate).latestPitch =
            PitchEstimate.default) := by
  refine ⟨?_, ?_, ?_, fun p => ⟨rfl, rfl⟩, fun _ _ _ _ _ _ => ⟨rfl, rfl⟩⟩
  · intro hi
    have hd := run_idle_cleared calls p0 h0 hi
    unfold getLatestPitch
    rw [hd]
    exact ⟨rfl, rfl, rfl⟩
  · intro p hp hi
    exact (updateState_eq p).2.2.2.2.2.2.2 hi hp
  · intro p hp hi
    exact process_idle_cleared p (fun h => absurd h hp) hi

set_option maxRecDepth 8000 in
/-- Witness for C26: a processor in state Release that still holds a pitch of
55 Hz with confidence 0.9; after one sample at the ADC midpoint and a `process`
call it is in Idle and the pitch is the invalid estimate. -/
theorem idle_pitch_cleared_witness :
    (heldPitchProcessor.state = .Idle →
        heldPitchProcessor.latestPitch = PitchEstimate.default) ∧
      heldPitchProcessor.latestPitch.confidence = 9 / 10 ∧
      getState (run heldPitchProcessor [.pushSample 2048, .process]) = .Idle ∧
      getLatestPitch (run heldPitchProcessor [.pushSample 2048, .process]) =
        PitchEstimate.default :=
  ⟨fun h => absurd h (by decide), by with_unfolding_all decide, by with_unfolding_all decide,
    ((idle_pitch_cleared heldPitchProcessor [.pushSample 2048, .process]
      (fun h => absurd h (by decide))).1 (by with_unfolding_all decide)).1⟩

end StringProcessor

end BassMINT
